import Mathlib

/-!
Verification of the ratchet-tree (TreeKEM) core of the `mls-rs` repository.

The authoritative source files are `aws-mls/src/tree_kem/mod.rs` and
`aws-mls/src/tree_kem/tree_hash.rs`.  The supporting modules they use
(`node.rs` with `NodeVec`, `math.rs` with the tree math, `tree_index.rs`,
the proposal bundle, and the parent-hash module) are not part of the
provided sources; those are modelled from the specification, and each
such definition is marked `Modelled from the spec:` in its doc comment.

Byte strings are modelled as `List Nat`; the cipher-suite hash function is
an explicit parameter `H : List Nat → List Nat` of every hashing
operation (the specification treats it as an external collaborator).
-/

namespace MlsTree

/-! ## Tree math

Modelled from the spec: standard MLS array-based tree math (spec §3:
"Standard MLS tree math gives `parent`, `sibling`, `left`, `right`,
`subtree(n) = [leftmost_leaf, rightmost_leaf+1)`, `root(L)`"), where the
leaf count `L` supplied by the node vector is always the smallest power of
two at least the leaf-slot count (spec §3: "The tree holds `2L − 1` nodes
indexed `0 … 2L−2` where `L` is the smallest power of two ≥ occupied leaf
count").  Leaves sit at even indices (leaf `i` is node `2i`), parents at
odd indices. -/

/-- Fuel-driven worker for `level`; the fuel is an upper bound on the
number of binary digits inspected. -/
def levelGo : Nat → Nat → Nat
  | 0, _ => 0
  | fuel+1, x => if x % 2 = 0 then 0 else levelGo fuel (x / 2) + 1

/-- Modelled from the spec: the level of a node index, i.e. the number of
trailing one bits; leaves have level 0. -/
def level (x : Nat) : Nat := levelGo (x + 1) x

theorem levelGo_eq : ∀ x f g, x < f → x < g → levelGo f x = levelGo g x := by
  intro x
  induction x using Nat.strong_induction_on with
  | _ x ih =>
    intro f g hf hg
    match f, g with
    | f + 1, g + 1 =>
      by_cases he : x % 2 = 0
      · simp [levelGo, he]
      · have hx1 : 1 ≤ x := by omega
        have hd : x / 2 < x := Nat.div_lt_self (by omega) (by omega)
        simp only [levelGo, he, if_neg, if_false]
        rw [ih (x / 2) hd f g (by omega) (by omega)]

theorem levelGo_stable (fuel x : Nat) (h : x < fuel) : levelGo fuel x = level x :=
  levelGo_eq x fuel (x + 1) h (Nat.lt_succ_self x)

theorem level_two_mul (m : Nat) : level (2 * m) = 0 := by
  simp [level, levelGo, Nat.mul_mod_right]

theorem level_two_mul_add_one (m : Nat) : level (2 * m + 1) = level m + 1 := by
  have he : (2 * m + 1) % 2 = 1 := by omega
  have h1 : level (2 * m + 1) = levelGo (2 * m + 1) ((2 * m + 1) / 2) + 1 := by
    simp [level, levelGo, he]
  have h2 : (2 * m + 1) / 2 = m := by omega
  rw [h1, h2, levelGo_stable (2 * m + 1) m (by omega)]

/-- A node index of the form `m·2^(k+1) + (2^k − 1)` has level `k`. -/
theorem level_form (k : Nat) : ∀ m, level (m * 2 ^ (k + 1) + (2 ^ k - 1)) = k := by
  induction k with
  | zero =>
    intro m
    have h1 : (2:Nat) ^ 1 = 2 := rfl
    have h0 : (2:Nat) ^ 0 = 1 := rfl
    have : m * 2 ^ 1 + (2 ^ 0 - 1) = 2 * m := by rw [h1, h0]; omega
    rw [this, level_two_mul]
  | succ k ih =>
    intro m
    have hpow : 1 ≤ 2 ^ k := Nat.one_le_two_pow
    have e1 : (2:Nat) ^ (k + 1) = 2 * 2 ^ k := by rw [pow_succ]; ring
    have e2 : (2:Nat) ^ (k + 1 + 1) = 4 * 2 ^ k := by rw [pow_succ, pow_succ]; ring
    have e3 : m * (4 * 2 ^ k) = 2 * (m * (2 * 2 ^ k)) := by ring
    have : m * 2 ^ (k + 1 + 1) + (2 ^ (k + 1) - 1)
        = 2 * (m * 2 ^ (k + 1) + (2 ^ k - 1)) + 1 := by
      rw [e2, e1, e3]
      omega
    rw [this, level_two_mul_add_one, ih m]

/-- Every node index decomposes as `m·2^(level+1) + (2^level − 1)`. -/
theorem level_decomp (x : Nat) :
    x = x / 2 ^ (level x + 1) * 2 ^ (level x + 1) + (2 ^ level x - 1) := by
  induction x using Nat.strong_induction_on with
  | _ x ih =>
    rcases Nat.even_or_odd x with he | ho
    · obtain ⟨m, hm⟩ := he
      have hx : x = 2 * m := by omega
      subst hx
      rw [level_two_mul]
      simp
      omega
    · obtain ⟨m, hm⟩ := ho
      subst hm
      rw [level_two_mul_add_one]
      have ihm := ih m (by omega)
      have h2 : (2 * m + 1) / 2 ^ (level m + 1 + 1) = m / 2 ^ (level m + 1) := by
        rw [pow_succ']
        rw [← Nat.div_div_eq_div_mul]
        congr 1
        omega
      rw [h2]
      have hpow : 1 ≤ 2 ^ level m := Nat.one_le_two_pow
      have e1 : (2:Nat) ^ (level m + 1) = 2 * 2 ^ level m := by rw [pow_succ]; ring
      have e2 : m / 2 ^ (level m + 1) * 2 ^ (level m + 1 + 1)
          = 2 * (m / 2 ^ (level m + 1) * 2 ^ (level m + 1)) := by
        rw [pow_succ]; ring
      rw [e2]
      omega

/-- Modelled from the spec: the level-`j` ancestor of node `x` in the
complete tree (meaningful for `j ≥ level x`). -/
def anc (x j : Nat) : Nat := x / 2 ^ (j + 1) * 2 ^ (j + 1) + (2 ^ j - 1)

theorem level_anc (x j : Nat) : level (anc x j) = j := by
  unfold anc; exact level_form j _

theorem anc_level_self (x : Nat) : anc x (level x) = x := by
  unfold anc; exact (level_decomp x).symm

/-- Modelled from the spec: the one-step parent of a node in the complete
tree (`parent` of the missing `math` module). -/
def parentStep (x : Nat) : Nat :=
  if x / 2 ^ (level x + 1) % 2 = 0 then x + 2 ^ level x else x - 2 ^ level x

/-- Modelled from the spec: left child of an internal node. -/
def leftChild (x : Nat) : Nat := x - 2 ^ (level x - 1)

/-- Modelled from the spec: right child of an internal node. -/
def rightChild (x : Nat) : Nat := x + 2 ^ (level x - 1)

/-- Modelled from the spec: `root(L)`; for the power-of-two leaf counts
supplied by the node vector the root of the complete tree with `L` leaf
slots is the node index `L − 1`. -/
def rootIdx (leafCount : Nat) : Nat := leafCount - 1

/-- Modelled from the spec: the first leaf index of the subtree of node
`x` (so the subtree covers leaves `[subtreeStart x, subtreeStart x + 2^level x)`). -/
def subtreeStart (x : Nat) : Nat := x / 2 ^ (level x + 1) * 2 ^ level x

theorem mul_pow_add_lt_div {N q r : Nat} (hN : 0 < N) (hr : r < N) :
    (q * N + r) / N = q := by
  rw [Nat.mul_comm, Nat.mul_add_div hN, Nat.div_eq_of_lt hr, Nat.add_zero]

theorem parentStep_anc (x : Nat) : ∀ j, parentStep (anc x j) = anc x (j + 1) := by
  intro j
  have hl : level (anc x j) = j := level_anc x j
  have hpj : 1 ≤ 2 ^ j := Nat.one_le_two_pow
  have hpj1 : (2:Nat) ^ (j + 1) = 2 * 2 ^ j := by rw [pow_succ]; ring
  have hq : anc x j / 2 ^ (j + 1) = x / 2 ^ (j + 1) := by
    unfold anc
    exact mul_pow_add_lt_div (by positivity) (by omega)
  have hqq : x / 2 ^ (j + 1 + 1) = x / 2 ^ (j + 1) / 2 := by
    rw [pow_succ]
    exact (Nat.div_div_eq_div_mul x _ 2).symm
  unfold parentStep
  rw [hl, hq]
  unfold anc
  rw [hqq]
  have e2 : x / 2 ^ (j + 1) / 2 * 2 ^ (j + 1 + 1)
      = x / 2 ^ (j + 1) / 2 * 2 * 2 ^ (j + 1) := by
    rw [pow_succ]; ring
  by_cases hb : x / 2 ^ (j + 1) % 2 = 0
  · simp only [hb, if_pos]
    have hdd : x / 2 ^ (j + 1) / 2 * 2 = x / 2 ^ (j + 1) := by omega
    rw [e2, hdd]
    omega
  · simp only [hb, if_neg, if_false]
    have hdd : x / 2 ^ (j + 1) / 2 * 2 + 1 = x / 2 ^ (j + 1) := by omega
    have e3 : x / 2 ^ (j + 1) * 2 ^ (j + 1)
        = x / 2 ^ (j + 1) / 2 * 2 * 2 ^ (j + 1) + 2 ^ (j + 1) := by
      conv_lhs => rw [← hdd]
      ring
    rw [e2, e3]
    omega

theorem parentStep_eq_anc (x : Nat) : parentStep x = anc x (level x + 1) := by
  conv_lhs => rw [← anc_level_self x]
  rw [parentStep_anc]

theorem level_parentStep (x : Nat) : level (parentStep x) = level x + 1 := by
  rw [parentStep_eq_anc, level_anc]

theorem ge_pow_level (x : Nat) : 2 ^ level x - 1 ≤ x := by
  conv_rhs => rw [level_decomp x]
  omega

theorem level_le_of_lt_width (k x : Nat) (h : x < 2 ^ (k + 1) - 1) : level x ≤ k := by
  by_contra hc
  have h1 : k + 1 ≤ level x := by omega
  have h2 : (2:Nat) ^ (k + 1) ≤ 2 ^ level x := Nat.pow_le_pow_right (by omega) h1
  have h3 := ge_pow_level x
  omega

theorem div_lt_of_mul_lt {q N B : Nat} (h : q * N < B * N) : q < B :=
  Nat.lt_of_mul_lt_mul_right h

/-- Any node below the root of a width-`2^(k+1)−1` tree keeps its whole
sibling range inside the array. -/
theorem lt_width_bound (k x : Nat) (hx : x < 2 ^ (k + 1) - 1) :
    x + 2 ^ level x ≤ 2 ^ (k + 1) - 1 := by
  have hj : level x ≤ k := level_le_of_lt_width k x hx
  have hdec := level_decomp x
  have hq : x / 2 ^ (level x + 1) < 2 ^ (k - level x) := by
    apply @div_lt_of_mul_lt _ (2 ^ (level x + 1)) _
    have hsplit : (2:Nat) ^ (k - level x) * 2 ^ (level x + 1) = 2 ^ (k + 1) := by
      rw [← pow_add]
      congr 1
      omega
    rw [hsplit]
    have hp : 1 ≤ 2 ^ level x := Nat.one_le_two_pow
    omega
  have hqle : x / 2 ^ (level x + 1) ≤ 2 ^ (k - level x) - 1 := by omega
  have hmul : x / 2 ^ (level x + 1) * 2 ^ (level x + 1)
      ≤ (2 ^ (k - level x) - 1) * 2 ^ (level x + 1) :=
    Nat.mul_le_mul_right _ hqle
  have hsub : (2 ^ (k - level x) - 1) * 2 ^ (level x + 1)
      = 2 ^ (k + 1) - 2 ^ (level x + 1) := by
    rw [Nat.sub_mul, one_mul, ← pow_add]
    congr 2
    omega
  have hp : 1 ≤ 2 ^ level x := Nat.one_le_two_pow
  have hp1 : (2:Nat) ^ (level x + 1) = 2 * 2 ^ level x := by rw [pow_succ]; ring
  have hmono : (2:Nat) ^ (level x + 1) ≤ 2 ^ (k + 1) :=
    Nat.pow_le_pow_right (by omega) (by omega)
  omega

theorem anc_lt_width (k x j : Nat) (hj : j ≤ k) (hx : x < 2 ^ (k + 1) - 1) :
    anc x j < 2 ^ (k + 1) - 1 := by
  have hq : x / 2 ^ (j + 1) < 2 ^ (k - j) := by
    apply @div_lt_of_mul_lt _ (2 ^ (j + 1)) _
    have hsplit : (2:Nat) ^ (k - j) * 2 ^ (j + 1) = 2 ^ (k + 1) := by
      rw [← pow_add]
      congr 1
      omega
    rw [hsplit]
    have := Nat.div_mul_le_self x (2 ^ (j + 1))
    have hp : (1:Nat) ≤ 2 ^ (j + 1) := Nat.one_le_two_pow
    omega
  have hqle : x / 2 ^ (j + 1) ≤ 2 ^ (k - j) - 1 := by omega
  have hmul : x / 2 ^ (j + 1) * 2 ^ (j + 1) ≤ (2 ^ (k - j) - 1) * 2 ^ (j + 1) :=
    Nat.mul_le_mul_right _ hqle
  have hsub : (2 ^ (k - j) - 1) * 2 ^ (j + 1) = 2 ^ (k + 1) - 2 ^ (j + 1) := by
    rw [Nat.sub_mul, one_mul, ← pow_add]
    congr 2
    omega
  have hp : 1 ≤ 2 ^ j := Nat.one_le_two_pow
  have hp1 : (2:Nat) ^ (j + 1) = 2 * 2 ^ j := by rw [pow_succ]; ring
  have hmono : (2:Nat) ^ (j + 1) ≤ 2 ^ (k + 1) :=
    Nat.pow_le_pow_right (by omega) (by omega)
  unfold anc
  omega

theorem anc_top (k x : Nat) (hx : x < 2 ^ (k + 1)) : anc x k = 2 ^ k - 1 := by
  unfold anc
  rw [Nat.div_eq_of_lt hx]
  simp

theorem level_leftChild (x : Nat) (h : 1 ≤ level x) :
    level (leftChild x) = level x - 1 := by
  obtain ⟨j, hj⟩ : ∃ j, level x = j + 1 := ⟨level x - 1, by omega⟩
  have hdec := level_decomp x
  rw [hj] at hdec
  unfold leftChild
  rw [hj]
  simp only [Nat.add_sub_cancel]
  have hform : x - 2 ^ j = 2 * (x / 2 ^ (j + 1 + 1)) * 2 ^ (j + 1) + (2 ^ j - 1) := by
    have hp : 1 ≤ 2 ^ j := Nat.one_le_two_pow
    have hp1 : (2:Nat) ^ (j + 1) = 2 * 2 ^ j := by rw [pow_succ]; ring
    have e : x / 2 ^ (j + 1 + 1) * 2 ^ (j + 1 + 1)
        = 2 * (x / 2 ^ (j + 1 + 1)) * 2 ^ (j + 1) := by rw [pow_succ]; ring
    rw [e] at hdec
    omega
  rw [hform]
  exact level_form j _

theorem level_rightChild (x : Nat) (h : 1 ≤ level x) :
    level (rightChild x) = level x - 1 := by
  obtain ⟨j, hj⟩ : ∃ j, level x = j + 1 := ⟨level x - 1, by omega⟩
  have hdec := level_decomp x
  rw [hj] at hdec
  unfold rightChild
  rw [hj]
  simp only [Nat.add_sub_cancel]
  have hform : x + 2 ^ j
      = (2 * (x / 2 ^ (j + 1 + 1)) + 1) * 2 ^ (j + 1) + (2 ^ j - 1) := by
    have hp : 1 ≤ 2 ^ j := Nat.one_le_two_pow
    have hp1 : (2:Nat) ^ (j + 1) = 2 * 2 ^ j := by rw [pow_succ]; ring
    have e : x / 2 ^ (j + 1 + 1) * 2 ^ (j + 1 + 1)
        = 2 * (x / 2 ^ (j + 1 + 1)) * 2 ^ (j + 1) := by rw [pow_succ]; ring
    have e2 : (2 * (x / 2 ^ (j + 1 + 1)) + 1) * 2 ^ (j + 1)
        = 2 * (x / 2 ^ (j + 1 + 1)) * 2 ^ (j + 1) + 2 ^ (j + 1) := by ring
    rw [e] at hdec
    rw [e2]
    omega
  rw [hform]
  exact level_form j _

theorem leftChild_lt (x : Nat) (h : 1 ≤ level x) : leftChild x < x := by
  have h1 := ge_pow_level x
  have h2 : (2:Nat) ^ 1 ≤ 2 ^ level x := Nat.pow_le_pow_right (by omega) h
  have h3 : (1:Nat) ≤ 2 ^ (level x - 1) := Nat.one_le_two_pow
  unfold leftChild
  have h4 : (2:Nat) ^ 1 = 2 := rfl
  omega

theorem rightChild_gt (x : Nat) : x < rightChild x := by
  have h3 : (1:Nat) ≤ 2 ^ (level x - 1) := Nat.one_le_two_pow
  unfold rightChild
  omega

theorem rightChild_lt_width (k x : Nat) (hx : x < 2 ^ (k + 1) - 1) (h : 1 ≤ level x) :
    rightChild x < 2 ^ (k + 1) - 1 := by
  have hb := lt_width_bound k x hx
  have h2 : (2:Nat) ^ (level x - 1) < 2 ^ level x :=
    Nat.pow_lt_pow_right (by omega) (by omega)
  unfold rightChild
  omega

theorem parentStep_lt_width (k x : Nat) (hx : x < 2 ^ (k + 1) - 1)
    (h : level x < k) : parentStep x < 2 ^ (k + 1) - 1 := by
  rw [parentStep_eq_anc]
  exact anc_lt_width k x (level x + 1) (by omega) hx

/-- At the width of a `2^k`-leaf tree, level `k` is attained only by the
root index `2^k − 1`. -/
theorem level_eq_top_iff_root (k x : Nat) (hx : x < 2 ^ (k + 1) - 1)
    (h : level x = k) : x = 2 ^ k - 1 := by
  have hdec := level_decomp x
  rw [h] at hdec
  have hp : 1 ≤ 2 ^ k := Nat.one_le_two_pow
  have hp1 : (2:Nat) ^ (k + 1) = 2 * 2 ^ k := by rw [pow_succ]; ring
  rcases Nat.eq_zero_or_pos (x / 2 ^ (k + 1)) with hq | hq
  · rw [hq] at hdec
    omega
  · have : 2 ^ (k + 1) ≤ x / 2 ^ (k + 1) * 2 ^ (k + 1) := by
      calc (2:Nat) ^ (k + 1) = 1 * 2 ^ (k + 1) := by ring
        _ ≤ x / 2 ^ (k + 1) * 2 ^ (k + 1) := Nat.mul_le_mul_right _ hq
    omega

theorem subtreeStart_anc (u j : Nat) :
    subtreeStart (anc (2 * u) j) = u / 2 ^ j * 2 ^ j := by
  unfold subtreeStart
  rw [level_anc]
  have hq : anc (2 * u) j / 2 ^ (j + 1) = 2 * u / 2 ^ (j + 1) := by
    unfold anc
    exact mul_pow_add_lt_div (by positivity) (by
      have : 1 ≤ 2 ^ j := Nat.one_le_two_pow
      have h1 : (2:Nat) ^ (j + 1) = 2 * 2 ^ j := by rw [pow_succ]; ring
      omega)
  rw [hq, pow_succ']
  rw [Nat.mul_div_mul_left u (2 ^ j) (by omega)]

theorem mem_subtree_anc (u j : Nat) :
    subtreeStart (anc (2 * u) j) ≤ u ∧ u < subtreeStart (anc (2 * u) j) + 2 ^ j := by
  rw [subtreeStart_anc]
  constructor
  · exact Nat.div_mul_le_self u (2 ^ j)
  · have h1 := Nat.div_add_mod u (2 ^ j)
    have h2 := Nat.mod_lt u (show 0 < 2 ^ j by positivity)
    have h3 : u / 2 ^ j * 2 ^ j = 2 ^ j * (u / 2 ^ j) := Nat.mul_comm _ _
    omega

theorem anc_of_mem_subtree (p u : Nat) (h1 : subtreeStart p ≤ u)
    (h2 : u < subtreeStart p + 2 ^ level p) : anc (2 * u) (level p) = p := by
  have hdec := level_decomp p
  unfold subtreeStart at h1 h2
  have hq : 2 * u / 2 ^ (level p + 1) = u / 2 ^ level p := by
    rw [pow_succ']
    exact Nat.mul_div_mul_left u (2 ^ level p) (by omega)
  have hu : u / 2 ^ level p = p / 2 ^ (level p + 1) := by
    apply Nat.div_eq_of_lt_le h1
    have e : (p / 2 ^ (level p + 1) + 1) * 2 ^ level p
        = p / 2 ^ (level p + 1) * 2 ^ level p + 2 ^ level p := by ring
    rw [e]
    exact h2
  unfold anc
  rw [hq, hu]
  omega

/-- Modelled from the spec: the direct path of node `x` in a tree with
`2^k` leaf slots — the ancestors from the node's parent up to the root. -/
def directPathN (k x : Nat) : List Nat :=
  (List.range (k - level x)).map (fun t => anc x (level x + 1 + t))

theorem mem_directPathN (k x p : Nat) :
    p ∈ directPathN k x ↔ ∃ j, level x + 1 ≤ j ∧ j ≤ k ∧ p = anc x j := by
  unfold directPathN
  simp only [List.mem_map, List.mem_range]
  constructor
  · rintro ⟨t, ht, rfl⟩
    exact ⟨level x + 1 + t, by omega, by omega, rfl⟩
  · rintro ⟨j, hj1, hj2, rfl⟩
    exact ⟨j - (level x + 1), by omega, by congr 1; omega⟩

/-! ## Data model

`LeafNode`, `ParentNode` and `Node` follow spec §3.  Public-key material
and identities are abstracted to `Nat`; the remaining signed fields of a
leaf are folded into an opaque `payload`. -/

/-- Modelled from the spec: the leaf-node source (spec §3: `KeyPackage`,
`Update`, or `Commit(parent_hash)`). -/
inductive LeafNodeSource where
  | keyPackage : LeafNodeSource
  | update : LeafNodeSource
  | commit : List Nat → LeafNodeSource
deriving DecidableEq, Repr

/-- Modelled from the spec: a leaf node (spec §3): signing identity, HPKE
public key, signature public key, capabilities (only the proposal-type
list is relevant to the claims), leaf-node source, and the remaining
signed fields folded into `payload`. -/
structure LeafNode where
  signingIdentity : Nat
  hpkePub : Nat
  sigPub : Nat
  proposalCaps : List Nat
  source : LeafNodeSource
  payload : Nat
deriving DecidableEq, Repr

/-- Modelled from the spec: a parent node (spec §3): HPKE public key,
parent hash, and the ordered list of unmerged leaf indices. -/
structure ParentNode where
  publicKey : Nat
  parentHash : List Nat
  unmergedLeaves : List Nat
deriving DecidableEq, Repr

/-- Modelled from the spec: a node is blank (`Option.none` in the array),
a leaf, or a parent. -/
inductive Node where
  | leaf : LeafNode → Node
  | parent : ParentNode → Node
deriving DecidableEq, Repr

/-- Modelled from the spec: the array storage of the left-balanced binary
tree; blank slots are `none`. -/
def NodeVec := List (Option Node)
deriving DecidableEq, Repr

instance : Inhabited NodeVec := ⟨([] : List (Option Node))⟩

/-- Modelled from the spec: the structural errors of §4.7 that the
modelled operations can raise. -/
inductive MlsError where
  | invalidNodeIndex : Nat → MlsError
  | duplicateLeafData : Nat → MlsError
  | removingNonExistingMember : MlsError
  | updatingNonExistingMember : MlsError
  | invalidSuccessor : MlsError
  | invalidProposalTypeForSender : MlsError
  | identityProviderError : MlsError
  | parentHashMismatch : MlsError
deriving DecidableEq, Repr

/-- Fuel-driven worker for `pow2CeilK`, doubling a power of two until it
reaches the target. -/
def np2KGo : Nat → Nat → Nat → Nat
  | 0, k, _ => k
  | fuel+1, k, n => if n ≤ 2 ^ k then k else np2KGo fuel (k + 1) n

/-- Exponent of the smallest power of two that is at least `n`. -/
def pow2CeilK (n : Nat) : Nat := np2KGo n 0 n

theorem np2KGo_ge : ∀ fuel k n, n ≤ 2 ^ (k + fuel) → n ≤ 2 ^ np2KGo fuel k n := by
  intro fuel
  induction fuel with
  | zero => intro k n h; simp only [np2KGo]; simpa using h
  | succ f ih =>
    intro k n h
    unfold np2KGo
    by_cases hk : n ≤ 2 ^ k
    · simp [hk]
    · simp only [hk, if_neg, if_false]
      exact ih (k + 1) n (by
        have : k + 1 + f = k + (f + 1) := by omega
        rw [this]
        exact h)

theorem le_pow2CeilK (n : Nat) : n ≤ 2 ^ pow2CeilK n :=
  np2KGo_ge n 0 n (by simpa using Nat.le_of_lt (Nat.lt_two_pow n))

namespace NodeVec

/-- Modelled from the spec: the number of physical leaf slots of the node
array (`(len + 1) / 2`). -/
def slotCount (nv : NodeVec) : Nat := (List.length nv + 1) / 2

/-- Modelled from the spec: `total_leaf_count` rounds the leaf-slot count
up to the smallest power of two (spec §3: "`L` is the smallest power of
two ≥ occupied leaf count"); the exponent is `depthK`. -/
def depthK (nv : NodeVec) : Nat := pow2CeilK (List.length nv / 2 + 1)

/-- Modelled from the spec: `total_leaf_count()` of the node vector. -/
def totalLeafCount (nv : NodeVec) : Nat := 2 ^ depthK nv

/-- Slot lookup, `none` when the index is out of physical range. -/
def getN (nv : NodeVec) (n : Nat) : Option (Option Node) := List.get? nv n

/-- Modelled from the spec: `borrow_as_leaf(i)` — the leaf at leaf index
`i`, or `InvalidNodeIndex(2i)` when the slot is out of range, blank, or a
parent. -/
def borrowAsLeaf (nv : NodeVec) (i : Nat) : Except MlsError LeafNode :=
  match getN nv (2 * i) with
  | some (some (Node.leaf l)) => Except.ok l
  | _ => Except.error (MlsError.invalidNodeIndex (2 * i))

/-- Modelled from the spec: `borrow_as_parent(n)` with its error dropped
(the call sites in the hash code use `.ok()`): the parent at node index
`n` if one is stored there. -/
def borrowAsParentOpt (nv : NodeVec) (n : Nat) : Option ParentNode :=
  match getN nv n with
  | some (some (Node.parent p)) => some p
  | _ => none

/-- The leaf stored at leaf index `i`, if any (used by
`non_empty_leaves`). -/
def leafAt (nv : NodeVec) (i : Nat) : Option LeafNode :=
  match getN nv (2 * i) with
  | some (some (Node.leaf l)) => some l
  | _ => none

/-- Modelled from the spec: `non_empty_leaves()` — the occupied leaves in
leaf-index order. -/
def nonEmptyLeaves (nv : NodeVec) : List (Nat × LeafNode) :=
  (List.range (slotCount nv)).filterMap
    (fun i => (leafAt nv i).map (fun l => (i, l)))

/-- Modelled from the spec: `occupied_leaf_count()`. -/
def occupiedLeafCount (nv : NodeVec) : Nat := List.length (nonEmptyLeaves nv)

/-- Whether leaf slot `i` holds any node (blank slots and slots beyond the
physical range count as unfilled). -/
def leafFilled (nv : NodeVec) (i : Nat) : Bool :=
  match getN nv (2 * i) with
  | some (some _) => true
  | _ => false

/-- Modelled from the spec: `blank_leaf_node(i)` — blank leaf `i` and
return the previous leaf; `Ok(None)` when it was already blank,
`InvalidNodeIndex` when out of range or not a leaf. -/
def blankLeafNode (nv : NodeVec) (i : Nat) :
    Except MlsError (Option LeafNode × NodeVec) :=
  match getN nv (2 * i) with
  | some (some (Node.leaf l)) => Except.ok (some l, List.set nv (2 * i) none)
  | some none => Except.ok (none, nv)
  | _ => Except.error (MlsError.invalidNodeIndex (2 * i))

/-- Modelled from the spec: `direct_path(i)` for leaf index `i`, the node
indices from the leaf's parent to the root of the virtual complete tree. -/
def directPath (nv : NodeVec) (i : Nat) : Except MlsError (List Nat) :=
  if 2 * i < 2 * totalLeafCount nv - 1 then
    Except.ok (directPathN (depthK nv) (2 * i))
  else
    Except.error (MlsError.invalidNodeIndex (2 * i))

/-- Clear node index `n` if it is within physical range. -/
def blankNode (nv : NodeVec) (n : Nat) : NodeVec := List.set nv n none

/-- Modelled from the spec: `blank_direct_path(i)` — blank every node on
the direct path of leaf `i` (spec §4.3 step 1: "blank the target leaf and
its entire direct path"). -/
def blankDirectPath (nv : NodeVec) (i : Nat) : Except MlsError NodeVec :=
  (directPath nv i).map (fun path => path.foldl blankNode nv)

/-- Pad the node array with trailing blanks up to length `n`. -/
def padTo (nv : NodeVec) (n : Nat) : NodeVec :=
  List.append nv (List.replicate (n - List.length nv) none)

/-- Modelled from the spec: `insert_leaf(i, leaf)` — write the leaf at
leaf index `i`, extending the array with blanks so that it keeps the
`2L − 1` shape. -/
def insertLeaf (nv : NodeVec) (i : Nat) (l : LeafNode) : NodeVec :=
  List.set (padTo nv (2 * i + 1)) (2 * i) (some (Node.leaf l))

/-- Modelled from the spec: `next_empty_leaf(start)` — the first blank
leaf index at or after `start`, or the append position (the slot count)
when every such slot is filled. -/
def nextEmptyLeaf (nv : NodeVec) (start : Nat) : Nat :=
  match (List.range (slotCount nv)).find?
      (fun i => decide (start ≤ i) && !(leafFilled nv i)) with
  | some i => i
  | none => slotCount nv

/-- Modelled from the spec: push `leafIdx` onto the unmerged-leaves list
of node `n` when a parent is stored there, leave the array unchanged
otherwise (the `if let Ok(p) = borrow_as_parent_mut` pattern of
`update_unmerged`). -/
def pushUnmerged (nv : NodeVec) (n leafIdx : Nat) : NodeVec :=
  match getN nv n with
  | some (some (Node.parent p)) =>
      List.set nv n (some (Node.parent
        { p with unmergedLeaves := List.append p.unmergedLeaves [leafIdx] }))
  | _ => nv

/-- Modelled from the spec: `borrow_or_fill_node_as_parent`-then-update of
`update_node`: set the public key and clear the unmerged leaves of node
`n`, materializing a blank in-range slot; `InvalidNodeIndex` when the
index is out of range or holds a leaf. -/
def updateNode (nv : NodeVec) (pubKey n : Nat) : Except MlsError NodeVec :=
  match getN nv n with
  | some (some (Node.parent p)) =>
      Except.ok (List.set nv n (some (Node.parent
        { p with publicKey := pubKey, unmergedLeaves := [] })))
  | some none =>
      Except.ok (List.set nv n (some (Node.parent
        { publicKey := pubKey, parentHash := [], unmergedLeaves := [] })))
  | _ => Except.error (MlsError.invalidNodeIndex n)

/-- Worker for `trim`, acting on the reversed node array. -/
def trimRev : List (Option Node) → List (Option Node)
  | [] => []
  | some n :: rest => some n :: rest
  | none :: [] => []
  | none :: _ :: rest => trimRev rest

/-- Modelled from the spec: `trim()` — drop trailing blank nodes while
preserving the `2L − 1` sizing, so that the tree ends in a non-blank leaf
or becomes empty (spec §3 invariant 2). -/
def trim (nv : NodeVec) : NodeVec := List.reverse (trimRev (List.reverse nv))

end NodeVec

/-! ## Identity provider and tree index -/

/-- Modelled from the spec: the identity provider (spec §6): a canonical
identity for a signing identity and a successor judgement, both fallible
(`none` models a provider error). -/
structure IdentityProvider where
  identity : Nat → Option (List Nat)
  validSuccessor : Nat → Nat → Option Bool

/-- Lookup in an association list keyed by `Nat`. -/
def alLookup (m : List (Nat × Nat)) (key : Nat) : Option Nat :=
  (m.find? (fun kv => kv.1 == key)).map (fun kv => kv.2)

/-- Lookup in an association list keyed by byte strings. -/
def alLookupB (m : List (List Nat × Nat)) (key : List Nat) : Option Nat :=
  (m.find? (fun kv => kv.1 == key)).map (fun kv => kv.2)

/-- Insert a binding in an association list keyed by `Nat`; lookups read
the newest binding first, so this is insert-or-replace. -/
def alInsert (m : List (Nat × Nat)) (key v : Nat) : List (Nat × Nat) :=
  (key, v) :: m

/-- Insert a binding in an association list keyed by bytes. -/
def alInsertB (m : List (List Nat × Nat)) (key : List Nat) (v : Nat) :
    List (List Nat × Nat) :=
  (key, v) :: m

/-- Remove a binding from an association list keyed by `Nat`. -/
def alRemove (m : List (Nat × Nat)) (key : Nat) : List (Nat × Nat) :=
  m.filter (fun kv => kv.1 ≠ key)

/-- Remove a binding from an association list keyed by bytes. -/
def alRemoveB (m : List (List Nat × Nat)) (key : List Nat) : List (List Nat × Nat) :=
  m.filter (fun kv => kv.1 ≠ key)

/-- Bump the counter stored for `key` by one. -/
def counterBump (m : List (Nat × Nat)) (key : Nat) : List (Nat × Nat) :=
  alInsert m key ((alLookup m key).getD 0 + 1)

/-- Decrement the counter stored for `key` by one (saturating). -/
def counterDrop (m : List (Nat × Nat)) (key : Nat) : List (Nat × Nat) :=
  alInsert m key ((alLookup m key).getD 0 - 1)

/-- Modelled from the spec: the `TreeIndex` (spec §4.2): reverse maps
`identity → leaf`, `hpke_pub → leaf`, `sig_pub → leaf`, and a counter of
leaves declaring support per proposal type. -/
structure TreeIndex where
  identities : List (List Nat × Nat)
  hpkeKeys : List (Nat × Nat)
  sigKeys : List (Nat × Nat)
  propCounts : List (Nat × Nat)
deriving DecidableEq, Repr

/-- Modelled from the spec: `TreeIndex::new()`. -/
def TreeIndex.new : TreeIndex := ⟨[], [], [], []⟩

/-- Modelled from the spec: `TreeIndex::count_supporting_proposal(pt)`. -/
def TreeIndex.countSupportingProposal (ix : TreeIndex) (pt : Nat) : Nat :=
  (alLookup ix.propCounts pt).getD 0

/-- Modelled from the spec: `index_insert` (spec §4.2): derive the
canonical identity through the provider, fail with `DuplicateLeafData` if
the identity, the HPKE key, or the signature key collides with an existing
distinct leaf, otherwise record the three entries and count the leaf for
each proposal type it declares (each declared type counted once). -/
def indexInsert (ix : TreeIndex) (leaf : LeafNode) (i : Nat)
    (idp : IdentityProvider) : Except MlsError TreeIndex :=
  match idp.identity leaf.signingIdentity with
  | none => Except.error MlsError.identityProviderError
  | some idBytes =>
    match alLookupB ix.identities idBytes with
    | some j =>
      if j ≠ i then Except.error (MlsError.duplicateLeafData i) else
      insertChecked ix leaf i idBytes
    | none => insertChecked ix leaf i idBytes
where
  insertChecked (ix : TreeIndex) (leaf : LeafNode) (i : Nat) (idBytes : List Nat) :
      Except MlsError TreeIndex :=
    match alLookup ix.hpkeKeys leaf.hpkePub with
    | some j =>
      if j ≠ i then Except.error (MlsError.duplicateLeafData i) else
      insertChecked2 ix leaf i idBytes
    | none => insertChecked2 ix leaf i idBytes
  insertChecked2 (ix : TreeIndex) (leaf : LeafNode) (i : Nat) (idBytes : List Nat) :
      Except MlsError TreeIndex :=
    match alLookup ix.sigKeys leaf.sigPub with
    | some j =>
      if j ≠ i then Except.error (MlsError.duplicateLeafData i) else
      Except.ok (insertEntries ix leaf i idBytes)
    | none => Except.ok (insertEntries ix leaf i idBytes)
  insertEntries (ix : TreeIndex) (leaf : LeafNode) (i : Nat) (idBytes : List Nat) :
      TreeIndex :=
    { identities := alInsertB ix.identities idBytes i
      hpkeKeys := alInsert ix.hpkeKeys leaf.hpkePub i
      sigKeys := alInsert ix.sigKeys leaf.sigPub i
      propCounts := leaf.proposalCaps.dedup.foldl counterBump ix.propCounts }

/-- Modelled from the spec: `TreeIndex::remove(leaf, identity)` — purge
the three entries and decrement the per-proposal-type counters. -/
def indexRemove (ix : TreeIndex) (leaf : LeafNode) (idBytes : List Nat) : TreeIndex :=
  { identities := alRemoveB ix.identities idBytes
    hpkeKeys := alRemove ix.hpkeKeys leaf.hpkePub
    sigKeys := alRemove ix.sigKeys leaf.sigPub
    propCounts := leaf.proposalCaps.dedup.foldl counterDrop ix.propCounts }

/-- `initialize_index_if_necessary` on a fresh index: fold `index_insert`
over the occupied leaves (mod.rs 109–122). -/
def initializeIndex (idp : IdentityProvider) (nv : NodeVec) :
    Except MlsError TreeIndex :=
  (NodeVec.nonEmptyLeaves nv).foldlM
    (fun ix il => indexInsert ix il.2 il.1 idp) TreeIndex.new

/-! ## The public tree -/

/-- `TreeKemPublic` (mod.rs 62–68): index, node array, and the cached
current tree hashes (`tree_hashes.current`, a byte-string per node
index).  The Rust `PartialEq` compares the node arrays only. -/
structure TreeKemPublic where
  index : TreeIndex
  nodes : NodeVec
  treeHashes : List (List Nat)
deriving DecidableEq, Repr

/-- `TreeKemPublic::new()` (mod.rs 77–79). -/
def TreeKemPublic.new : TreeKemPublic :=
  ⟨TreeIndex.new, ([] : List (Option Node)), []⟩

/-- `export_node_data` (mod.rs 149–151): a copy of the node array. -/
def exportNodeData (t : TreeKemPublic) : NodeVec := t.nodes

/-- `import_node_data` (mod.rs 89–106): store the nodes and build a fresh
index from the occupied leaves. -/
def importNodeData (idp : IdentityProvider) (nv : NodeVec) :
    Except MlsError TreeKemPublic :=
  (initializeIndex idp nv).map (fun ix => ⟨ix, nv, []⟩)

/-- `can_support_proposal` with the tree index (mod.rs 196–197): the
support counter must equal the occupied-leaf count. -/
def canSupportProposalIndexed (t : TreeKemPublic) (pt : Nat) : Bool :=
  t.index.countSupportingProposal pt == NodeVec.occupiedLeafCount t.nodes

/-- `can_support_proposal` without the tree index (mod.rs 199–203): every
occupied leaf must list the proposal type among its capabilities. -/
def canSupportProposalScan (nv : NodeVec) (pt : Nat) : Bool :=
  (NodeVec.nonEmptyLeaves nv).all (fun il => il.2.proposalCaps.contains pt)

/-! ## Tree hashing (tree_hash.rs)

The hash-input encodings follow spec §4.5/§6: a discriminant byte (`1`
leaf, `2` parent), then the fields with length prefixes and explicit
optionality.  The cipher-suite hash `H` is a parameter. -/

/-- Length-prefixed encoding of a byte string (spec §6: big-endian length
prefixes are abstracted to a single length element). -/
def encodeList (l : List Nat) : List Nat := List.length l :: l

/-- Modelled from the spec: encoding of a leaf-node source. -/
def encodeSource : LeafNodeSource → List Nat
  | LeafNodeSource.keyPackage => [1]
  | LeafNodeSource.update => [2]
  | LeafNodeSource.commit ph => 3 :: encodeList ph

/-- Modelled from the spec: MLS-codec encoding of a leaf node. -/
def encodeLeafNode (l : LeafNode) : List Nat :=
  [l.signingIdentity, l.hpkePub, l.sigPub]
    ++ encodeList l.proposalCaps ++ encodeSource l.source ++ [l.payload]

/-- Modelled from the spec: MLS-codec encoding of a parent node (spec §6:
`hpke_pub`, `parent_hash`, `unmerged_leaves`). -/
def encodeParentNode (p : ParentNode) : List Nat :=
  p.publicKey :: (encodeList p.parentHash ++ encodeList p.unmergedLeaves)

/-- Explicit optionality (spec §6): tag `0` for absent, `1` then the body. -/
def encodeOptLeaf : Option LeafNode → List Nat
  | none => [0]
  | some l => 1 :: encodeLeafNode l

/-- Explicit optionality for an optional parent node. -/
def encodeOptParent : Option ParentNode → List Nat
  | none => [0]
  | some p => 1 :: encodeParentNode p

/-- `LeafNodeHashInput` under discriminant `0x01` (tree_hash.rs 34–38,
49–54). -/
def encodeLeafInput (leafIndex : Nat) (leafNode : Option LeafNode) : List Nat :=
  1 :: leafIndex :: encodeOptLeaf leafNode

/-- `ParentNodeTreeHashInput` under discriminant `0x02` (tree_hash.rs
40–54). -/
def encodeParentInput (parentNode : Option ParentNode) (leftHash rightHash : List Nat) :
    List Nat :=
  2 :: (encodeOptParent parentNode ++ encodeList leftHash ++ encodeList rightHash)

/-- `hash_for_leaf` (tree_hash.rs 282–295). -/
def hashForLeaf (H : List Nat → List Nat) (leafIndex : Nat)
    (leafNode : Option LeafNode) : List Nat :=
  H (encodeLeafInput leafIndex leafNode)

/-- `hash_for_parent` (tree_hash.rs 297–321): the filtered unmerged
leaves are removed from the parent before encoding. -/
def hashForParent (H : List Nat → List Nat) (parentNode : Option ParentNode)
    (filtered : List Nat) (leftHash rightHash : List Nat) : List Nat :=
  H (encodeParentInput
      (parentNode.map (fun p =>
        { p with unmergedLeaves :=
            p.unmergedLeaves.filter (fun u => !(filtered.contains u)) }))
      leftHash rightHash)

/-- Indexing into the hash array with the default (empty) hash. -/
def hashGetD (hs : List (List Nat)) (n : Nat) : List Nat := (List.get? hs n).getD []

/-- `Vec::resize` on the hash array: truncate or pad with the default
hash (tree_hash.rs 245). -/
def resizeHashes (hs : List (List Nat)) (n : Nat) : List (List Nat) :=
  List.append (hs.take n) (List.replicate (n - List.length hs) [])

/-- The queue-driven parent recomputation of the free function
`tree_hash` (tree_hash.rs 263–277): pop a node, hash it from the current
hashes of its two children, store it, and enqueue its parent unless it is
the root.  The recursion of the Rust `while let` loop is driven here by a
fuel argument that the callers choose large enough (the sufficiency is
proved below); exhausted fuel returns the hashes unchanged. -/
def bfsRun (H : List Nat → List Nat) (nodes : NodeVec) (filtered : List Nat)
    (numLeaves : Nat) : Nat → List (List Nat) → List Nat → List (List Nat)
  | 0, hashes, _ => hashes
  | _ + 1, hashes, [] => hashes
  | fuel + 1, hashes, n :: rest =>
    let h := hashForParent H (NodeVec.borrowAsParentOpt nodes n) filtered
      (hashGetD hashes (leftChild n)) (hashGetD hashes (rightChild n))
    let hashes2 := hashes.set n h
    let q2 := if n ≠ rootIdx numLeaves then List.append rest [parentStep n] else rest
    bfsRun H nodes filtered numLeaves fuel hashes2 q2

/-- The free function `tree_hash` (tree_hash.rs 233–280): resize the hash
array to `2L − 1`, rehash the requested leaves (all of them when `None`),
then run the parent queue seeded with the parents of those leaves. -/
def treeHashFn (H : List Nat → List Nat) (hashes : List (List Nat)) (nodes : NodeVec)
    (leavesToUpdate : Option (List Nat)) (filteredLeaves : List Nat)
    (numLeaves : Nat) : List (List Nat) :=
  let ltu := (leavesToUpdate.getD (List.range numLeaves)).filter
    (fun l => l < numLeaves)
  let hashes1 := resizeHashes hashes (2 * numLeaves - 1)
  let hashes2 := ltu.foldl
    (fun hs l => hs.set (2 * l)
      (hashForLeaf H l
        (if filteredLeaves.contains l then none
         else (NodeVec.borrowAsLeaf nodes l).toOption))) hashes1
  let queue := ltu.filterMap
    (fun l => if 2 * l ≠ rootIdx numLeaves then some (parentStep (2 * l)) else none)
  bfsRun H nodes filteredLeaves numLeaves
    (List.length queue * (numLeaves + 1) + 1) hashes2 queue

/-- `update_hashes` (tree_hash.rs 72–104): the modified leaves together
with the trailing leaf positions missing from the cache are rehashed.
The callers in mod.rs pass the blanked paths and the added leaves, which
are concatenated into `updatedLeaves`. -/
def updateHashes (H : List Nat → List Nat) (t : TreeKemPublic)
    (updatedLeaves : List Nat) : TreeKemPublic :=
  let numLeaves := NodeVec.totalLeafCount t.nodes
  let trailingBlanks := ((List.range numLeaves).reverse).takeWhile
    (fun l => List.length t.treeHashes ≤ 2 * l)
  let th := treeHashFn H t.treeHashes t.nodes
    (some (List.append updatedLeaves trailingBlanks)) [] numLeaves
  { t with treeHashes := th }

/-- `initialize_hashes` (tree_hash.rs 107–125): recompute the full cache
only when it is empty. -/
def initializeHashes (H : List Nat → List Nat) (t : TreeKemPublic) : TreeKemPublic :=
  if t.treeHashes = [] then
    { t with treeHashes :=
        treeHashFn H t.treeHashes t.nodes none [] (NodeVec.totalLeafCount t.nodes) }
  else t

/-- `TreeKemPublic::tree_hash` (tree_hash.rs 57–68): initialize the cache
if empty, then return `current[root]`.  The Rust code indexes the array
without a bounds check, so an out-of-range root (a non-empty cache left
over from a smaller tree) panics; the panic is modelled as `none`. -/
def treeHash (H : List Nat → List Nat) (t : TreeKemPublic) :
    Option (List Nat × TreeKemPublic) :=
  let t2 := initializeHashes H t
  (List.get? t2.treeHashes (rootIdx (NodeVec.totalLeafCount t2.nodes))).map
    (fun h => (h, t2))

/-! ## Proposals and the proposal bundle -/

/-- Modelled from the spec: the sender of a proposal; only the `Member`
case carries a leaf index (spec §4.3 step 2). -/
inductive Sender where
  | member : Nat → Sender
  | nonMember : Sender
deriving DecidableEq, Repr

/-- Modelled from the spec: a proposal is tagged by value or by
reference (spec glossary). -/
inductive PropSource where
  | byValue : PropSource
  | byReference : PropSource
deriving DecidableEq, Repr

/-- `is_by_value` of a proposal source. -/
def PropSource.isByValue : PropSource → Bool
  | PropSource.byValue => true
  | PropSource.byReference => false

/-- Modelled from the spec: a remove proposal with its source tag. -/
structure RemoveProposal where
  toRemove : Nat
  source : PropSource
deriving DecidableEq, Repr

/-- Modelled from the spec: an update proposal with its sender and
source tag. -/
structure UpdateProposal where
  leafNode : LeafNode
  sender : Sender
  source : PropSource
deriving DecidableEq, Repr

/-- Modelled from the spec: an add proposal (the leaf node of the key
package) with its source tag. -/
structure AddProposal where
  leafNode : LeafNode
  source : PropSource
deriving DecidableEq, Repr

/-- Modelled from the spec: the proposal bundle, holding the typed
proposal lists in bundle order. -/
structure ProposalBundle where
  adds : List AddProposal
  updates : List UpdateProposal
  removes : List RemoveProposal
deriving DecidableEq, Repr

/-- `bad_indices.iter().rev().for_each(|i| bundle.remove(*i))` — remove
the listed positions, processed from the highest down. -/
def eraseIdxsDesc {α : Type} (l : List α) (bad : List Nat) : List α :=
  bad.reverse.foldl (fun acc i => acc.eraseIdx i) l

/-- Insertion step of the model of `Vec::sort`. -/
def insertSorted (a : Nat) : List Nat → List Nat
  | [] => [a]
  | b :: rest => if a ≤ b then a :: b :: rest else b :: insertSorted a rest

/-- `bad_indices.sort()` (mod.rs 504). -/
def sortNat (l : List Nat) : List Nat := l.foldr insertSorted []

/-- `AddedLeavesInfo` (mod.rs 603–607). -/
structure AddedLeavesInfo where
  badIndices : List Nat
  added : List Nat
  errors : List MlsError
deriving DecidableEq, Repr

/-- `BatchEditOutput` (mod.rs 609–612). -/
structure BatchEditOutput where
  removed : List (Nat × LeafNode)
  added : List Nat
deriving DecidableEq, Repr

/-! ## add_leaves and the other mutating operations (mod.rs) -/

/-- The loop body of `add_leaves_internal` (mod.rs 565–600): for each
leaf take the next empty slot from the advancing cursor; a failed index
insertion records the position and the error; a successful one writes the
leaf, pushes its index onto the unmerged lists of its direct-path
parents, and advances the cursor. -/
def addLeavesGo (idp : IdentityProvider) :
    List LeafNode → Nat → TreeIndex → NodeVec → Nat →
    List Nat → List Nat → List MlsError →
    Except (TreeIndex × NodeVec × MlsError) (TreeIndex × NodeVec × AddedLeavesInfo)
  | [], _, ix, nv, _, bad, added, errs =>
      Except.ok (ix, nv, ⟨bad, added, errs⟩)
  | leaf :: rest, pos, ix, nv, start, bad, added, errs =>
    let index := NodeVec.nextEmptyLeaf nv start
    match indexInsert ix leaf index idp with
    | Except.error e =>
        addLeavesGo idp rest (pos + 1) ix nv start
          (List.append bad [pos]) added (List.append errs [e])
    | Except.ok ix2 =>
        let nv2 := NodeVec.insertLeaf nv index leaf
        match NodeVec.directPath nv2 index with
        | Except.error e => Except.error (ix2, nv2, e)
        | Except.ok path =>
            let nv3 := path.foldl (fun acc n => NodeVec.pushUnmerged acc n index) nv2
            addLeavesGo idp rest (pos + 1) ix2 nv3 index
              bad (List.append added [index]) errs

/-- `add_leaves_internal` (mod.rs 565–600) on the public tree. -/
def addLeavesInternal (idp : IdentityProvider) (t : TreeKemPublic)
    (additions : List LeafNode) :
    Except (TreeKemPublic × MlsError) (TreeKemPublic × AddedLeavesInfo) :=
  match addLeavesGo idp additions 0 t.index t.nodes 0 [] [] [] with
  | Except.error (ix, nv, e) =>
      Except.error ({ t with index := ix, nodes := nv }, e)
  | Except.ok (ix, nv, info) =>
      Except.ok ({ t with index := ix, nodes := nv }, info)

/-- `add_leaves` (mod.rs 207–221): run the internal insertion, update the
hashes for the added leaves, then fail with the **last** collected error
if any leaf was rejected; on failure the accepted leaves stay in the
returned tree and their indices are discarded. -/
def addLeaves (H : List Nat → List Nat) (idp : IdentityProvider)
    (t : TreeKemPublic) (leafNodes : List LeafNode) :
    TreeKemPublic × Except MlsError (List Nat) :=
  match addLeavesInternal idp t leafNodes with
  | Except.error (t1, e) => (t1, Except.error e)
  | Except.ok (t1, info) =>
      let t2 := updateHashes H t1 info.added
      match info.errors.getLast? with
      | some e => (t2, Except.error e)
      | none => (t2, Except.ok info.added)

/-- `rekey_leaf` (mod.rs 223–252): replace the leaf at `i`, updating the
index; the hash cache is not touched. -/
def rekeyLeaf (idp : IdentityProvider) (t : TreeKemPublic) (i : Nat)
    (leafNode : LeafNode) : Except MlsError TreeKemPublic :=
  match NodeVec.borrowAsLeaf t.nodes i with
  | Except.error e => Except.error e
  | Except.ok existing =>
    match idp.identity existing.signingIdentity with
    | none => Except.error MlsError.identityProviderError
    | some idBytes =>
      match indexInsert (indexRemove t.index existing idBytes) leafNode i idp with
      | Except.error e => Except.error e
      | Except.ok ix2 =>
          let nv2 := List.set t.nodes (2 * i) (some (Node.leaf leafNode))
          Except.ok { t with index := ix2, nodes := nv2 }

/-- A validated update path (spec §4.4): the committer's new leaf and one
optional parent public key per direct-path step. -/
structure ValidatedUpdatePath where
  leafNode : LeafNode
  nodes : List (Option Nat)
deriving DecidableEq, Repr

/-- Write a parent-hash value into node `n` when a parent is stored
there. -/
def setParentHash (nv : NodeVec) (n : Nat) (ph : List Nat) : NodeVec :=
  match NodeVec.getN nv n with
  | some (some (Node.parent p)) =>
      List.set nv n (some (Node.parent { p with parentHash := ph }))
  | _ => nv

/-- Modelled from the spec: `update_parent_hashes` (spec §4.4(c)/§4.6;
the `parent_hash` module is not among the sources).  The chain value
itself is abstracted to a fold of `H` over the direct-path public keys;
what the claims rely on is that the operation only rewrites the
`parent_hash` field of direct-path parents and fails with
`ParentHashMismatch` exactly when a `Commit`-sourced leaf declares a
different value. -/
def updateParentHashes (H : List Nat → List Nat) (t : TreeKemPublic)
    (sender : Nat) (leaf : LeafNode) : Except MlsError TreeKemPublic :=
  match NodeVec.directPath t.nodes sender with
  | Except.error e => Except.error e
  | Except.ok path =>
    let res := path.reverse.foldl
      (fun acc n =>
        match NodeVec.borrowAsParentOpt acc.1 n with
        | some p => (setParentHash acc.1 n acc.2, H (p.publicKey :: acc.2))
        | none => acc)
      (t.nodes, ([] : List Nat))
    match leaf.source with
    | LeafNodeSource.commit ph =>
        if ph = res.2 then Except.ok { t with nodes := res.1 }
        else Except.error MlsError.parentHashMismatch
    | _ => Except.ok { t with nodes := res.1 }

/-- `apply_update_path` (mod.rs 275–328): install the committer's new
leaf, apply the supplied parent entries along the direct path (clearing
their unmerged lists), swap the index entries, and verify/update the
parent hashes. -/
def applyUpdatePath (H : List Nat → List Nat) (idp : IdentityProvider)
    (t : TreeKemPublic) (sender : Nat) (up : ValidatedUpdatePath) :
    Except MlsError TreeKemPublic :=
  match NodeVec.borrowAsLeaf t.nodes sender with
  | Except.error e => Except.error e
  | Except.ok existing =>
    match idp.identity existing.signingIdentity with
    | none => Except.error MlsError.identityProviderError
    | some origId =>
      let nodes1 := List.set t.nodes (2 * sender) (some (Node.leaf up.leafNode))
      match NodeVec.directPath nodes1 sender with
      | Except.error e => Except.error e
      | Except.ok path =>
        match (up.nodes.zip path).foldlM
            (fun nv ed =>
              match ed.1 with
              | none => Except.ok nv
              | some pk => NodeVec.updateNode nv pk ed.2) nodes1 with
        | Except.error e => Except.error e
        | Except.ok nodes2 =>
          match indexInsert (indexRemove t.index existing origId)
              up.leafNode sender idp with
          | Except.error e => Except.error e
          | Except.ok ix2 =>
              updateParentHashes H
                { index := ix2, nodes := nodes2, treeHashes := t.treeHashes }
                sender up.leafNode

/-! ## batch_edit (mod.rs 341–563) -/

/-- The remove phase (mod.rs 352–395): blank each target leaf and its
direct path; a blank or out-of-range target aborts in strict mode or for
a by-value proposal, and is otherwise recorded for removal from the
bundle.  Errors carry the partially mutated state, as the Rust `&mut
self` does. -/
def removesGo (idp : IdentityProvider) (filter : Bool) :
    List RemoveProposal → Nat → TreeIndex → NodeVec →
    List (Nat × LeafNode) → List Nat →
    Except (TreeIndex × NodeVec × MlsError)
      (TreeIndex × NodeVec × List (Nat × LeafNode) × List Nat)
  | [], _, ix, nv, removed, bad => Except.ok (ix, nv, removed, bad)
  | p :: rest, pos, ix, nv, removed, bad =>
    match NodeVec.blankLeafNode nv p.toRemove with
    | Except.ok (some old, nv1) =>
      match NodeVec.blankDirectPath nv1 p.toRemove with
      | Except.error e => Except.error (ix, nv1, e)
      | Except.ok nv2 =>
        match idp.identity old.signingIdentity with
        | none => Except.error (ix, nv2, MlsError.identityProviderError)
        | some idBytes =>
            removesGo idp filter rest (pos + 1) (indexRemove ix old idBytes) nv2
              (List.append removed [(p.toRemove, old)]) bad
    | Except.error e =>
        if !filter || p.source.isByValue then Except.error (ix, nv, e)
        else removesGo idp filter rest (pos + 1) ix nv removed (List.append bad [pos])
    | Except.ok (none, _) =>
        if !filter || p.source.isByValue then
          Except.error (ix, nv, MlsError.removingNonExistingMember)
        else removesGo idp filter rest (pos + 1) ix nv removed (List.append bad [pos])

/-- The update staging phase (mod.rs 397–463): blank each sender's leaf,
consult `valid_successor`, and stage `(index, old, new)`; rejected
filter-mode by-reference updates restore the old leaf and are recorded. -/
def updatesStageGo (idp : IdentityProvider) (filter : Bool) :
    List UpdateProposal → Nat → TreeIndex → NodeVec →
    List (Nat × LeafNode × LeafNode) → List Nat →
    Except (TreeIndex × NodeVec × MlsError)
      (TreeIndex × NodeVec × List (Nat × LeafNode × LeafNode) × List Nat)
  | [], _, ix, nv, staged, bad => Except.ok (ix, nv, staged, bad)
  | p :: rest, pos, ix, nv, staged, bad =>
    match p.sender with
    | Sender.nonMember =>
        if !filter || p.source.isByValue then
          Except.error (ix, nv, MlsError.invalidProposalTypeForSender)
        else updatesStageGo idp filter rest (pos + 1) ix nv staged
          (List.append bad [pos])
    | Sender.member senderIdx =>
      match NodeVec.blankLeafNode nv senderIdx with
      | Except.error e => Except.error (ix, nv, e)
      | Except.ok (none, _) =>
          if !filter || p.source.isByValue then
            Except.error (ix, nv, MlsError.updatingNonExistingMember)
          else updatesStageGo idp filter rest (pos + 1) ix nv staged
            (List.append bad [pos])
      | Except.ok (some old, nv1) =>
        match idp.validSuccessor old.signingIdentity p.leafNode.signingIdentity with
        | none =>
            if !filter || p.source.isByValue then
              Except.error (ix, nv1, MlsError.identityProviderError)
            else updatesStageGo idp filter rest (pos + 1) ix
              (NodeVec.insertLeaf nv1 senderIdx old) staged (List.append bad [pos])
        | some false =>
            if !filter || p.source.isByValue then
              Except.error (ix, nv1, MlsError.invalidSuccessor)
            else updatesStageGo idp filter rest (pos + 1) ix
              (NodeVec.insertLeaf nv1 senderIdx old) staged (List.append bad [pos])
        | some true =>
          match idp.identity old.signingIdentity with
          | none => Except.error (ix, nv1, MlsError.identityProviderError)
          | some oldId =>
              updatesStageGo idp filter rest (pos + 1) (indexRemove ix old oldId) nv1
                (List.append staged [(senderIdx, old, p.leafNode)]) bad

/-- The body of `find_max_update_set` (mod.rs 619–672): try to insert
each staged new leaf into the trial index; on failure try the old leaf —
if that also fails the update is irrevocably broken and the search
restarts (`Ok(None)`), otherwise it is merely bad; in strict mode any
failure aborts.  Returns the updated broken list with the result. -/
def findMaxGo (idp : IdentityProvider) (filter : Bool) :
    List (Nat × (Nat × LeafNode × LeafNode)) → TreeIndex → List Nat → List Nat →
    List Nat × Except MlsError (Option TreeIndex)
  | [], tryIx, broken, bad => (List.append broken bad, Except.ok (some tryIx))
  | (i, (idx, old, new)) :: rest, tryIx, broken, bad =>
    match indexInsert tryIx new idx idp with
    | Except.ok tryIx2 => findMaxGo idp filter rest tryIx2 broken bad
    | Except.error eNew =>
      match indexInsert tryIx old idx idp with
      | Except.ok tryIx2 =>
          if !filter then (broken, Except.error eNew)
          else findMaxGo idp filter rest tryIx2 broken (List.append bad [i])
      | Except.error eOld =>
          if !filter then (broken, Except.error eOld)
          else (List.append broken [i], Except.ok none)

/-- Position-tagged enumeration of a list, starting at `n`. -/
def enumFromN {α : Type} (n : Nat) : List α → List (Nat × α)
  | [] => []
  | a :: rest => (n, a) :: enumFromN (n + 1) rest

theorem mem_enumFromN {α : Type} :
    ∀ (l : List α) (n i : Nat) (u : α), (i, u) ∈ enumFromN n l →
      n ≤ i ∧ i < n + List.length l := by
  intro l
  induction l with
  | nil => intro n i u h; simp [enumFromN] at h
  | cons a rest ih =>
    intro n i u h
    simp only [enumFromN, List.mem_cons] at h
    rcases h with h | h
    · cases h
      simp
    · have := ih (n + 1) i u h
      simp only [List.length_cons]
      omega

/-- `find_max_update_set` (mod.rs 619–672): the staged updates whose
positions are already broken are skipped. -/
def findMaxUpdateSet (idp : IdentityProvider) (filter : Bool) (tryIx : TreeIndex)
    (broken : List Nat) (staged : List (Nat × LeafNode × LeafNode)) :
    List Nat × Except MlsError (Option TreeIndex) :=
  findMaxGo idp filter
    ((enumFromN 0 staged).filter (fun iu => !(decide (iu.1 ∈ broken))))
    tryIx broken []

/-- The retry loop around `find_max_update_set` (mod.rs 475–497).  Each
iteration restarts from a fresh clone of the tree index; `none` models a
run that does not finish within the given fuel (shown impossible for fuel
`staged.length + 1` below). -/
def maxUpdateLoop (idp : IdentityProvider) (filter : Bool)
    (staged : List (Nat × LeafNode × LeafNode)) (startIx : TreeIndex) :
    Nat → List Nat → Option (List Nat × Except MlsError TreeIndex)
  | 0, _ => none
  | fuel + 1, broken =>
    match findMaxUpdateSet idp filter startIx broken staged with
    | (broken2, Except.ok (some outIx)) => some (broken2, Except.ok outIx)
    | (broken2, Except.ok none) => maxUpdateLoop idp filter staged startIx fuel broken2
    | (broken2, Except.error e) =>
        if !filter then some (broken2, Except.error e)
        else maxUpdateLoop idp filter staged startIx fuel broken2

theorem findMaxGo_none (idp : IdentityProvider) (filter : Bool) :
    ∀ (items : List (Nat × (Nat × LeafNode × LeafNode))) tryIx broken bad b2,
      findMaxGo idp filter items tryIx broken bad = (b2, Except.ok none) →
      ∃ i u, (i, u) ∈ items ∧ b2 = List.append broken [i] := by
  intro items
  induction items with
  | nil =>
    intro tryIx broken bad b2 h
    simp [findMaxGo] at h
  | cons iu rest ih =>
    intro tryIx broken bad b2 h
    obtain ⟨i, idx, old, new⟩ := iu
    simp only [findMaxGo] at h
    cases hNew : indexInsert tryIx new idx idp with
    | ok tryIx2 =>
      rw [hNew] at h
      obtain ⟨j, u, hj, hb⟩ := ih tryIx2 broken bad b2 h
      exact ⟨j, u, List.mem_cons_of_mem _ hj, hb⟩
    | error eNew =>
      rw [hNew] at h
      cases hOld : indexInsert tryIx old idx idp with
      | ok tryIx2 =>
        rw [hOld] at h
        by_cases hf : filter = true
        · subst hf
          simp only [Bool.not_true, Bool.false_eq_true, if_false, if_neg] at h
          obtain ⟨j, u, hj, hb⟩ := ih tryIx2 broken (List.append bad [i]) b2 (by
            simpa using h)
          exact ⟨j, u, List.mem_cons_of_mem _ hj, hb⟩
        · simp only [Bool.not_eq_true] at hf
          simp [hf] at h
      | error eOld =>
        rw [hOld] at h
        by_cases hf : filter = true
        · subst hf
          simp only [Bool.not_true, Bool.false_eq_true, if_false, if_neg] at h
          simp only [Prod.mk.injEq] at h
          exact ⟨i, (idx, old, new), List.mem_cons_self _ _, h.1.symm⟩
        · simp only [Bool.not_eq_true] at hf
          simp [hf] at h

theorem findMaxGo_no_err_of_filter (idp : IdentityProvider) :
    ∀ (items : List (Nat × (Nat × LeafNode × LeafNode))) tryIx broken bad b2 e,
      findMaxGo idp true items tryIx broken bad ≠ (b2, Except.error e) := by
  intro items
  induction items with
  | nil =>
    intro tryIx broken bad b2 e h
    simp [findMaxGo] at h
  | cons iu rest ih =>
    intro tryIx broken bad b2 e h
    obtain ⟨i, idx, old, new⟩ := iu
    simp only [findMaxGo] at h
    cases hNew : indexInsert tryIx new idx idp with
    | ok tryIx2 =>
      rw [hNew] at h
      exact ih tryIx2 broken bad b2 e h
    | error eNew =>
      rw [hNew] at h
      cases hOld : indexInsert tryIx old idx idp with
      | ok tryIx2 =>
        rw [hOld] at h
        simp only [Bool.not_true, Bool.false_eq_true, if_false, if_neg] at h
        exact ih tryIx2 broken (List.append bad [i]) b2 e (by simpa using h)
      | error eOld =>
        rw [hOld] at h
        simp at h

/-- Fuel `staged.length + 1` always suffices for the maximal-update-set
retry loop: every restart grows the duplicate-free broken set, whose
members are positions into the staged list. -/
theorem maxUpdateLoop_total (idp : IdentityProvider) (filter : Bool)
    (staged : List (Nat × LeafNode × LeafNode)) (startIx : TreeIndex) :
    ∀ fuel broken, List.Nodup broken → (∀ i ∈ broken, i < List.length staged) →
      List.length staged + 1 ≤ fuel + List.length broken →
      maxUpdateLoop idp filter staged startIx fuel broken ≠ none := by
  intro fuel
  induction fuel with
  | zero =>
    intro broken hnd hbound hfuel
    exfalso
    have hsub : broken ⊆ List.range (List.length staged) := by
      intro i hi
      exact List.mem_range.mpr (hbound i hi)
    have hperm := List.subperm_of_subset hnd hsub
    have hlen := hperm.length_le
    rw [List.length_range] at hlen
    omega
  | succ f ih =>
    intro broken hnd hbound hfuel
    unfold maxUpdateLoop
    rcases hres : findMaxUpdateSet idp filter startIx broken staged with ⟨broken2, res⟩
    match res with
    | Except.ok (some outIx) => simp
    | Except.ok none =>
      simp only
      obtain ⟨i, u, hmem, hb2⟩ := findMaxGo_none idp filter _ startIx broken [] broken2 hres
      have hmem2 := List.mem_filter.mp hmem
      have hlt := (mem_enumFromN staged 0 i u hmem2.1).2
      have hnotin : i ∉ broken := by
        have h2 := hmem2.2
        simpa using h2
      subst hb2
      apply ih
      · simpa [List.nodup_append] using ⟨hnd, hnotin⟩
      · intro j hj
        simp only [List.append_eq, List.mem_append, List.mem_singleton] at hj
        rcases hj with hj | hj
        · exact hbound j hj
        · subst hj; simpa using hlt
      · simp only [List.append_eq, List.length_append, List.length_singleton]
        omega
    | Except.error e =>
      by_cases hf : filter
      · subst hf
        exact absurd hres (findMaxGo_no_err_of_filter idp _ startIx broken [] broken2 e)
      · simp only [Bool.not_eq_true] at hf
        subst hf
        simp

/-- The update commit phase (mod.rs 512–526): staged updates not in the
broken set replace the leaf and blank its direct path; broken ones
restore the old leaf. -/
def commitUpdatesGo :
    List (Nat × LeafNode × LeafNode) → Nat → List Nat → NodeVec → List Nat →
    Except (NodeVec × MlsError) (NodeVec × List Nat)
  | [], _, _, nv, updated => Except.ok (nv, updated)
  | (idx, old, new) :: rest, pos, badSet, nv, updated =>
    if pos ∈ badSet then
      commitUpdatesGo rest (pos + 1) badSet (NodeVec.insertLeaf nv idx old) updated
    else
      let nv1 := NodeVec.insertLeaf nv idx new
      match NodeVec.blankDirectPath nv1 idx with
      | Except.error e => Except.error (nv1, e)
      | Except.ok nv2 =>
          commitUpdatesGo rest (pos + 1) badSet nv2 (List.append updated [idx])

/-- The add-filter loop (mod.rs 536–547): walk the failed adds from the
last to the first; a strict-mode or by-value failure aborts with that
error, a filter-mode by-reference failure removes the add from the
bundle. -/
def addsFilterGo (filter : Bool) :
    List (Nat × MlsError) → List AddProposal →
    Except (List AddProposal × MlsError) (List AddProposal)
  | [], adds => Except.ok adds
  | (i, e) :: rest, adds =>
    let src := match List.get? adds i with
      | some a => a.source
      | none => PropSource.byValue
    if !filter || src.isByValue then Except.error (adds, e)
    else addsFilterGo filter rest (adds.eraseIdx i)

/-- `batch_edit` (mod.rs 341–563): removes, update staging, the maximal
update set, update commit, adds, bundle filtering, trim, and the final
hash update.  The returned triple carries the final tree and bundle (the
Rust function mutates both through `&mut`, so on error they keep the
mutations applied so far) together with the result. -/
def batchEdit (H : List Nat → List Nat) (idp : IdentityProvider) (filter : Bool)
    (t : TreeKemPublic) (bundle : ProposalBundle) :
    TreeKemPublic × ProposalBundle × Except MlsError BatchEditOutput :=
  match removesGo idp filter bundle.removes 0 t.index t.nodes [] [] with
  | Except.error (ix, nv, e) =>
      ({ t with index := ix, nodes := nv }, bundle, Except.error e)
  | Except.ok (ix1, nv1, removed, badR) =>
    let bundle1 := { bundle with removes := eraseIdxsDesc bundle.removes badR }
    match updatesStageGo idp filter bundle1.updates 0 ix1 nv1 [] [] with
    | Except.error (ix, nv, e) =>
        ({ t with index := ix, nodes := nv }, bundle1, Except.error e)
    | Except.ok (ix2, nv2, staged, badU) =>
      let bundle2 := { bundle1 with updates := eraseIdxsDesc bundle1.updates badU }
      match hLoop : maxUpdateLoop idp filter staged ix2 (List.length staged + 1) [] with
      | none =>
          absurd hLoop (maxUpdateLoop_total idp filter staged ix2 _ []
            List.nodup_nil (by intro i hi; simp at hi) (by simp))
      | some (broken, Except.error e) =>
          ({ t with index := ix2, nodes := nv2 }, bundle2, Except.error e)
      | some (broken, Except.ok ixOut) =>
        let brokenSorted := sortNat broken
        let bundle3 := { bundle2 with
          updates := eraseIdxsDesc bundle2.updates brokenSorted }
        match commitUpdatesGo staged 0 brokenSorted nv2 [] with
        | Except.error (nv, e) =>
            ({ t with index := ixOut, nodes := nv }, bundle3, Except.error e)
        | Except.ok (nv3, updated) =>
          let additions := bundle3.adds.map (fun a => a.leafNode)
          match addLeavesGo idp additions 0 ixOut nv3 0 [] [] [] with
          | Except.error (ix, nv, e) =>
              ({ t with index := ix, nodes := nv }, bundle3, Except.error e)
          | Except.ok (ix4, nv4, info) =>
            match addsFilterGo filter
                ((info.badIndices.zip info.errors).reverse) bundle3.adds with
            | Except.error (adds, e) =>
                ({ t with index := ix4, nodes := nv4 },
                  { bundle3 with adds := adds }, Except.error e)
            | Except.ok adds4 =>
              let bundle4 := { bundle3 with adds := adds4 }
              let nv5 := NodeVec.trim nv4
              let pathBlanked := List.append
                (bundle4.removes.map (fun p => p.toRemove)) updated
              let t5 := updateHashes H
                { index := ix4, nodes := nv5, treeHashes := t.treeHashes }
                (List.append pathBlanked info.added)
              (t5, bundle4, Except.ok ⟨removed, info.added⟩)

/-- The trees produced by a sequence of successfully completed mutating
operations, starting from the fresh tree (`derive` is `new` followed by
`add_leaves`). -/
inductive Reachable : TreeKemPublic → Prop where
  | new : Reachable TreeKemPublic.new
  | addLeaves (H : List Nat → List Nat) (idp : IdentityProvider)
      (t : TreeKemPublic) (leafNodes : List LeafNode) (t2 : TreeKemPublic)
      (idxs : List Nat) : Reachable t →
      addLeaves H idp t leafNodes = (t2, Except.ok idxs) → Reachable t2
  | batchEdit (H : List Nat → List Nat) (idp : IdentityProvider) (filter : Bool)
      (t : TreeKemPublic) (bundle : ProposalBundle) (t2 : TreeKemPublic)
      (bundle2 : ProposalBundle) (out : BatchEditOutput) : Reachable t →
      batchEdit H idp filter t bundle = (t2, bundle2, Except.ok out) → Reachable t2
  | applyUpdatePath (H : List Nat → List Nat) (idp : IdentityProvider)
      (t : TreeKemPublic) (sender : Nat) (up : ValidatedUpdatePath)
      (t2 : TreeKemPublic) : Reachable t →
      applyUpdatePath H idp t sender up = Except.ok t2 → Reachable t2
  | rekeyLeaf (idp : IdentityProvider) (t : TreeKemPublic) (i : Nat)
      (leaf : LeafNode) (t2 : TreeKemPublic) : Reachable t →
      rekeyLeaf idp t i leaf = Except.ok t2 → Reachable t2

/-! ## Concrete fixtures for counterexamples and witnesses -/

/-- A concrete identity provider: the canonical identity of a signing
identity is its one-element byte string, and a successor is valid exactly
when the signing identities agree. -/
def idpT : IdentityProvider :=
  ⟨fun s => some [s], fun a b => some (a == b)⟩

/-- A concrete leaf node with all key material tied to one seed value. -/
def mkLeaf (n : Nat) : LeafNode :=
  ⟨n, n, n, [], LeafNodeSource.keyPackage, 0⟩

/-- A one-member tree built through `add_leaves` from the empty tree. -/
def oneLeafTree : TreeKemPublic :=
  (addLeaves id idpT TreeKemPublic.new [mkLeaf 1]).1

/-- A four-member tree built through `add_leaves` from the empty tree. -/
def fourLeafTree : TreeKemPublic :=
  (addLeaves id idpT TreeKemPublic.new [mkLeaf 1, mkLeaf 2, mkLeaf 3, mkLeaf 4]).1

/-- A tree whose non-empty hash cache is left over from a smaller tree:
the cache has one entry but the node array has grown to three slots. -/
def staleCacheTree : TreeKemPublic :=
  ⟨TreeIndex.new,
   [some (Node.leaf (mkLeaf 1)), none, some (Node.leaf (mkLeaf 2))],
   [[9]]⟩

/-- The one-member tree with its hash cache populated by `tree_hash`. -/
def cachedOneLeafTree : TreeKemPublic :=
  match treeHash id oneLeafTree with
  | some p => p.2
  | none => TreeKemPublic.new

/-- `cachedOneLeafTree` after `rekey_leaf` replaced its only leaf. -/
def rekeyedOneLeafTree : TreeKemPublic :=
  match rekeyLeaf idpT cachedOneLeafTree 0 (mkLeaf 7) with
  | Except.ok t => t
  | Except.error _ => TreeKemPublic.new

/-- Claim C6: the loop computing the maximal update set terminates for
every input: each restart strictly grows the set of irrevocably broken
updates, which is bounded by the number of staged update proposals, so
fuel `staged.length + 1` (one more iteration than the number of staged
updates) always yields a result. -/
theorem maxUpdateLoop_fuel_sufficient (idp : IdentityProvider) (filter : Bool)
    (staged : List (Nat × LeafNode × LeafNode)) (startIx : TreeIndex) :
    maxUpdateLoop idp filter staged startIx (List.length staged + 1) [] ≠ none :=
  maxUpdateLoop_total idp filter staged startIx _ [] List.nodup_nil
    (by intro i hi; simp at hi) (by simp)

/-- Claim C9: when the cached current-hash array is non-empty,
`tree_hash` returns `current[root(total_leaf_count)]` by unchecked
indexing without recomputation; the access is within bounds only when the
cache covers the root index, and for a cache left over from a smaller
tree the indexing is out of range (modelled as `none`, the Rust panic)
rather than an error return. -/
theorem treeHash_cached_root (H : List Nat → List Nat) (t : TreeKemPublic)
    (h : t.treeHashes ≠ []) :
    treeHash H t
      = (List.get? t.treeHashes (rootIdx (NodeVec.totalLeafCount t.nodes))).map
          (fun hv => (hv, t)) := by
  unfold treeHash initializeHashes
  simp [h]

/-- Witness for C9 at a concrete stale state: the cache is non-empty and
one entry long while the tree has grown to two leaf slots, so the root
index `1` misses the cache and `tree_hash` ends in the modelled panic. -/
theorem treeHash_cached_root_witness :
    staleCacheTree.treeHashes ≠ [] ∧
      treeHash id staleCacheTree
        = (List.get? staleCacheTree.treeHashes
            (rootIdx (NodeVec.totalLeafCount staleCacheTree.nodes))).map
            (fun hv => (hv, staleCacheTree)) :=
  ⟨by decide, treeHash_cached_root id staleCacheTree (by decide)⟩

/-- Counterexample to claim C4: after `tree_hash` cached the one-leaf
tree, `rekey_leaf` replaces the leaf without invalidating the cache, and
a later `tree_hash` returns the root hash of the **old** leaf even though
the node now holds the new one. -/
theorem treeHash_stale_after_rekey :
    rekeyLeaf idpT cachedOneLeafTree 0 (mkLeaf 7) = Except.ok rekeyedOneLeafTree
    ∧ NodeVec.borrowAsLeaf rekeyedOneLeafTree.nodes 0 = Except.ok (mkLeaf 7)
    ∧ (treeHash id rekeyedOneLeafTree).map Prod.fst
        = some (hashForLeaf id 0 (some (mkLeaf 1)))
    ∧ hashForLeaf id 0 (some (mkLeaf 1)) ≠ hashForLeaf id 0 (some (mkLeaf 7)) :=
  ⟨rfl, rfl, rfl, by decide⟩

/-- Claim C4 (amended): `rekey_leaf` leaves the hash cache untouched —
node mutation does **not** invalidate it — so a later `tree_hash` on a
non-empty cache serves the unchanged cached root. -/
theorem rekeyLeaf_keeps_hash_cache (H : List Nat → List Nat)
    (idp : IdentityProvider) (t : TreeKemPublic) (i : Nat) (leaf : LeafNode)
    (t2 : TreeKemPublic) (hrk : rekeyLeaf idp t i leaf = Except.ok t2) :
    t2.treeHashes = t.treeHashes
    ∧ NodeVec.totalLeafCount t2.nodes = NodeVec.totalLeafCount t.nodes
    ∧ (t.treeHashes ≠ [] →
        treeHash H t2
          = (List.get? t.treeHashes (rootIdx (NodeVec.totalLeafCount t.nodes))).map
              (fun hv => (hv, t2))) := by
  unfold rekeyLeaf at hrk
  cases hb : NodeVec.borrowAsLeaf t.nodes i with
  | error e => simp only [hb] at hrk; exact absurd hrk (by simp)
  | ok existing =>
    simp only [hb] at hrk
    cases hid : idp.identity existing.signingIdentity with
    | none => simp only [hid] at hrk; exact absurd hrk (by simp)
    | some idBytes =>
      simp only [hid] at hrk
      cases hins : indexInsert (indexRemove t.index existing idBytes) leaf i idp with
      | error e => simp only [hins] at hrk; exact absurd hrk (by simp)
      | ok ix2 =>
        simp only [hins, Except.ok.injEq] at hrk
        subst hrk
        refine ⟨rfl, ?_, ?_⟩
        · simp [NodeVec.totalLeafCount, NodeVec.depthK, List.length_set]
        · intro hne
          unfold treeHash initializeHashes
          simp only [hne, if_neg, if_false]
          have hlen : NodeVec.totalLeafCount (List.set t.nodes (2 * i)
              (some (Node.leaf leaf))) = NodeVec.totalLeafCount t.nodes := by
            simp [NodeVec.totalLeafCount, NodeVec.depthK, List.length_set]
          simp [hlen]

/-- Witness for the amended C4 at the concrete rekeyed tree. -/
theorem rekeyLeaf_keeps_hash_cache_witness :
    rekeyLeaf idpT cachedOneLeafTree 0 (mkLeaf 7) = Except.ok rekeyedOneLeafTree
    ∧ (rekeyedOneLeafTree.treeHashes = cachedOneLeafTree.treeHashes
      ∧ NodeVec.totalLeafCount rekeyedOneLeafTree.nodes
          = NodeVec.totalLeafCount cachedOneLeafTree.nodes
      ∧ (cachedOneLeafTree.treeHashes ≠ [] →
          treeHash id rekeyedOneLeafTree
            = (List.get? cachedOneLeafTree.treeHashes
                (rootIdx (NodeVec.totalLeafCount cachedOneLeafTree.nodes))).map
                (fun hv => (hv, rekeyedOneLeafTree)))) :=
  ⟨rfl, rekeyLeaf_keeps_hash_cache id idpT cachedOneLeafTree 0 (mkLeaf 7)
    rekeyedOneLeafTree rfl⟩

/-- Claim C8: importing the node data exported from a tree whose index
agrees with its nodes yields exactly the original node array and index
(the Rust `PartialEq` on `TreeKemPublic` compares the node arrays, and
the rebuilt `TreeIndex` equals the original; the hash cache of an
imported tree starts empty). -/
theorem import_export_roundtrip (idp : IdentityProvider) (t : TreeKemPublic)
    (hix : initializeIndex idp t.nodes = Except.ok t.index) :
    importNodeData idp (exportNodeData t) = Except.ok ⟨t.index, t.nodes, []⟩ := by
  unfold importNodeData exportNodeData
  rw [hix]
  rfl

/-- Witness for C8 at the four-member tree built through `add_leaves`. -/
theorem import_export_roundtrip_witness :
    initializeIndex idpT fourLeafTree.nodes = Except.ok fourLeafTree.index
    ∧ importNodeData idpT (exportNodeData fourLeafTree)
        = Except.ok ⟨fourLeafTree.index, fourLeafTree.nodes, []⟩ :=
  ⟨rfl, import_export_roundtrip idpT fourLeafTree rfl⟩

/-! ## Strict-mode facts about the batch-edit phases -/

theorem removesGo_strict_ok (idp : IdentityProvider) :
    ∀ (ps : List RemoveProposal) pos ix nv removed bad out,
      removesGo idp false ps pos ix nv removed bad = Except.ok out →
      out.2.2.2 = bad := by
  intro ps
  induction ps with
  | nil =>
    intro pos ix nv removed bad out h
    simp only [removesGo, Except.ok.injEq] at h
    rw [← h]
  | cons p rest ih =>
    intro pos ix nv removed bad out h
    simp only [removesGo] at h
    cases hb : NodeVec.blankLeafNode nv p.toRemove with
    | ok res =>
      obtain ⟨oldOpt, nv1⟩ := res
      cases oldOpt with
      | some old =>
        simp only [hb] at h
        cases hd : NodeVec.blankDirectPath nv1 p.toRemove with
        | error e => simp only [hd] at h; exact absurd h (by simp)
        | ok nv2 =>
          simp only [hd] at h
          cases hi : idp.identity old.signingIdentity with
          | none => simp only [hi] at h; exact absurd h (by simp)
          | some idBytes =>
            simp only [hi] at h
            exact ih _ _ _ _ _ _ h
      | none =>
        simp only [hb, Bool.not_false, Bool.true_or, if_pos, if_true] at h
        exact absurd h (by simp)
    | error e =>
      simp only [hb, Bool.not_false, Bool.true_or, if_pos, if_true] at h
      exact absurd h (by simp)

theorem updatesStageGo_strict_ok (idp : IdentityProvider) :
    ∀ (ps : List UpdateProposal) pos ix nv staged bad out,
      updatesStageGo idp false ps pos ix nv staged bad = Except.ok out →
      out.2.2.2 = bad := by
  intro ps
  induction ps with
  | nil =>
    intro pos ix nv staged bad out h
    simp only [updatesStageGo, Except.ok.injEq] at h
    rw [← h]
  | cons p rest ih =>
    intro pos ix nv staged bad out h
    simp only [updatesStageGo] at h
    cases hs : p.sender with
    | nonMember =>
      simp only [hs, Bool.not_false, Bool.true_or, if_pos, if_true] at h
      exact absurd h (by simp)
    | member senderIdx =>
      simp only [hs] at h
      cases hb : NodeVec.blankLeafNode nv senderIdx with
      | error e => simp only [hb] at h; exact absurd h (by simp)
      | ok res =>
        obtain ⟨oldOpt, nv1⟩ := res
        cases oldOpt with
        | none =>
          simp only [hb, Bool.not_false, Bool.true_or, if_pos, if_true] at h
          exact absurd h (by simp)
        | some old =>
          simp only [hb] at h
          cases hv : idp.validSuccessor old.signingIdentity
              p.leafNode.signingIdentity with
          | none =>
            simp only [hv, Bool.not_false, Bool.true_or, if_pos, if_true] at h
            exact absurd h (by simp)
          | some b =>
            cases b with
            | false =>
              simp only [hv, Bool.not_false, Bool.true_or, if_pos, if_true] at h
              exact absurd h (by simp)
            | true =>
              simp only [hv] at h
              cases hi : idp.identity old.signingIdentity with
              | none => simp only [hi] at h; exact absurd h (by simp)
              | some oldId =>
                simp only [hi] at h
                exact ih _ _ _ _ _ _ h

theorem findMaxGo_strict_ok (idp : IdentityProvider) :
    ∀ (items : List (Nat × (Nat × LeafNode × LeafNode))) tryIx broken bad b2 r,
      findMaxGo idp false items tryIx broken bad = (b2, Except.ok r) →
      b2 = List.append broken bad ∧ ∃ outIx, r = some outIx := by
  intro items
  induction items with
  | nil =>
    intro tryIx broken bad b2 r h
    simp only [findMaxGo, Prod.mk.injEq, Except.ok.injEq] at h
    exact ⟨h.1.symm, tryIx, h.2.symm⟩
  | cons iu rest ih =>
    intro tryIx broken bad b2 r h
    obtain ⟨i, idx, old, new⟩ := iu
    simp only [findMaxGo] at h
    cases hNew : indexInsert tryIx new idx idp with
    | ok tryIx2 =>
      rw [hNew] at h
      exact ih tryIx2 broken bad b2 r h
    | error eNew =>
      rw [hNew] at h
      cases hOld : indexInsert tryIx old idx idp with
      | ok tryIx2 =>
        rw [hOld] at h
        simp only [Bool.not_false, if_pos, if_true, Prod.mk.injEq] at h
        exact absurd h.2 (by simp)
      | error eOld =>
        rw [hOld] at h
        simp only [Bool.not_false, if_pos, if_true, Prod.mk.injEq] at h
        exact absurd h.2 (by simp)

theorem maxUpdateLoop_strict_ok (idp : IdentityProvider)
    (staged : List (Nat × LeafNode × LeafNode)) (startIx : TreeIndex) :
    ∀ fuel broken b2 outIx,
      maxUpdateLoop idp false staged startIx fuel broken
        = some (b2, Except.ok outIx) →
      b2 = broken := by
  intro fuel
  induction fuel with
  | zero => intro broken b2 outIx h; simp [maxUpdateLoop] at h
  | succ f ih =>
    intro broken b2 outIx h
    unfold maxUpdateLoop at h
    rcases hres : findMaxUpdateSet idp false startIx broken staged with ⟨broken2, res⟩
    rw [hres] at h
    match res with
    | Except.ok (some outIx2) =>
      simp only [Option.some.injEq, Prod.mk.injEq] at h
      obtain ⟨hfst, hok⟩ := findMaxGo_strict_ok idp _ startIx broken [] broken2
        (some outIx2) hres
      have hfix : List.append broken ([] : List Nat) = broken := by simp
      rw [← h.1, hfst, hfix]
    | Except.ok none =>
      obtain ⟨hfst, outIx3, hbad⟩ := findMaxGo_strict_ok idp _ startIx broken []
        broken2 none hres
      simp at hbad
    | Except.error e =>
      simp only [Bool.not_false, if_pos, if_true, Option.some.injEq,
        Prod.mk.injEq] at h
      exact absurd h.2 (by simp)

theorem addsFilterGo_strict_ok :
    ∀ (l : List (Nat × MlsError)) adds adds2,
      addsFilterGo false l adds = Except.ok adds2 → l = [] ∧ adds2 = adds := by
  intro l
  cases l with
  | nil =>
    intro adds adds2 h
    simp only [addsFilterGo, Except.ok.injEq] at h
    exact ⟨rfl, h.symm⟩
  | cons ie rest =>
    intro adds adds2 h
    obtain ⟨i, e⟩ := ie
    simp only [addsFilterGo, Bool.not_false, Bool.true_or, if_pos, if_true] at h
    exact absurd h (by simp)

theorem eraseIdxsDesc_nil {α : Type} (l : List α) : eraseIdxsDesc l [] = l := rfl

/-- Counterexample to claim C1: in strict mode, a bundle whose first
remove succeeds and whose second remove fails leaves the first remove
applied — `batch_edit` returns the error of the bad proposal but the tree
it operated on is **not** equal to its value before the call. -/
theorem batchEdit_strict_mutates_on_error :
    (batchEdit id idpT false oneLeafTree
        ⟨[], [], [⟨0, PropSource.byValue⟩, ⟨1, PropSource.byValue⟩]⟩).2.2
      = Except.error (MlsError.invalidNodeIndex 2)
    ∧ (batchEdit id idpT false oneLeafTree
        ⟨[], [], [⟨0, PropSource.byValue⟩, ⟨1, PropSource.byValue⟩]⟩).1.nodes
      = [none]
    ∧ oneLeafTree.nodes ≠ [none] :=
  ⟨rfl, rfl, by decide⟩

/-- Claim C1 (amended): in strict mode `batch_edit` either returns an
error (raised at the first bad proposal, with the tree possibly left
partially modified — see the counterexample), or it succeeds and then no
proposal was dropped: the bundle is returned unchanged. -/
theorem batchEdit_strict_no_silent_drop (H : List Nat → List Nat)
    (idp : IdentityProvider) (t : TreeKemPublic) (bundle : ProposalBundle)
    (out : BatchEditOutput)
    (hok : (batchEdit H idp false t bundle).2.2 = Except.ok out) :
    (batchEdit H idp false t bundle).2.1 = bundle := by
  revert hok
  unfold batchEdit
  split
  · intro hok; simp at hok
  · rename_i ix1 nv1 removed badR hr
    dsimp only
    split
    · intro hok; simp at hok
    · rename_i ix2 nv2 staged badU hu
      split
      · rename_i hLoop
        exact absurd hLoop (maxUpdateLoop_total idp false staged ix2 _ []
          List.nodup_nil (by intro i hi; simp at hi) (by simp))
      · intro hok; simp at hok
      · rename_i broken ixOut hLoop
        split
        · intro hok; simp at hok
        · rename_i nv3 updated hc
          split
          · intro hok; simp at hok
          · rename_i ix4 nv4 info ha
            split
            · intro hok; simp at hok
            · rename_i adds4 hf
              intro hok
              have hbadR := removesGo_strict_ok idp _ _ _ _ _ _ _ hr
              have hbadU := updatesStageGo_strict_ok idp _ _ _ _ _ _ _ hu
              have hbroken := maxUpdateLoop_strict_ok idp staged ix2 _ _ _ _ hLoop
              obtain ⟨-, hadds⟩ := addsFilterGo_strict_ok _ _ _ hf
              simp only at hbadR hbadU
              subst hbadR hbadU hbroken hadds
              simp [eraseIdxsDesc_nil, sortNat]

/-- Witness for the amended C1: a strict-mode batch edit that succeeds
(removing leaf 2 of the four-member tree) returns the bundle unchanged. -/
theorem batchEdit_strict_no_silent_drop_witness :
    (batchEdit id idpT false fourLeafTree
        ⟨[], [], [⟨2, PropSource.byValue⟩]⟩).2.2
      = Except.ok ⟨[(2, mkLeaf 3)], []⟩
    ∧ (batchEdit id idpT false fourLeafTree
        ⟨[], [], [⟨2, PropSource.byValue⟩]⟩).2.1
      = ⟨[], [], [⟨2, PropSource.byValue⟩]⟩ :=
  ⟨rfl, batchEdit_strict_no_silent_drop id idpT fourLeafTree
    ⟨[], [], [⟨2, PropSource.byValue⟩]⟩ ⟨[(2, mkLeaf 3)], []⟩ rfl⟩

/-- The filter-mode scenario of claim C5: a valid by-value Add, an
invalid by-reference Update (its successor is rejected by the provider),
and a valid by-value Remove. -/
def filterScenarioBundle : ProposalBundle :=
  ⟨[⟨mkLeaf 5, PropSource.byValue⟩],
   [⟨⟨9, 9, 9, [], LeafNodeSource.update, 0⟩, Sender.member 1, PropSource.byReference⟩],
   [⟨2, PropSource.byValue⟩]⟩

/-- Counterexample to claim C5: in the claimed scenario the dropped
by-reference Update leaves the update list **empty**, so the three
proposal lists have sizes 1, 0, 1 — not one element each. -/
theorem batchEdit_filter_scenario_sizes :
    (batchEdit id idpT true fourLeafTree filterScenarioBundle).2.2
      = Except.ok ⟨[(2, mkLeaf 3)], [2]⟩
    ∧ (batchEdit id idpT true fourLeafTree filterScenarioBundle).2.1.adds.length = 1
    ∧ (batchEdit id idpT true fourLeafTree filterScenarioBundle).2.1.removes.length = 1
    ∧ (batchEdit id idpT true fourLeafTree filterScenarioBundle).2.1.updates.length ≠ 1 :=
  ⟨rfl, rfl, rfl, by decide⟩

/-- Claim C5 (amended): in the scenario the bad by-reference Update is
removed from the bundle and the edit proceeds and succeeds; the Add and
the Remove are applied (the new member fills the removed slot, the update
target keeps its old leaf), and the resulting add/update/remove lists
have sizes 1, 0 and 1. -/
theorem batchEdit_filter_scenario :
    (batchEdit id idpT true fourLeafTree filterScenarioBundle).2.2
      = Except.ok ⟨[(2, mkLeaf 3)], [2]⟩
    ∧ (batchEdit id idpT true fourLeafTree filterScenarioBundle).2.1
      = ⟨[⟨mkLeaf 5, PropSource.byValue⟩], [], [⟨2, PropSource.byValue⟩]⟩
    ∧ NodeVec.borrowAsLeaf
        (batchEdit id idpT true fourLeafTree filterScenarioBundle).1.nodes 2
      = Except.ok (mkLeaf 5)
    ∧ NodeVec.borrowAsLeaf
        (batchEdit id idpT true fourLeafTree filterScenarioBundle).1.nodes 1
      = Except.ok (mkLeaf 2) :=
  ⟨rfl, rfl, rfl, rfl⟩

/-! ## Counter correctness of the tree index (for C7) -/

theorem alLookup_insert (m : List (Nat × Nat)) (k v key : Nat) :
    alLookup (alInsert m k v) key = if key = k then some v else alLookup m key := by
  by_cases h : key = k
  · subst h
    simp [alInsert, alLookup, List.find?_cons]
  · have hne : (k == key) = false := by
      simp only [beq_eq_false_iff_ne]
      omega
    simp [alInsert, alLookup, List.find?_cons, hne, h]

/-- The counter value stored for a key. -/
def countKey (m : List (Nat × Nat)) (key : Nat) : Nat := (alLookup m key).getD 0

theorem countKey_bump (m : List (Nat × Nat)) (a pt : Nat) :
    countKey (counterBump m a) pt = countKey m pt + (if pt = a then 1 else 0) := by
  unfold countKey counterBump
  rw [alLookup_insert]
  by_cases h : pt = a
  · simp [h]
  · simp [h]

theorem countKey_foldl_bump (pt : Nat) :
    ∀ (l : List Nat) (m : List (Nat × Nat)), l.Nodup →
      countKey (l.foldl counterBump m) pt
        = countKey m pt + (if pt ∈ l then 1 else 0) := by
  intro l
  induction l with
  | nil => intro m _; simp
  | cons a rest ih =>
    intro m hnd
    have hnd2 := hnd.of_cons
    have hnotin : a ∉ rest := (List.nodup_cons.mp hnd).1
    simp only [List.foldl_cons]
    rw [ih (counterBump m a) hnd2, countKey_bump]
    by_cases hpa : pt = a
    · subst hpa
      have : pt ∉ rest := hnotin
      simp [this]
    · simp [hpa, List.mem_cons]

theorem indexInsert_count (ix : TreeIndex) (leaf : LeafNode) (i : Nat)
    (idp : IdentityProvider) (ix2 : TreeIndex)
    (h : indexInsert ix leaf i idp = Except.ok ix2) (pt : Nat) :
    ix2.countSupportingProposal pt
      = ix.countSupportingProposal pt
        + (if pt ∈ leaf.proposalCaps then 1 else 0) := by
  have hcount : ∀ idBytes,
      (indexInsert.insertEntries ix leaf i idBytes).countSupportingProposal pt
        = ix.countSupportingProposal pt
          + (if pt ∈ leaf.proposalCaps then 1 else 0) := by
    intro idBytes
    unfold indexInsert.insertEntries TreeIndex.countSupportingProposal
    show countKey (leaf.proposalCaps.dedup.foldl counterBump ix.propCounts) pt = _
    rw [countKey_foldl_bump pt leaf.proposalCaps.dedup ix.propCounts
      leaf.proposalCaps.nodup_dedup]
    simp only [List.mem_dedup]
    rfl
  unfold indexInsert at h
  cases hid : idp.identity leaf.signingIdentity with
  | none => simp only [hid] at h; exact absurd h (by simp)
  | some idBytes =>
    simp only [hid] at h
    have hchk2 : ∀ ixx,
        indexInsert.insertChecked2 ix leaf i idBytes = Except.ok ixx →
        ixx.countSupportingProposal pt
          = ix.countSupportingProposal pt
            + (if pt ∈ leaf.proposalCaps then 1 else 0) := by
      intro ixx h2
      unfold indexInsert.insertChecked2 at h2
      cases hs : alLookup ix.sigKeys leaf.sigPub with
      | none =>
        simp only [hs, Except.ok.injEq] at h2
        rw [← h2]
        exact hcount idBytes
      | some j =>
        simp only [hs] at h2
        by_cases hj : j ≠ i
        · simp [hj] at h2
        · simp only [hj, if_neg, if_false] at h2
          simp only [Except.ok.injEq] at h2
          rw [← h2]
          exact hcount idBytes
    have hchk : ∀ ixx,
        indexInsert.insertChecked ix leaf i idBytes = Except.ok ixx →
        ixx.countSupportingProposal pt
          = ix.countSupportingProposal pt
            + (if pt ∈ leaf.proposalCaps then 1 else 0) := by
      intro ixx h2
      unfold indexInsert.insertChecked at h2
      cases hs : alLookup ix.hpkeKeys leaf.hpkePub with
      | none =>
        simp only [hs] at h2
        exact hchk2 ixx h2
      | some j =>
        simp only [hs] at h2
        by_cases hj : j ≠ i
        · simp [hj] at h2
        · simp only [hj, if_neg, if_false] at h2
          exact hchk2 ixx h2
    cases hs : alLookupB ix.identities idBytes with
    | none =>
      simp only [hs] at h
      exact hchk ix2 h
    | some j =>
      simp only [hs] at h
      by_cases hj : j ≠ i
      · simp [hj] at h
      · simp only [hj, if_neg, if_false] at h
        exact hchk ix2 h

theorem initializeIndex_count (idp : IdentityProvider) (pt : Nat) :
    ∀ (leaves : List (Nat × LeafNode)) (ix0 ix : TreeIndex),
      leaves.foldlM (fun ix il => indexInsert ix il.2 il.1 idp) ix0 = Except.ok ix →
      ix.countSupportingProposal pt
        = ix0.countSupportingProposal pt
          + leaves.countP (fun il => decide (pt ∈ il.2.proposalCaps)) := by
  intro leaves
  induction leaves with
  | nil =>
    intro ix0 ix h
    simp only [List.foldlM, pure, Except.pure, Except.ok.injEq] at h
    simp [← h]
  | cons il rest ih =>
    intro ix0 ix h
    simp only [List.foldlM] at h
    cases hi : indexInsert ix0 il.2 il.1 idp with
    | error e =>
      rw [hi] at h
      simp [bind, Except.bind] at h
    | ok ix1 =>
      rw [hi] at h
      simp only [bind, Except.bind] at h
      have := ih ix1 ix h
      rw [this, indexInsert_count ix0 il.2 il.1 idp ix1 hi pt]
      simp only [List.countP_cons]
      by_cases hmem : pt ∈ il.2.proposalCaps
      · simp [hmem]
        omega
      · simp [hmem]

/-- Claim C7: for every tree whose index agrees with its nodes (the index
built by initialization) and every proposal type, `can_support_proposal`
returns true iff every occupied leaf's capability list contains the
proposal type (so it returns true on a tree with no occupied leaves), and
the TreeIndex-counter implementation agrees with the linear-scan
implementation. -/
theorem canSupportProposal_quorum (idp : IdentityProvider) (t : TreeKemPublic)
    (pt : Nat) (hix : initializeIndex idp t.nodes = Except.ok t.index) :
    canSupportProposalIndexed t pt = canSupportProposalScan t.nodes pt
    ∧ (canSupportProposalIndexed t pt = true
        ↔ ∀ il ∈ NodeVec.nonEmptyLeaves t.nodes, pt ∈ il.2.proposalCaps) := by
  have hzero : TreeIndex.new.countSupportingProposal pt = 0 := rfl
  have hcount := initializeIndex_count idp pt (NodeVec.nonEmptyLeaves t.nodes)
    TreeIndex.new t.index hix
  rw [hzero] at hcount
  simp only [Nat.zero_add] at hcount
  have hiff : canSupportProposalIndexed t pt = true
      ↔ ∀ il ∈ NodeVec.nonEmptyLeaves t.nodes, pt ∈ il.2.proposalCaps := by
    unfold canSupportProposalIndexed NodeVec.occupiedLeafCount
    rw [hcount]
    rw [beq_iff_eq]
    rw [List.countP_eq_length]
    constructor
    · intro h il hmem
      have := h il hmem
      simpa using this
    · intro h il hmem
      simpa using h il hmem
  refine ⟨?_, hiff⟩
  apply Bool.eq_iff_iff.mpr
  rw [hiff]
  unfold canSupportProposalScan
  rw [List.all_eq_true]
  constructor
  · intro h il hmem
    have := h il hmem
    simpa [List.contains_iff_exists_mem_beq] using this
  · intro h il hmem
    have := h il hmem
    simpa [List.contains_iff_exists_mem_beq] using this

/-- Witness for C7 at the four-member tree (whose leaves declare no
custom proposal types, so the quorum for type 42 fails, and on the empty
tree it holds). -/
theorem canSupportProposal_quorum_witness :
    initializeIndex idpT fourLeafTree.nodes = Except.ok fourLeafTree.index
    ∧ (canSupportProposalIndexed fourLeafTree 42
          = canSupportProposalScan fourLeafTree.nodes 42
      ∧ (canSupportProposalIndexed fourLeafTree 42 = true
          ↔ ∀ il ∈ NodeVec.nonEmptyLeaves fourLeafTree.nodes,
              42 ∈ il.2.proposalCaps)) :=
  ⟨rfl, canSupportProposal_quorum idpT fourLeafTree 42 rfl⟩

/-! ## Persistence of inserted leaves through add_leaves (for C10) -/

theorem borrowAsLeaf_filled (nv : NodeVec) (j : Nat) (l : LeafNode)
    (h : NodeVec.borrowAsLeaf nv j = Except.ok l) :
    NodeVec.getN nv (2 * j) = some (some (Node.leaf l)) := by
  unfold NodeVec.borrowAsLeaf at h
  cases hg : NodeVec.getN nv (2 * j) with
  | none => rw [hg] at h; simp at h
  | some o =>
    cases o with
    | none => rw [hg] at h; simp at h
    | some node =>
      cases node with
      | leaf l2 =>
        rw [hg] at h
        simp only [Except.ok.injEq] at h
        rw [h]
      | parent p => rw [hg] at h; simp at h

theorem nextEmptyLeaf_not_filled (nv : NodeVec) (start : Nat) :
    NodeVec.leafFilled nv (NodeVec.nextEmptyLeaf nv start) = false := by
  unfold NodeVec.nextEmptyLeaf
  cases hfind : (List.range (NodeVec.slotCount nv)).find?
      (fun i => decide (start ≤ i) && !(NodeVec.leafFilled nv i)) with
  | some i =>
    have hp := List.find?_some hfind
    simp only [Bool.and_eq_true, Bool.not_eq_true'] at hp
    exact hp.2
  | none =>
    unfold NodeVec.leafFilled NodeVec.getN
    have hlen : List.length nv ≤ 2 * NodeVec.slotCount nv := by
      unfold NodeVec.slotCount
      omega
    rw [List.get?_eq_none.mpr hlen]

theorem pushUnmerged_borrowAsLeaf (nv : NodeVec) (n idx j : Nat) (l : LeafNode)
    (h : NodeVec.borrowAsLeaf nv j = Except.ok l) :
    NodeVec.borrowAsLeaf (NodeVec.pushUnmerged nv n idx) j = Except.ok l := by
  have hg := borrowAsLeaf_filled nv j l h
  unfold NodeVec.pushUnmerged
  cases hn : NodeVec.getN nv n with
  | none => exact h
  | some o =>
    cases o with
    | none => exact h
    | some node =>
      cases node with
      | leaf l2 => exact h
      | parent p =>
        have hne : n ≠ 2 * j := by
          intro he
          rw [he, hg] at hn
          simp at hn
        unfold NodeVec.borrowAsLeaf NodeVec.getN
        rw [List.get?_set_ne _ _ (by omega)]
        unfold NodeVec.borrowAsLeaf at h
        exact h

theorem foldl_pushUnmerged_borrowAsLeaf (idx j : Nat) (l : LeafNode) :
    ∀ (path : List Nat) (nv : NodeVec),
      NodeVec.borrowAsLeaf nv j = Except.ok l →
      NodeVec.borrowAsLeaf
        (path.foldl (fun acc n => NodeVec.pushUnmerged acc n idx) nv) j
        = Except.ok l := by
  intro path
  induction path with
  | nil => intro nv h; exact h
  | cons n rest ih =>
    intro nv h
    simp only [List.foldl_cons]
    exact ih _ (pushUnmerged_borrowAsLeaf nv n idx j l h)

theorem insertLeaf_borrow_other (nv : NodeVec) (i : Nat) (l : LeafNode) (j : Nat)
    (lj : LeafNode) (hne : j ≠ i) (h : NodeVec.borrowAsLeaf nv j = Except.ok lj) :
    NodeVec.borrowAsLeaf (NodeVec.insertLeaf nv i l) j = Except.ok lj := by
  have hg := borrowAsLeaf_filled nv j lj h
  have hlt : 2 * j < List.length nv := by
    by_contra hc
    unfold NodeVec.getN at hg
    rw [List.get?_eq_none.mpr (by omega)] at hg
    simp at hg
  unfold NodeVec.insertLeaf NodeVec.borrowAsLeaf NodeVec.getN
  rw [List.get?_set_ne _ _ (by omega)]
  unfold NodeVec.padTo
  simp only [List.append_eq]
  rw [List.get?_append hlt]
  have hg2 : List.get? nv (2 * j) = some (some (Node.leaf lj)) := hg
  rw [hg2]

theorem insertLeaf_borrow_self (nv : NodeVec) (i : Nat) (l : LeafNode) :
    NodeVec.borrowAsLeaf (NodeVec.insertLeaf nv i l) i = Except.ok l := by
  unfold NodeVec.insertLeaf NodeVec.borrowAsLeaf NodeVec.getN
  have hlen : 2 * i < List.length (NodeVec.padTo nv (2 * i + 1)) := by
    unfold NodeVec.padTo
    simp only [List.append_eq, List.length_append, List.length_replicate]
    omega
  obtain ⟨x, hx⟩ : ∃ x, List.get? (NodeVec.padTo nv (2 * i + 1)) (2 * i) = some x := by
    cases hg : List.get? (NodeVec.padTo nv (2 * i + 1)) (2 * i) with
    | none =>
      rw [List.get?_eq_none] at hg
      omega
    | some x => exact ⟨x, rfl⟩
  unfold NodeVec.padTo at hx ⊢
  rw [List.get?_set_eq]
  rw [hx]
  rfl

theorem addLeavesGo_spec (idp : IdentityProvider) :
    ∀ (leaves : List LeafNode) pos ix nv start bad added errs ix2 nv2 info,
      addLeavesGo idp leaves pos ix nv start bad added errs
        = Except.ok (ix2, nv2, info) →
      (List.length info.added + List.length info.errors
        = List.length added + List.length errs + List.length leaves)
      ∧ (∀ i ∈ info.added,
          i ∈ added ∨ ∃ l ∈ leaves, NodeVec.borrowAsLeaf nv2 i = Except.ok l)
      ∧ (∀ i l, NodeVec.borrowAsLeaf nv i = Except.ok l →
          NodeVec.borrowAsLeaf nv2 i = Except.ok l) := by
  intro leaves
  induction leaves with
  | nil =>
    intro pos ix nv start bad added errs ix2 nv2 info h
    simp only [addLeavesGo, Except.ok.injEq, Prod.mk.injEq] at h
    obtain ⟨-, hnv, hinfo⟩ := h
    subst hnv
    rw [← hinfo]
    refine ⟨by simp, ?_, fun i l hl => hl⟩
    intro i hi
    exact Or.inl hi
  | cons leaf rest ih =>
    intro pos ix nv start bad added errs ix2 nv2 info h
    simp only [addLeavesGo] at h
    cases hins : indexInsert ix leaf (NodeVec.nextEmptyLeaf nv start) idp with
    | error e =>
      rw [hins] at h
      obtain ⟨h1, h2, h3⟩ := ih _ _ _ _ _ _ _ _ _ _ h
      refine ⟨by
        simp only [List.append_eq, List.length_append, List.length_singleton] at h1
        simp only [List.length_cons]
        omega, ?_, h3⟩
      intro i hi
      rcases h2 i hi with hmem | ⟨l, hl, hb⟩
      · exact Or.inl hmem
      · exact Or.inr ⟨l, List.mem_cons_of_mem _ hl, hb⟩
    | ok ixNew =>
      rw [hins] at h
      cases hdp : NodeVec.directPath
          (NodeVec.insertLeaf nv (NodeVec.nextEmptyLeaf nv start) leaf)
          (NodeVec.nextEmptyLeaf nv start) with
      | error e => rw [hdp] at h; exact absurd h (by simp)
      | ok path =>
        rw [hdp] at h
        obtain ⟨h1, h2, h3⟩ := ih _ _ _ _ _ _ _ _ _ _ h
        have hself : NodeVec.borrowAsLeaf
            (path.foldl (fun acc n => NodeVec.pushUnmerged acc n
              (NodeVec.nextEmptyLeaf nv start))
              (NodeVec.insertLeaf nv (NodeVec.nextEmptyLeaf nv start) leaf))
            (NodeVec.nextEmptyLeaf nv start) = Except.ok leaf :=
          foldl_pushUnmerged_borrowAsLeaf _ _ leaf path _
            (insertLeaf_borrow_self nv _ leaf)
        have hpers : ∀ i l, NodeVec.borrowAsLeaf nv i = Except.ok l →
            NodeVec.borrowAsLeaf
              (path.foldl (fun acc n => NodeVec.pushUnmerged acc n
                (NodeVec.nextEmptyLeaf nv start))
                (NodeVec.insertLeaf nv (NodeVec.nextEmptyLeaf nv start) leaf))
              i = Except.ok l := by
          intro i l hl
          have hne : i ≠ NodeVec.nextEmptyLeaf nv start := by
            intro he
            have hfill := borrowAsLeaf_filled nv i l hl
            have hnf := nextEmptyLeaf_not_filled nv start
            rw [← he] at hnf
            unfold NodeVec.leafFilled at hnf
            rw [hfill] at hnf
            simp at hnf
          exact foldl_pushUnmerged_borrowAsLeaf _ _ _ path _
            (insertLeaf_borrow_other nv _ leaf i l hne hl)
        refine ⟨by
          simp only [List.append_eq, List.length_append, List.length_singleton] at h1
          simp only [List.length_cons]
          omega, ?_, fun i l hl => h3 i l (hpers i l hl)⟩
        intro i hi
        rcases h2 i hi with hmem | ⟨l, hl, hb⟩
        · rw [List.append_eq] at hmem
          rcases List.mem_append.mp hmem with hmem2 | hmem2
          · exact Or.inl hmem2
          · have : i = NodeVec.nextEmptyLeaf nv start := by simpa using hmem2
            subst this
            exact Or.inr ⟨leaf, List.mem_cons_self _ _, h3 _ _ hself⟩
        · exact Or.inr ⟨l, List.mem_cons_of_mem _ hl, hb⟩

/-- Claim C10: `add_leaves` is not atomic on failure — every leaf that
passes the duplicate check is inserted (and remains retrievable from the
returned tree) even when another leaf of the same call fails; when at
least one leaf fails, the hashes are still updated for the inserted
leaves and only the **last** collected error is returned, with the
indices of the successful leaves discarded. -/
theorem addLeaves_partial_failure (H : List Nat → List Nat)
    (idp : IdentityProvider) (t : TreeKemPublic) (leaves : List LeafNode)
    (t1 : TreeKemPublic) (info : AddedLeavesInfo)
    (hint : addLeavesInternal idp t leaves = Except.ok (t1, info)) :
    (addLeaves H idp t leaves).1 = updateHashes H t1 info.added
    ∧ (addLeaves H idp t leaves).1.nodes = t1.nodes
    ∧ (addLeaves H idp t leaves).2
        = (match info.errors.getLast? with
           | some e => Except.error e
           | none => Except.ok info.added)
    ∧ List.length info.added + List.length info.errors = List.length leaves
    ∧ (∀ i ∈ info.added,
        ∃ l ∈ leaves, NodeVec.borrowAsLeaf t1.nodes i = Except.ok l) := by
  have haddLeaves : addLeaves H idp t leaves
      = (updateHashes H t1 info.added,
         match info.errors.getLast? with
         | some e => Except.error e
         | none => Except.ok info.added) := by
    unfold addLeaves
    rw [hint]
    dsimp only
    cases hcase : info.errors.getLast? with
    | some e => rfl
    | none => rfl
  have hspec : (List.length info.added + List.length info.errors
        = List.length leaves)
      ∧ ∀ i ∈ info.added,
          ∃ l ∈ leaves, NodeVec.borrowAsLeaf t1.nodes i = Except.ok l := by
    unfold addLeavesInternal at hint
    cases hgo : addLeavesGo idp leaves 0 t.index t.nodes 0 [] [] [] with
    | error e => rw [hgo] at hint; exact absurd hint (by simp)
    | ok res =>
      obtain ⟨ix, nv, info2⟩ := res
      rw [hgo] at hint
      simp only [Except.ok.injEq, Prod.mk.injEq] at hint
      obtain ⟨ht1, hinfo⟩ := hint
      obtain ⟨h1, h2, -⟩ := addLeavesGo_spec idp leaves 0 t.index t.nodes 0
        [] [] [] ix nv info2 hgo
      simp only [List.length_nil] at h1
      rw [← hinfo, ← ht1]
      refine ⟨by omega, ?_⟩
      intro i hi
      rcases h2 i hi with hmem | ⟨l, hl, hb⟩
      · simp at hmem
      · exact ⟨l, hl, hb⟩
  refine ⟨?_, ?_, ?_, hspec.1, hspec.2⟩
  · rw [haddLeaves]
  · rw [haddLeaves]
    rfl
  · rw [haddLeaves]

/-- The three-leaf input whose middle leaf duplicates the first. -/
def dupLeaves : List LeafNode := [mkLeaf 1, mkLeaf 1, mkLeaf 2]

/-- The tree state after the internal insertion of `dupLeaves`. -/
def dupT1 : TreeKemPublic :=
  match addLeavesInternal idpT TreeKemPublic.new dupLeaves with
  | Except.ok p => p.1
  | Except.error _ => TreeKemPublic.new

/-- The bookkeeping produced by the internal insertion of `dupLeaves`. -/
def dupInfo : AddedLeavesInfo :=
  match addLeavesInternal idpT TreeKemPublic.new dupLeaves with
  | Except.ok p => p.2
  | Except.error _ => ⟨[], [], []⟩

/-- Witness for C10: adding `[A, A, B]` to the empty tree rejects the
duplicate but keeps both other leaves, returning the last (only) error. -/
theorem addLeaves_partial_failure_witness :
    addLeavesInternal idpT TreeKemPublic.new dupLeaves = Except.ok (dupT1, dupInfo)
    ∧ ((addLeaves id idpT TreeKemPublic.new dupLeaves).1
          = updateHashes id dupT1 dupInfo.added
      ∧ (addLeaves id idpT TreeKemPublic.new dupLeaves).1.nodes = dupT1.nodes
      ∧ (addLeaves id idpT TreeKemPublic.new dupLeaves).2
          = (match dupInfo.errors.getLast? with
             | some e => Except.error e
             | none => Except.ok dupInfo.added)
      ∧ List.length dupInfo.added + List.length dupInfo.errors
          = List.length dupLeaves
      ∧ (∀ i ∈ dupInfo.added,
          ∃ l ∈ dupLeaves, NodeVec.borrowAsLeaf dupT1.nodes i = Except.ok l)) :=
  ⟨rfl, addLeaves_partial_failure id idpT TreeKemPublic.new dupLeaves
    dupT1 dupInfo rfl⟩

/-! ## Declarative node hashes and correctness of the hash BFS (for C3) -/

/-- The declarative hash of a node, by recursion on its level (with an
explicit fuel that the wrapper `D` instantiates with the level): a leaf
node hashes its leaf slot, an internal node hashes its stored parent and
the declarative hashes of its two children. -/
def nodeHashD (H : List Nat → List Nat) (nodes : NodeVec) :
    Nat → Nat → List Nat
  | 0, x => hashForLeaf H (x / 2) ((NodeVec.borrowAsLeaf nodes (x / 2)).toOption)
  | fuel + 1, x =>
    if level x = 0 then
      hashForLeaf H (x / 2) ((NodeVec.borrowAsLeaf nodes (x / 2)).toOption)
    else
      hashForParent H (NodeVec.borrowAsParentOpt nodes x) []
        (nodeHashD H nodes fuel (leftChild x))
        (nodeHashD H nodes fuel (rightChild x))

/-- The declarative hash of node `x`. -/
def D (H : List Nat → List Nat) (nodes : NodeVec) (x : Nat) : List Nat :=
  nodeHashD H nodes (level x) x

theorem nodeHashD_succ (H : List Nat → List Nat) (nodes : NodeVec) :
    ∀ fuel x, level x ≤ fuel →
      nodeHashD H nodes (fuel + 1) x = nodeHashD H nodes fuel x := by
  intro fuel
  induction fuel with
  | zero =>
    intro x hx
    have h0 : level x = 0 := Nat.le_zero.mp hx
    simp [nodeHashD, h0]
  | succ f ih =>
    intro x hx
    by_cases hl : level x = 0
    · simp [nodeHashD, hl]
    · have hl1 : 1 ≤ level x := by omega
      have hlf : level (leftChild x) = level x - 1 := level_leftChild x hl1
      have hrf : level (rightChild x) = level x - 1 := level_rightChild x hl1
      have h1 : nodeHashD H nodes (f + 1 + 1) x
          = hashForParent H (NodeVec.borrowAsParentOpt nodes x) []
              (nodeHashD H nodes (f + 1) (leftChild x))
              (nodeHashD H nodes (f + 1) (rightChild x)) := by
        simp [nodeHashD, hl]
      have h2 : nodeHashD H nodes (f + 1) x
          = hashForParent H (NodeVec.borrowAsParentOpt nodes x) []
              (nodeHashD H nodes f (leftChild x))
              (nodeHashD H nodes f (rightChild x)) := by
        simp [nodeHashD, hl]
      rw [h1, h2, ih (leftChild x) (by omega), ih (rightChild x) (by omega)]

theorem nodeHashD_stable (H : List Nat → List Nat) (nodes : NodeVec) :
    ∀ fuel x, level x ≤ fuel → nodeHashD H nodes fuel x = D H nodes x := by
  intro fuel
  induction fuel with
  | zero =>
    intro x hx
    unfold D
    rw [Nat.le_zero.mp hx]
  | succ f ih =>
    intro x hx
    by_cases hf : level x ≤ f
    · rw [nodeHashD_succ H nodes f x hf]
      exact ih x hf
    · have : level x = f + 1 := by omega
      unfold D
      rw [this]

theorem D_leaf (H : List Nat → List Nat) (nodes : NodeVec) (x : Nat)
    (h : level x = 0) :
    D H nodes x = hashForLeaf H (x / 2) ((NodeVec.borrowAsLeaf nodes (x / 2)).toOption) := by
  unfold D
  rw [h]
  rfl

theorem D_parent (H : List Nat → List Nat) (nodes : NodeVec) (x : Nat)
    (h : 1 ≤ level x) :
    D H nodes x = hashForParent H (NodeVec.borrowAsParentOpt nodes x) []
      (D H nodes (leftChild x)) (D H nodes (rightChild x)) := by
  obtain ⟨l0, hl0⟩ : ∃ l0, level x = l0 + 1 := ⟨level x - 1, by omega⟩
  have hlf := level_leftChild x h
  have hrf := level_rightChild x h
  unfold D
  rw [hl0]
  have hne : ¬ level x = 0 := by omega
  simp only [nodeHashD, hne, if_neg, if_false]
  rw [nodeHashD_stable H nodes l0 (leftChild x) (by omega),
    nodeHashD_stable H nodes l0 (rightChild x) (by omega)]
  rfl

theorem level_zero_even (x : Nat) (h : level x = 0) : x = 2 * (x / 2) := by
  have hdec := level_decomp x
  rw [h] at hdec
  have h1 : (2:Nat) ^ 1 = 2 := rfl
  have h0 : (2:Nat) ^ 0 = 1 := rfl
  rw [h1, h0] at hdec
  omega

theorem odd_level_pos (x : Nat) (h : x % 2 = 1) : 1 ≤ level x := by
  by_contra hc
  have h0 : level x = 0 := by omega
  have := level_zero_even x h0
  omega

theorem parentStep_leftChild (x : Nat) (h : 1 ≤ level x) :
    parentStep (leftChild x) = x := by
  have hlf := level_leftChild x h
  rw [parentStep_eq_anc, hlf]
  have hfix : level x - 1 + 1 = level x := by omega
  rw [hfix]
  obtain ⟨j0, hj0⟩ : ∃ j0, level x = j0 + 1 := ⟨level x - 1, by omega⟩
  have hdec := level_decomp x
  rw [hj0] at hdec
  have hp : 1 ≤ (2:Nat) ^ j0 := Nat.one_le_two_pow
  have hps : (2:Nat) ^ (j0 + 1) = 2 * 2 ^ j0 := by rw [pow_succ]; ring
  have hleft : leftChild x = x / 2 ^ (j0 + 1 + 1) * 2 ^ (j0 + 1 + 1) + (2 ^ j0 - 1) := by
    unfold leftChild
    rw [hj0]
    simp only [Nat.add_sub_cancel]
    omega
  rw [hj0, hleft]
  have hq : (x / 2 ^ (j0 + 1 + 1) * 2 ^ (j0 + 1 + 1) + (2 ^ j0 - 1)) / 2 ^ (j0 + 1 + 1)
      = x / 2 ^ (j0 + 1 + 1) := by
    apply mul_pow_add_lt_div (by positivity)
    have : (2:Nat) ^ (j0 + 1 + 1) = 4 * 2 ^ j0 := by
      rw [pow_succ, pow_succ]; ring
    omega
  unfold anc
  rw [hq]
  omega

theorem hashGetD_of_get (hs : List (List Nat)) (x : Nat) (v : List Nat)
    (h : List.get? hs x = some v) : hashGetD hs x = v := by
  unfold hashGetD
  rw [h]
  rfl

/-- One step of the hash BFS. -/
theorem bfsRun_cons (H : List Nat → List Nat) (nodes : NodeVec)
    (filt : List Nat) (nL fuel : Nat) (hs : List (List Nat)) (n : Nat)
    (rest : List Nat) :
    bfsRun H nodes filt nL (fuel + 1) hs (n :: rest)
      = bfsRun H nodes filt nL fuel
          (hs.set n (hashForParent H (NodeVec.borrowAsParentOpt nodes n) filt
            (hashGetD hs (leftChild n)) (hashGetD hs (rightChild n))))
          (if n ≠ rootIdx nL then List.append rest [parentStep n] else rest) := rfl

theorem bfsRun_nil (H : List Nat → List Nat) (nodes : NodeVec)
    (filt : List Nat) (nL fuel : Nat) (hs : List (List Nat)) :
    bfsRun H nodes filt nL fuel hs [] = hs := by
  cases fuel <;> rfl

/-- Termination measure of the BFS queue in a depth-`k` tree. -/
def qMeasure (k : Nat) (q : List Nat) : Nat :=
  (q.map (fun n => k + 2 - level n)).sum

theorem qMeasure_append (k : Nat) (q1 q2 : List Nat) :
    qMeasure k (q1 ++ q2) = qMeasure k q1 + qMeasure k q2 := by
  simp [qMeasure]

theorem qMeasure_cons (k n : Nat) (q : List Nat) :
    qMeasure k (n :: q) = (k + 2 - level n) + qMeasure k q := by
  simp [qMeasure]

theorem qMeasure_le (k : Nat) :
    ∀ q : List Nat, (∀ n ∈ q, 1 ≤ level n) →
      qMeasure k q ≤ List.length q * (k + 1) := by
  intro q
  induction q with
  | nil => intro _; simp [qMeasure]
  | cons n rest ih =>
    intro h
    rw [qMeasure_cons]
    have h1 := h n (List.mem_cons_self _ _)
    have h2 := ih (fun m hm => h m (List.mem_cons_of_mem _ hm))
    simp only [List.length_cons]
    have : k + 2 - level n ≤ k + 1 := by omega
    calc (k + 2 - level n) + qMeasure k rest
        ≤ (k + 1) + List.length rest * (k + 1) := by omega
      _ = (List.length rest + 1) * (k + 1) := by ring

theorem resizeHashes_length (hs : List (List Nat)) (n : Nat) :
    List.length (resizeHashes hs n) = n := by
  unfold resizeHashes
  simp only [List.append_eq, List.length_append, List.length_take,
    List.length_replicate]
  omega

/-- Setting even slots for the listed leaves leaves the array length
unchanged. -/
theorem foldl_set_length (v : Nat → List Nat) :
    ∀ (ls : List Nat) (hs0 : List (List Nat)),
      List.length (ls.foldl (fun hs l => hs.set (2 * l) (v l)) hs0)
        = List.length hs0 := by
  intro ls
  induction ls with
  | nil => intro hs0; rfl
  | cons a rest ih =>
    intro hs0
    simp only [List.foldl_cons]
    rw [ih]
    exact List.length_set hs0 _ _

theorem foldl_set_get_not_mem (v : Nat → List Nat) :
    ∀ (ls : List Nat) (hs0 : List (List Nat)) (m : Nat), m ∉ ls →
      List.get? (ls.foldl (fun hs l => hs.set (2 * l) (v l)) hs0) (2 * m)
        = List.get? hs0 (2 * m) := by
  intro ls
  induction ls with
  | nil => intro hs0 m _; rfl
  | cons a rest ih =>
    intro hs0 m hm
    have hma : m ≠ a := fun he => hm (he ▸ List.mem_cons_self _ _)
    have hmrest : m ∉ rest := fun hr => hm (List.mem_cons_of_mem _ hr)
    simp only [List.foldl_cons]
    rw [ih _ m hmrest]
    exact List.get?_set_ne _ _ (by omega)

theorem foldl_set_get_mem (v : Nat → List Nat) :
    ∀ (ls : List Nat) (hs0 : List (List Nat)) (m : Nat), m ∈ ls →
      2 * m < List.length hs0 →
      List.get? (ls.foldl (fun hs l => hs.set (2 * l) (v l)) hs0) (2 * m)
        = some (v m) := by
  intro ls
  induction ls with
  | nil => intro hs0 m hm; simp at hm
  | cons a rest ih =>
    intro hs0 m hm hlen
    simp only [List.foldl_cons]
    by_cases hmr : m ∈ rest
    · exact ih _ m hmr (by rw [List.length_set]; exact hlen)
    · have hma : m = a := by
        rcases List.mem_cons.mp hm with h | h
        · exact h
        · exact absurd h hmr
      subst hma
      rw [foldl_set_get_not_mem v rest _ m hmr]
      have hx : ∃ x, List.get? hs0 (2 * m) = some x := by
        cases hg : List.get? hs0 (2 * m) with
        | none => rw [List.get?_eq_none] at hg; omega
        | some x => exact ⟨x, rfl⟩
      obtain ⟨x, hx⟩ := hx
      rw [List.get?_set_eq, hx]
      rfl

/-- Correctness of the hash BFS: if the queue consists of a level-`j`
block followed by a level-`j+1` block, every node strictly below level
`j` already holds its declarative hash, every level-`j` node is settled
or queued, every level-`j+1` node is queued or the parent of a queued
level-`j` node, and the fuel covers the queue measure, then the run
settles every node of the tree at its declarative hash. -/
theorem bfsRun_correct (H : List Nat → List Nat) (nodes : NodeVec) (k : Nat) :
    ∀ N j fuel (hs : List (List Nat)) (q1 q2 : List Nat),
      N = (k + 1 - j) + fuel →
      1 ≤ j →
      List.length hs = 2 ^ (k + 1) - 1 →
      (∀ n ∈ q1, level n = j ∧ n < 2 ^ (k + 1) - 1) →
      (∀ n ∈ q2, level n = j + 1 ∧ n < 2 ^ (k + 1) - 1) →
      (∀ x, x < 2 ^ (k + 1) - 1 → level x < j →
        List.get? hs x = some (D H nodes x)) →
      (∀ y, y < 2 ^ (k + 1) - 1 → level y = j →
        List.get? hs y = some (D H nodes y) ∨ y ∈ q1) →
      (∀ y, y < 2 ^ (k + 1) - 1 → level y = j + 1 →
        y ∈ q2 ∨ ∃ n, n ∈ q1 ∧ parentStep n = y) →
      qMeasure k (q1 ++ q2) ≤ fuel →
      ∀ x, x < 2 ^ (k + 1) - 1 →
        List.get? (bfsRun H nodes [] (2 ^ k) fuel hs (q1 ++ q2)) x
          = some (D H nodes x) := by
  intro N
  induction N using Nat.strong_induction_on with
  | _ N ih =>
  intro j fuel hs q1 q2 hN hj hlen hq1 hq2 hbelow hcov hcov2 hM x hx
  cases q1 with
  | nil =>
    cases q2 with
    | nil =>
      simp only [List.nil_append, List.append_nil]
      rw [bfsRun_nil]
      have hlx := level_le_of_lt_width k x hx
      by_cases h1 : level x < j
      · exact hbelow x hx h1
      · by_cases h2 : level x = j
        · rcases hcov x hx h2 with hg | hq
          · exact hg
          · simp at hq
        · exfalso
          have hjk : j < k := by omega
          have hylev : level (2 ^ (j + 1) - 1) = j + 1 := by
            have := level_form (j + 1) 0
            simpa using this
          have hyw : 2 ^ (j + 1) - 1 < 2 ^ (k + 1) - 1 := by
            have : (2:Nat) ^ (j + 1) < 2 ^ (k + 1) :=
              Nat.pow_lt_pow_right (by omega) (by omega)
            have h1 : (1:Nat) ≤ 2 ^ (j + 1) := Nat.one_le_two_pow
            omega
          rcases hcov2 _ hyw hylev with h | ⟨n, hn, _⟩
          · simp at h
          · simp at hn
    | cons m q2t =>
      have hm := hq2 m (List.mem_cons_self _ _)
      have hjk1 : j + 1 ≤ k := by
        have := level_le_of_lt_width k m hm.2
        omega
      have hbelow2 : ∀ z, z < 2 ^ (k + 1) - 1 → level z < j + 1 →
          List.get? hs z = some (D H nodes z) := by
        intro z hzw hzl
        by_cases h1 : level z < j
        · exact hbelow z hzw h1
        · have h2 : level z = j := by omega
          rcases hcov z hzw h2 with hg | hq
          · exact hg
          · simp at hq
      have hcovS : ∀ y, y < 2 ^ (k + 1) - 1 → level y = j + 1 →
          List.get? hs y = some (D H nodes y) ∨ y ∈ m :: q2t := by
        intro y hyw hyl
        rcases hcov2 y hyw hyl with h | ⟨n, hn, _⟩
        · right; exact h
        · simp at hn
      have hcov2S : ∀ y, y < 2 ^ (k + 1) - 1 → level y = j + 1 + 1 →
          y ∈ ([] : List Nat) ∨ ∃ n, n ∈ m :: q2t ∧ parentStep n = y := by
        intro y hyw hyl
        have hly : 1 ≤ level y := by omega
        have hlc : level (leftChild y) = j + 1 := by
          rw [level_leftChild y hly, hyl]
          omega
        have hlcw : leftChild y < 2 ^ (k + 1) - 1 :=
          lt_trans (leftChild_lt y hly) hyw
        right
        refine ⟨leftChild y, ?_, parentStep_leftChild y hly⟩
        rcases hcov2 (leftChild y) hlcw hlc with h | ⟨n, hn, _⟩
        · exact h
        · simp at hn
      have hq2nil : ∀ n ∈ ([] : List Nat),
          level n = j + 1 + 1 ∧ n < 2 ^ (k + 1) - 1 := by
        intro n hn
        simp at hn
      have hMS : qMeasure k ((m :: q2t) ++ []) ≤ fuel := by
        rw [qMeasure_append] at hM ⊢
        have h0 : qMeasure k ([] : List Nat) = 0 := rfl
        omega
      have hrun := ih ((k + 1 - (j + 1)) + fuel) (by omega) (j + 1) fuel hs
        (m :: q2t) [] rfl (by omega) hlen hq2 hq2nil hbelow2 hcovS hcov2S
        hMS x hx
      rw [List.append_nil] at hrun
      simpa using hrun
  | cons n q1t =>
    have hn := hq1 n (List.mem_cons_self _ _)
    have hlevn : level n = j := hn.1
    have hnw : n < 2 ^ (k + 1) - 1 := hn.2
    have hjk : j ≤ k := by
      have := level_le_of_lt_width k n hnw
      omega
    cases fuel with
    | zero =>
      exfalso
      rw [List.cons_append, qMeasure_cons] at hM
      omega
    | succ f =>
    have hl1 : 1 ≤ level n := by omega
    have hlw : leftChild n < 2 ^ (k + 1) - 1 := lt_trans (leftChild_lt n hl1) hnw
    have hrw : rightChild n < 2 ^ (k + 1) - 1 := rightChild_lt_width k n hnw hl1
    have hllev : level (leftChild n) < j := by
      rw [level_leftChild n hl1]
      omega
    have hrlev : level (rightChild n) < j := by
      rw [level_rightChild n hl1]
      omega
    have hgl := hbelow (leftChild n) hlw hllev
    have hgr := hbelow (rightChild n) hrw hrlev
    have hval : hashForParent H (NodeVec.borrowAsParentOpt nodes n) []
        (hashGetD hs (leftChild n)) (hashGetD hs (rightChild n)) = D H nodes n := by
      rw [hashGetD_of_get _ _ _ hgl, hashGetD_of_get _ _ _ hgr]
      exact (D_parent H nodes n hl1).symm
    rw [List.cons_append, bfsRun_cons, hval]
    have hlen2 : List.length (hs.set n (D H nodes n)) = 2 ^ (k + 1) - 1 := by
      rw [List.length_set]
      exact hlen
    have hsetn : List.get? (hs.set n (D H nodes n)) n = some (D H nodes n) := by
      have hx2 : ∃ xv, List.get? hs n = some xv := by
        cases hg : List.get? hs n with
        | none =>
          rw [List.get?_eq_none] at hg
          omega
        | some xv => exact ⟨xv, rfl⟩
      obtain ⟨xv, hxv⟩ := hx2
      rw [List.get?_set_eq, hxv]
      rfl
    have hbelow2 : ∀ z, z < 2 ^ (k + 1) - 1 → level z < j →
        List.get? (hs.set n (D H nodes n)) z = some (D H nodes z) := by
      intro z hzw hzl
      have hne : n ≠ z := by
        intro he
        rw [he] at hlevn
        omega
      rw [List.get?_set_ne _ _ hne]
      exact hbelow z hzw hzl
    have hcov' : ∀ y, y < 2 ^ (k + 1) - 1 → level y = j →
        List.get? (hs.set n (D H nodes n)) y = some (D H nodes y) ∨ y ∈ q1t := by
      intro y hyw hyl
      by_cases hyn : y = n
      · left
        rw [hyn]
        exact hsetn
      · rcases hcov y hyw hyl with hg | hq
        · left
          rw [List.get?_set_ne _ _ (fun he => hyn he.symm)]
          exact hg
        · rcases List.mem_cons.mp hq with h | h
          · exact absurd h hyn
          · right; exact h
    have hq1t : ∀ m ∈ q1t, level m = j ∧ m < 2 ^ (k + 1) - 1 :=
      fun m hm => hq1 m (List.mem_cons_of_mem _ hm)
    by_cases hroot : n = rootIdx (2 ^ k)
    · have hrootlev : level ((2:Nat) ^ k - 1) = k := by
        have := level_form k 0
        simpa using this
      have hjk2 : j = k := by
        rw [hroot] at hlevn
        unfold rootIdx at hlevn
        rw [hrootlev] at hlevn
        omega
      have hcov2' : ∀ y, y < 2 ^ (k + 1) - 1 → level y = j + 1 →
          y ∈ q2 ∨ ∃ m, m ∈ q1t ∧ parentStep m = y := by
        intro y hyw hyl
        exfalso
        have := level_le_of_lt_width k y hyw
        omega
      have hM' : qMeasure k (q1t ++ q2) ≤ f := by
        rw [List.cons_append, qMeasure_cons, hlevn] at hM
        omega
      rw [if_neg (not_not_intro hroot)]
      exact ih ((k + 1 - j) + f) (by omega) j f (hs.set n (D H nodes n)) q1t q2
        rfl hj hlen2 hq1t hq2 hbelow2 hcov' hcov2' hM' x hx
    · have hjk2 : j < k := by
        rcases Nat.lt_or_ge j k with h | h
        · exact h
        · exfalso
          have hjeq : j = k := by omega
          exact hroot (level_eq_top_iff_root k n hnw (by rw [hlevn, hjeq]))
      have hpw : parentStep n < 2 ^ (k + 1) - 1 :=
        parentStep_lt_width k n hnw (by omega)
      have hpl : level (parentStep n) = j + 1 := by
        rw [level_parentStep, hlevn]
      rw [if_pos hroot]
      have hassoc : List.append (q1t ++ q2) [parentStep n]
          = q1t ++ (q2 ++ [parentStep n]) := by
        simp [List.append_assoc]
      rw [hassoc]
      have hq2' : ∀ m ∈ q2 ++ [parentStep n],
          level m = j + 1 ∧ m < 2 ^ (k + 1) - 1 := by
        intro m hm
        rcases List.mem_append.mp hm with h | h
        · exact hq2 m h
        · have hme : m = parentStep n := by simpa using h
          rw [hme]
          exact ⟨hpl, hpw⟩
      have hcov2' : ∀ y, y < 2 ^ (k + 1) - 1 → level y = j + 1 →
          y ∈ q2 ++ [parentStep n] ∨ ∃ m, m ∈ q1t ∧ parentStep m = y := by
        intro y hyw hyl
        rcases hcov2 y hyw hyl with h | ⟨m, hm, hpm⟩
        · left
          exact List.mem_append.mpr (Or.inl h)
        · rcases List.mem_cons.mp hm with he | he
          · left
            apply List.mem_append.mpr
            right
            rw [← hpm, he]
            simp
          · right
            exact ⟨m, he, hpm⟩
      have hsingle : qMeasure k [parentStep n] = k + 2 - (j + 1) := by
        have : ([parentStep n] : List Nat) = parentStep n :: [] := rfl
        rw [this, qMeasure_cons, hpl]
        simp [qMeasure]
      have hM' : qMeasure k (q1t ++ (q2 ++ [parentStep n])) ≤ f := by
        rw [List.cons_append, qMeasure_cons, hlevn, qMeasure_append] at hM
        rw [qMeasure_append, qMeasure_append, hsingle]
        omega
      exact ih ((k + 1 - j) + f) (by omega) j f (hs.set n (D H nodes n)) q1t
        (q2 ++ [parentStep n]) rfl hj hlen2 hq1t hq2' hbelow2 hcov' hcov2' hM'
        x hx

theorem foldl_set_get_odd (v : Nat → List Nat) :
    ∀ (ls : List Nat) (hs0 : List (List Nat)) (n : Nat), n % 2 = 1 →
      List.get? (ls.foldl (fun hs l => hs.set (2 * l) (v l)) hs0) n
        = List.get? hs0 n := by
  intro ls
  induction ls with
  | nil => intro hs0 n _; rfl
  | cons a rest ih =>
    intro hs0 n hn
    simp only [List.foldl_cons]
    rw [ih _ n hn]
    exact List.get?_set_ne _ _ (by omega)

/-- Every entry of the initial BFS queue of a full recompute is a
level-1 node inside the tree. -/
theorem fullQueue_mem_levels (k : Nat) :
    ∀ n ∈ (List.range (2 ^ k)).filterMap
        (fun l => if 2 * l ≠ rootIdx (2 ^ k) then some (parentStep (2 * l)) else none),
      level n = 1 ∧ n < 2 ^ (k + 1) - 1 := by
  intro n hn
  obtain ⟨l, hl, hif⟩ := List.mem_filterMap.mp hn
  have hlr := List.mem_range.mp hl
  by_cases hc : 2 * l ≠ rootIdx (2 ^ k)
  · rw [if_pos hc] at hif
    have hne : n = parentStep (2 * l) := (Option.some_inj.mp hif).symm
    have hlev0 : level (2 * l) = 0 := level_two_mul l
    have hk1 : 1 ≤ k := by
      by_contra hk0
      have hk : k = 0 := by omega
      apply hc
      unfold rootIdx
      rw [hk] at hlr ⊢
      omega
    have hpow : (2:Nat) ^ (k + 1) = 2 * 2 ^ k := by rw [pow_succ]; ring
    have h2lw : 2 * l < 2 ^ (k + 1) - 1 := by omega
    constructor
    · rw [hne, level_parentStep, hlev0]
    · rw [hne]
      exact parentStep_lt_width k (2 * l) h2lw (by omega)
  · rw [if_neg hc] at hif
    simp at hif

/-- Every level-1 node of the tree appears in the initial BFS queue of a
full recompute. -/
theorem level_one_mem_fullQueue (k y : Nat) (hyw : y < 2 ^ (k + 1) - 1)
    (hyl : level y = 1) :
    y ∈ (List.range (2 ^ k)).filterMap
      (fun l => if 2 * l ≠ rootIdx (2 ^ k) then some (parentStep (2 * l)) else none) := by
  have hk1 : 1 ≤ k := by
    have := level_le_of_lt_width k y hyw
    omega
  have hy1 : 1 ≤ level y := by omega
  have hpow : (2:Nat) ^ (k + 1) = 2 * 2 ^ k := by rw [pow_succ]; ring
  have hlc : leftChild y = y - 1 := by
    unfold leftChild
    rw [hyl]
    simp
  have hps : parentStep (y - 1) = y := by
    rw [← hlc]
    exact parentStep_leftChild y hy1
  have hlev0 : level (y - 1) = 0 := by
    rw [← hlc, level_leftChild y hy1, hyl]
  have heven := level_zero_even _ hlev0
  have hdec := level_decomp y
  rw [hyl] at hdec
  have h4 : (2:Nat) ^ (1 + 1) = 4 := rfl
  have h2 : (2:Nat) ^ 1 = 2 := rfl
  rw [h4, h2] at hdec
  have hlr : (y - 1) / 2 < 2 ^ k := by omega
  apply List.mem_filterMap.mpr
  refine ⟨(y - 1) / 2, List.mem_range.mpr hlr, ?_⟩
  obtain ⟨k0, hk0⟩ : ∃ k0, k = k0 + 1 := ⟨k - 1, by omega⟩
  have hpow0 : (2:Nat) ^ (k0 + 1) = 2 * 2 ^ k0 := by rw [pow_succ]; ring
  have hcond : 2 * ((y - 1) / 2) ≠ rootIdx (2 ^ k) := by
    unfold rootIdx
    rw [hk0, hpow0]
    have h1 : (1:Nat) ≤ 2 ^ k0 := Nat.one_le_two_pow
    omega
  rw [if_pos hcond]
  rw [show 2 * ((y - 1) / 2) = y - 1 from heven.symm, hps]

/-- After the leaf pass the BFS of a full recompute settles every node
hash: the seeded queue covers level 1, each higher level is covered by
the parent pushes, and the fuel chosen in `treeHashFn` covers the queue
measure. -/
theorem treeHashFn_run (H : List Nat → List Nat) (nodes : NodeVec) (k : Nat)
    (hs2 : List (List Nat)) (Q : List Nat) (fuel : Nat)
    (hlen : List.length hs2 = 2 ^ (k + 1) - 1)
    (hQ : ∀ n ∈ Q, level n = 1 ∧ n < 2 ^ (k + 1) - 1)
    (hgood0 : ∀ z, z < 2 ^ (k + 1) - 1 → level z = 0 →
      List.get? hs2 z = some (D H nodes z))
    (hcov1 : ∀ y, y < 2 ^ (k + 1) - 1 → level y = 1 → y ∈ Q)
    (hfuel : qMeasure k Q ≤ fuel) :
    ∀ x, x < 2 ^ (k + 1) - 1 →
      List.get? (bfsRun H nodes [] (2 ^ k) fuel hs2 Q) x = some (D H nodes x) := by
  intro x hx
  have hrun := bfsRun_correct H nodes k ((k + 1 - 1) + fuel) 1 fuel hs2 Q []
    rfl (le_refl 1) hlen hQ
    (by intro n hn; simp at hn)
    (by
      intro z hzw hzl
      exact hgood0 z hzw (by omega))
    (by
      intro y hyw hyl
      right
      exact hcov1 y hyw hyl)
    (by
      intro y hyw hyl
      right
      have hly : 1 ≤ level y := by omega
      have hlc : level (leftChild y) = 1 := by
        rw [level_leftChild y hly, hyl]
      have hlcw : leftChild y < 2 ^ (k + 1) - 1 :=
        lt_trans (leftChild_lt y hly) hyw
      exact ⟨leftChild y, hcov1 (leftChild y) hlcw hlc,
        parentStep_leftChild y hly⟩)
    (by
      rw [qMeasure_append]
      have h0 : qMeasure k ([] : List Nat) = 0 := rfl
      omega)
    x hx
  rw [List.append_nil] at hrun
  exact hrun

/-- The free `tree_hash` with `leaves_to_update = None` (the full
recompute performed by `initialize_hashes`) produces the declarative hash
of every node, whatever hash array it starts from. -/
theorem treeHashFn_full (H : List Nat → List Nat) (nodes : NodeVec)
    (hs0 : List (List Nat)) (k : Nat) (x : Nat) (hx : x < 2 ^ (k + 1) - 1) :
    List.get? (treeHashFn H hs0 nodes none [] (2 ^ k)) x = some (D H nodes x) := by
  have hpow : (2:Nat) ^ (k + 1) = 2 * 2 ^ k := by rw [pow_succ]; ring
  have hfil : List.filter (fun l => decide (l < 2 ^ k)) (List.range (2 ^ k))
      = List.range (2 ^ k) := by
    apply List.filter_eq_self.mpr
    intro a ha
    simpa using List.mem_range.mp ha
  unfold treeHashFn
  simp only [Option.getD_none, hfil]
  apply treeHashFn_run H nodes k _ _ _ _ (fullQueue_mem_levels k) _
    (fun y hyw hyl => level_one_mem_fullQueue k y hyw hyl) _ x hx
  · have h := foldl_set_length
      (fun l => hashForLeaf H l
        (if List.contains ([] : List Nat) l = true then none
         else (NodeVec.borrowAsLeaf nodes l).toOption))
      (List.range (2 ^ k)) (resizeHashes hs0 (2 * 2 ^ k - 1))
    rw [resizeHashes_length] at h
    calc List.length _ = 2 * 2 ^ k - 1 := h
      _ = 2 ^ (k + 1) - 1 := by omega
  · intro z hzw hzl
    have hze := level_zero_even z hzl
    have hm : z / 2 < 2 ^ k := by omega
    have hget := foldl_set_get_mem
      (fun l => hashForLeaf H l
        (if List.contains ([] : List Nat) l = true then none
         else (NodeVec.borrowAsLeaf nodes l).toOption))
      (List.range (2 ^ k)) (resizeHashes hs0 (2 * 2 ^ k - 1)) (z / 2)
      (List.mem_range.mpr hm) (by rw [resizeHashes_length]; omega)
    rw [← hze] at hget
    rw [D_leaf H nodes z hzl]
    exact hget
  · apply le_trans (qMeasure_le k _ (fun n hn => by
      have := fullQueue_mem_levels k n hn
      omega))
    have hk2 : k + 1 ≤ 2 ^ k + 1 := by
      have := Nat.lt_two_pow k
      omega
    calc List.length _ * (k + 1) ≤ List.length _ * (2 ^ k + 1) :=
        Nat.mul_le_mul_left _ hk2
      _ ≤ List.length _ * (2 ^ k + 1) + 1 := Nat.le_succ _

/-- A two-member tree (three node slots) with an empty hash cache. -/
def c3tree : TreeKemPublic :=
  ⟨TreeIndex.new,
   [some (Node.leaf (mkLeaf 1)), none, some (Node.leaf (mkLeaf 2))],
   []⟩

/-- C3: after `tree_hash` completes on a tree with an empty cache (the
recomputing run,  see C4/C9 for the cached case), every internal
(odd-indexed) node `n` of the `L`-leaf tree satisfies
`current[n] = H(encode(Parent, current[left(n)], current[right(n)]))` —
the parent encoding carries discriminant 2 and the slot's parent node
(`none` if blank) — and every leaf `i` satisfies
`current[2i] = H(encode(Leaf i, leaf_node))` with discriminant 1, the
leaf encoding carrying `none` for a blank slot. -/
theorem treeHash_node_equations (H : List Nat → List Nat) (t : TreeKemPublic)
    (hempty : t.treeHashes = []) :
    ∃ rootHash t2, treeHash H t = some (rootHash, t2)
      ∧ t2.nodes = t.nodes
      ∧ (∀ i, i < NodeVec.totalLeafCount t.nodes →
          List.get? t2.treeHashes (2 * i)
            = some (hashForLeaf H i ((NodeVec.borrowAsLeaf t.nodes i).toOption)))
      ∧ (∀ n, n < 2 * NodeVec.totalLeafCount t.nodes - 1 → n % 2 = 1 →
          List.get? t2.treeHashes n
            = some (hashForParent H (NodeVec.borrowAsParentOpt t.nodes n) []
                (hashGetD t2.treeHashes (leftChild n))
                (hashGetD t2.treeHashes (rightChild n)))) := by
  have hpow : (2:Nat) ^ (NodeVec.depthK t.nodes + 1)
      = 2 * 2 ^ NodeVec.depthK t.nodes := by rw [pow_succ]; ring
  have hone : (1:Nat) ≤ 2 ^ NodeVec.depthK t.nodes := Nat.one_le_two_pow
  have hth : ∀ x, x < 2 ^ (NodeVec.depthK t.nodes + 1) - 1 →
      List.get? (treeHashFn H t.treeHashes t.nodes none []
        (NodeVec.totalLeafCount t.nodes)) x = some (D H t.nodes x) :=
    fun x hx => treeHashFn_full H t.nodes t.treeHashes (NodeVec.depthK t.nodes) x hx
  have hinit : initializeHashes H t
      = { t with treeHashes := treeHashFn H t.treeHashes t.nodes none [] (NodeVec.totalLeafCount t.nodes) } := by
    unfold initializeHashes
    rw [if_pos hempty]
  have hrootw : rootIdx (NodeVec.totalLeafCount t.nodes)
      < 2 ^ (NodeVec.depthK t.nodes + 1) - 1 := by
    unfold rootIdx NodeVec.totalLeafCount
    omega
  have hrootget := hth _ hrootw
  refine ⟨D H t.nodes (rootIdx (NodeVec.totalLeafCount t.nodes)),
    { t with treeHashes := treeHashFn H t.treeHashes t.nodes none [] (NodeVec.totalLeafCount t.nodes) }, ?_, rfl, ?_, ?_⟩
  · unfold treeHash
    rw [hinit]
    dsimp only
    rw [hrootget]
    rfl
  · intro i hi
    dsimp only
    have hiw : 2 * i < 2 ^ (NodeVec.depthK t.nodes + 1) - 1 := by
      unfold NodeVec.totalLeafCount at hi
      omega
    have hget := hth (2 * i) hiw
    rw [hget, D_leaf H t.nodes (2 * i) (level_two_mul i)]
    have hdiv : 2 * i / 2 = i := by omega
    rw [hdiv]
  · intro n hnw hodd
    dsimp only
    have hnw2 : n < 2 ^ (NodeVec.depthK t.nodes + 1) - 1 := by
      unfold NodeVec.totalLeafCount at hnw
      omega
    have hl1 := odd_level_pos n hodd
    have hlw : leftChild n < 2 ^ (NodeVec.depthK t.nodes + 1) - 1 :=
      lt_trans (leftChild_lt n hl1) hnw2
    have hrw : rightChild n < 2 ^ (NodeVec.depthK t.nodes + 1) - 1 :=
      rightChild_lt_width _ n hnw2 hl1
    rw [hashGetD_of_get _ _ _ (hth _ hlw), hashGetD_of_get _ _ _ (hth _ hrw),
      ← D_parent H t.nodes n hl1]
    exact hth n hnw2

/-- Witness for C3 at the concrete two-member tree with empty cache. -/
theorem treeHash_node_equations_witness :
    c3tree.treeHashes = [] ∧
    ∃ rootHash t2, treeHash id c3tree = some (rootHash, t2)
      ∧ t2.nodes = c3tree.nodes
      ∧ (∀ i, i < NodeVec.totalLeafCount c3tree.nodes →
          List.get? t2.treeHashes (2 * i)
            = some (hashForLeaf id i ((NodeVec.borrowAsLeaf c3tree.nodes i).toOption)))
      ∧ (∀ n, n < 2 * NodeVec.totalLeafCount c3tree.nodes - 1 → n % 2 = 1 →
          List.get? t2.treeHashes n
            = some (hashForParent id (NodeVec.borrowAsParentOpt c3tree.nodes n) []
                (hashGetD t2.treeHashes (leftChild n))
                (hashGetD t2.treeHashes (rightChild n)))) :=
  ⟨rfl, treeHash_node_equations id c3tree rfl⟩

/-! ## The unmerged-leaves invariant (for C2) -/

theorem odd_of_level_pos (x : Nat) (h : 1 ≤ level x) : x % 2 = 1 := by
  by_contra hc
  have hx : x = 2 * (x / 2) := by omega
  have := level_two_mul (x / 2)
  rw [← hx] at this
  omega

theorem anc_two_mul_zero (i : Nat) : anc (2 * i) 0 = 2 * i := by
  unfold anc
  have h1 : (2:Nat) ^ (0 + 1) = 2 := rfl
  have h0 : (2:Nat) ^ 0 = 1 := rfl
  rw [h1, h0]
  omega

theorem len_le_width (nv : NodeVec) :
    List.length nv ≤ 2 * NodeVec.totalLeafCount nv - 1 := by
  unfold NodeVec.totalLeafCount NodeVec.depthK
  have h := le_pow2CeilK (List.length nv / 2 + 1)
  omega

theorem totalLeafCount_pow (nv : NodeVec) :
    2 * NodeVec.totalLeafCount nv - 1 = 2 ^ (NodeVec.depthK nv + 1) - 1 := by
  unfold NodeVec.totalLeafCount
  have : (2:Nat) ^ (NodeVec.depthK nv + 1) = 2 * 2 ^ NodeVec.depthK nv := by
    rw [pow_succ]; ring
  omega

theorem insertLeaf_length (nv : NodeVec) (i : Nat) (l : LeafNode) :
    List.length (NodeVec.insertLeaf nv i l)
      = List.length nv + (2 * i + 1 - List.length nv) := by
  unfold NodeVec.insertLeaf NodeVec.padTo
  simp only [List.append_eq, List.length_set, List.length_append,
    List.length_replicate]

theorem insertLeaf_parent (nv : NodeVec) (i : Nat) (l : LeafNode) (m : Nat)
    (p : ParentNode)
    (h : NodeVec.getN (NodeVec.insertLeaf nv i l) m = some (some (Node.parent p))) :
    NodeVec.getN nv m = some (some (Node.parent p)) := by
  unfold NodeVec.insertLeaf NodeVec.getN at h
  by_cases hm : m = 2 * i
  · subst hm
    obtain ⟨x, hx⟩ : ∃ x, List.get? (NodeVec.padTo nv (2 * i + 1)) (2 * i) = some x := by
      cases hg : List.get? (NodeVec.padTo nv (2 * i + 1)) (2 * i) with
      | none =>
        rw [List.get?_eq_none] at hg
        unfold NodeVec.padTo at hg
        simp only [List.append_eq, List.length_append, List.length_replicate] at hg
        omega
      | some x => exact ⟨x, rfl⟩
    rw [List.get?_set_eq, hx] at h
    simp at h
  · rw [List.get?_set_ne _ _ (fun he => hm he.symm)] at h
    unfold NodeVec.padTo at h
    simp only [List.append_eq] at h
    by_cases hlt : m < List.length nv
    · rw [List.get?_append hlt] at h
      exact h
    · rw [List.get?_append_right (by omega)] at h
      cases hg : List.get? (List.replicate (2 * i + 1 - List.length nv) (none : Option Node))
          (m - List.length nv) with
      | none => rw [hg] at h; exact absurd h (by simp)
      | some x =>
        have := List.get?_mem hg
        rw [List.eq_of_mem_replicate this] at hg
        rw [hg] at h
        exact absurd h (by simp)

theorem insertLeaf_leafFilled_self (nv : NodeVec) (i : Nat) (l : LeafNode) :
    NodeVec.leafFilled (NodeVec.insertLeaf nv i l) i = true := by
  have h := insertLeaf_borrow_self nv i l
  unfold NodeVec.borrowAsLeaf at h
  unfold NodeVec.leafFilled
  cases hg : NodeVec.getN (NodeVec.insertLeaf nv i l) (2 * i) with
  | none => rw [hg] at h; simp at h
  | some o =>
    cases o with
    | none => rw [hg] at h; simp at h
    | some node => rfl

theorem insertLeaf_leafFilled_other (nv : NodeVec) (i : Nat) (l : LeafNode)
    (j : Nat) (hne : j ≠ i) :
    NodeVec.leafFilled (NodeVec.insertLeaf nv i l) j = NodeVec.leafFilled nv j := by
  unfold NodeVec.leafFilled NodeVec.getN NodeVec.insertLeaf
  rw [List.get?_set_ne _ _ (by omega)]
  unfold NodeVec.padTo
  simp only [List.append_eq]
  by_cases hlt : 2 * j < List.length nv
  · rw [List.get?_append hlt]
  · have hrhs : List.get? nv (2 * j) = none := List.get?_eq_none.mpr (by omega)
    rw [List.get?_append_right (by omega), hrhs]
    cases hg : List.get? (List.replicate (2 * i + 1 - List.length nv) (none : Option Node))
        (2 * j - List.length nv) with
    | none => rfl
    | some x =>
      have hx := List.get?_mem hg
      rw [List.eq_of_mem_replicate hx]

theorem pushUnmerged_get_ne (nv : NodeVec) (n idx m : Nat) (hne : m ≠ n) :
    NodeVec.getN (NodeVec.pushUnmerged nv n idx) m = NodeVec.getN nv m := by
  unfold NodeVec.pushUnmerged
  cases hg : NodeVec.getN nv n with
  | none => rfl
  | some o =>
    cases o with
    | none => rfl
    | some node =>
      cases node with
      | leaf l => rfl
      | parent p =>
        unfold NodeVec.getN
        exact List.get?_set_ne _ _ (fun he => hne he.symm)

theorem pushUnmerged_get_self (nv : NodeVec) (n idx : Nat) (p : ParentNode)
    (h : NodeVec.getN nv n = some (some (Node.parent p))) :
    NodeVec.getN (NodeVec.pushUnmerged nv n idx) n
      = some (some (Node.parent
          { p with unmergedLeaves := List.append p.unmergedLeaves [idx] })) := by
  unfold NodeVec.pushUnmerged
  rw [h]
  unfold NodeVec.getN
  have hlt : n < List.length nv := by
    by_contra hc
    unfold NodeVec.getN at h
    rw [List.get?_eq_none.mpr (by omega)] at h
    simp at h
  obtain ⟨x, hx⟩ : ∃ x, List.get? nv n = some x := ⟨_, h⟩
  rw [List.get?_set_eq, hx]
  have hxv : x = some (Node.parent p) := by
    unfold NodeVec.getN at h
    rw [hx] at h
    exact Option.some_inj.mp h
  rfl

theorem pushUnmerged_leafFilled (nv : NodeVec) (n idx j : Nat) :
    NodeVec.leafFilled (NodeVec.pushUnmerged nv n idx) j
      = NodeVec.leafFilled nv j := by
  by_cases hm : 2 * j = n
  · cases hg : NodeVec.getN nv n with
    | none => unfold NodeVec.pushUnmerged; rw [hg]
    | some o =>
      cases o with
      | none => unfold NodeVec.pushUnmerged; rw [hg]
      | some node =>
        cases node with
        | leaf l => unfold NodeVec.pushUnmerged; rw [hg]
        | parent p =>
          have h2 := pushUnmerged_get_self nv n idx p hg
          unfold NodeVec.leafFilled
          rw [hm, h2, hg]
  · unfold NodeVec.leafFilled
    rw [pushUnmerged_get_ne nv n idx _ hm]

theorem foldl_blank_get_not_mem :
    ∀ (path : List Nat) (nv : NodeVec) (m : Nat), m ∉ path →
      List.get? (path.foldl NodeVec.blankNode nv) m = List.get? nv m := by
  intro path
  induction path with
  | nil => intro nv m _; rfl
  | cons n rest ih =>
    intro nv m hm
    have hmn : m ≠ n := fun he => hm (he ▸ List.mem_cons_self _ _)
    have hmr : m ∉ rest := fun hr => hm (List.mem_cons_of_mem _ hr)
    simp only [List.foldl_cons]
    rw [ih _ m hmr]
    unfold NodeVec.blankNode
    exact List.get?_set_ne _ _ (fun he => hmn he.symm)

theorem foldl_blank_none_stable :
    ∀ (path : List Nat) (nv : NodeVec) (m : Nat),
      (List.get? nv m = some none ∨ List.get? nv m = none) →
      (List.get? (path.foldl NodeVec.blankNode nv) m = some none
        ∨ List.get? (path.foldl NodeVec.blankNode nv) m = none) := by
  intro path
  induction path with
  | nil => intro nv m h; exact h
  | cons n rest ih =>
    intro nv m h
    simp only [List.foldl_cons]
    apply ih
    unfold NodeVec.blankNode
    by_cases hmn : m = n
    · subst hmn
      by_cases hlt : m < List.length nv
      · left
        obtain ⟨x, hx⟩ : ∃ x, List.get? nv m = some x := by
          cases hg : List.get? nv m with
          | none => rw [List.get?_eq_none] at hg; omega
          | some x => exact ⟨x, rfl⟩
        rw [List.get?_set_eq, hx]
        rfl
      · right
        rw [List.get?_eq_none]
        rw [List.length_set]
        omega
    · rw [List.get?_set_ne _ _ (fun he => hmn he.symm)]
      exact h

theorem foldl_blank_no_parent :
    ∀ (path : List Nat) (nv : NodeVec) (m : Nat), m ∈ path →
      ∀ p : ParentNode,
        List.get? (path.foldl NodeVec.blankNode nv) m
          ≠ some (some (Node.parent p)) := by
  intro path
  induction path with
  | nil => intro nv m hm; simp at hm
  | cons n rest ih =>
    intro nv m hm p
    simp only [List.foldl_cons]
    by_cases hmr : m ∈ rest
    · exact ih _ m hmr p
    · have hmn : m = n := by
        rcases List.mem_cons.mp hm with h | h
        · exact h
        · exact absurd h hmr
      subst hmn
      intro hcontra
      have hstable := foldl_blank_none_stable rest (NodeVec.blankNode nv m) m (by
        unfold NodeVec.blankNode
        by_cases hlt : m < List.length nv
        · left
          obtain ⟨x, hx⟩ : ∃ x, List.get? nv m = some x := by
            cases hg : List.get? nv m with
            | none => rw [List.get?_eq_none] at hg; omega
            | some x => exact ⟨x, rfl⟩
          rw [List.get?_set_eq, hx]
          rfl
        · right
          rw [List.get?_eq_none, List.length_set]
          omega)
      rcases hstable with h | h
      · rw [hcontra] at h; simp at h
      · rw [hcontra] at h; simp at h

theorem foldl_blank_length :
    ∀ (path : List Nat) (nv : NodeVec),
      List.length (path.foldl NodeVec.blankNode nv) = List.length nv := by
  intro path
  induction path with
  | nil => intro nv; rfl
  | cons n rest ih =>
    intro nv
    simp only [List.foldl_cons]
    rw [ih]
    unfold NodeVec.blankNode
    exact List.length_set nv _ _

theorem foldl_blank_leafFilled (path : List Nat) (nv : NodeVec) (j : Nat)
    (hodd : ∀ n ∈ path, n % 2 = 1) :
    NodeVec.leafFilled (path.foldl NodeVec.blankNode nv) j
      = NodeVec.leafFilled nv j := by
  unfold NodeVec.leafFilled NodeVec.getN
  rw [foldl_blank_get_not_mem path nv (2 * j) (fun hmem => by
    have := hodd _ hmem
    omega)]

theorem trimRev_spec :
    ∀ r : List (Option Node), ∃ d,
      NodeVec.trimRev r = List.drop d r
      ∧ (∀ o, o < d → o % 2 = 0 → List.get? r o = some none)
      ∧ (d % 2 = 0 ∨ NodeVec.trimRev r = []) := by
  intro r
  induction r using NodeVec.trimRev.induct with
  | case1 =>
    exact ⟨0, rfl, by intro o ho; omega, Or.inl rfl⟩
  | case2 n rest =>
    exact ⟨0, rfl, by intro o ho; omega, Or.inl rfl⟩
  | case3 =>
    refine ⟨1, rfl, ?_, Or.inr rfl⟩
    intro o ho _
    have : o = 0 := by omega
    rw [this]
    rfl
  | case4 x rest ih =>
    obtain ⟨d, hd, hcond, hpar⟩ := ih
    refine ⟨d + 2, ?_, ?_, ?_⟩
    · show NodeVec.trimRev rest = List.drop (d + 2) (none :: x :: rest)
      rw [hd]
      rfl
    · intro o ho hoe
      match o with
      | 0 => rfl
      | 1 => omega
      | o2 + 2 =>
        show List.get? rest o2 = some none
        exact hcond o2 (by omega) (by omega)
    · rcases hpar with h | h
      · left; omega
      · right
        show NodeVec.trimRev rest = []
        exact h

theorem trim_spec (nv : NodeVec)
    (hpar : List.length nv % 2 = 1 ∨ List.length nv = 0) :
    ∃ m, NodeVec.trim nv = List.take m nv
      ∧ (∀ p, m ≤ p → p < List.length nv → p % 2 = 0 →
          List.get? nv p = some none) := by
  obtain ⟨d, hd, hcond, _⟩ := trimRev_spec (List.reverse nv)
  refine ⟨List.length nv - d, ?_, ?_⟩
  · unfold NodeVec.trim
    rw [hd, List.reverse_drop, List.length_reverse, List.reverse_reverse]
  · intro p hmp hplen hpe
    have hrev : List.get? (List.reverse nv) (List.length nv - 1 - p) = some none := by
      apply hcond
      · omega
      · rcases hpar with h | h
        · omega
        · omega
    rw [List.get?_reverse] at hrev
    · have : List.length nv - 1 - (List.length nv - 1 - p) = p := by omega
      rw [this] at hrev
      exact hrev
    · omega

theorem trimRev_parity :
    ∀ r : List (Option Node),
      List.length r % 2 = 1 ∨ List.length r = 0 →
      List.length (NodeVec.trimRev r) % 2 = 1
        ∨ List.length (NodeVec.trimRev r) = 0 := by
  intro r
  induction r using NodeVec.trimRev.induct with
  | case1 => intro h; exact h
  | case2 n rest => intro h; exact h
  | case3 => intro h; right; rfl
  | case4 x rest ih =>
    intro h
    simp only [List.length_cons] at h
    exact ih (by omega)

theorem trim_parity (nv : NodeVec)
    (h : List.length nv % 2 = 1 ∨ List.length nv = 0) :
    List.length (NodeVec.trim nv) % 2 = 1
      ∨ List.length (NodeVec.trim nv) = 0 := by
  unfold NodeVec.trim
  rw [List.length_reverse]
  apply trimRev_parity
  rw [List.length_reverse]
  exact h

theorem find?_first {α : Type} (p : α → Bool) :
    ∀ (l : List α) (a : α), l.find? p = some a →
      ∃ l1 l2, l = l1 ++ a :: l2 ∧ ∀ x ∈ l1, p x = false := by
  intro l
  induction l with
  | nil => intro a h; simp at h
  | cons b rest ih =>
    intro a h
    by_cases hb : p b = true
    · rw [List.find?_cons_of_pos _ hb] at h
      have : b = a := Option.some_inj.mp h
      subst this
      exact ⟨[], rest, rfl, by intro x hx; simp at hx⟩
    · have hb2 : p b = false := by
        cases hpb : p b
        · rfl
        · exact absurd hpb hb
      rw [List.find?_cons_of_neg _ hb] at h
      obtain ⟨l1, l2, heq, hall⟩ := ih a h
      refine ⟨b :: l1, l2, by rw [heq]; rfl, ?_⟩
      intro x hx
      rcases List.mem_cons.mp hx with h | h
      · rw [h]; exact hb2
      · exact hall x h

theorem find?_range_first (N : Nat) (p : Nat → Bool) (a : Nat)
    (h : (List.range N).find? p = some a) :
    ∀ j, j < a → p j = false := by
  obtain ⟨l1, l2, heq, hall⟩ := find?_first p (List.range N) a h
  have hlen : List.length l1 < N := by
    have := congrArg List.length heq
    simp only [List.length_range, List.length_append, List.length_cons] at this
    omega
  have ha : a = List.length l1 := by
    have h1 : List.get? (List.range N) (List.length l1) = some (List.length l1) :=
      List.get?_range hlen
    rw [heq, List.get?_append_right (le_refl _)] at h1
    simp at h1
    omega
  intro j hj
  have hjl : j < List.length l1 := by omega
  have hjr : j < N := by omega
  have h1 : List.get? (List.range N) j = some j := List.get?_range hjr
  rw [heq, List.get?_append hjl] at h1
  exact hall j (List.get?_mem h1)

theorem nextEmptyLeaf_below (nv : NodeVec) (start : Nat)
    (hbelow : ∀ j, j < start → NodeVec.leafFilled nv j = true) :
    ∀ j, j < NodeVec.nextEmptyLeaf nv start → NodeVec.leafFilled nv j = true := by
  intro j hj
  unfold NodeVec.nextEmptyLeaf at hj
  cases hfind : (List.range (NodeVec.slotCount nv)).find?
      (fun i => decide (start ≤ i) && !(NodeVec.leafFilled nv i)) with
  | some i =>
    rw [hfind] at hj
    have hp := find?_range_first _ _ i hfind j hj
    simp only [Bool.and_eq_false_iff, decide_eq_false_iff_not, Bool.not_eq_false,
      Bool.not_eq_false'] at hp
    rcases hp with h | h
    · exact hbelow j (by omega)
    · exact h
  | none =>
    rw [hfind] at hj
    have hnone := List.find?_eq_none.mp hfind
    by_cases hs : j < start
    · exact hbelow j hs
    · have hmem : j ∈ List.range (NodeVec.slotCount nv) := List.mem_range.mpr hj
      have := hnone j hmem
      simp only [Bool.and_eq_true, decide_eq_true_eq, Bool.not_eq_true',
        not_and] at this
      have h2 := this (by omega)
      simpa using h2

theorem directPathN_odd (k x n : Nat) (hx : level x = 0)
    (h : n ∈ directPathN k x) : n % 2 = 1 := by
  rw [mem_directPathN] at h
  obtain ⟨j, hj1, _, rfl⟩ := h
  apply odd_of_level_pos
  rw [level_anc]
  omega

theorem directPathN_anc (k x n : Nat) (h : n ∈ directPathN k x) :
    anc x (level n) = n := by
  rw [mem_directPathN] at h
  obtain ⟨j, _, _, rfl⟩ := h
  rw [level_anc]

theorem directPathN_level_pos (k x n : Nat) (h : n ∈ directPathN k x) :
    level x + 1 ≤ level n := by
  rw [mem_directPathN] at h
  obtain ⟨j, hj1, _, rfl⟩ := h
  rw [level_anc]
  omega

theorem directPathN_nodup (k x : Nat) : List.Nodup (directPathN k x) := by
  unfold directPathN
  apply List.Nodup.map
  · intro t t' he
    simp only at he
    have h1 : level (anc x (level x + 1 + t)) = level x + 1 + t := level_anc _ _
    have h2 : level (anc x (level x + 1 + t')) = level x + 1 + t' := level_anc _ _
    rw [he, h2] at h1
    omega
  · exact List.nodup_range _

theorem mem_directPathN_of_anc (k x n : Nat) (h1 : 1 ≤ level n)
    (h2 : level n ≤ k) (h3 : anc x (level n) = n) (h0 : level x = 0) :
    n ∈ directPathN k x := by
  rw [mem_directPathN]
  exact ⟨level n, by omega, h2, h3.symm⟩

theorem getN_some_lt (nv : NodeVec) (n : Nat) (x : Option Node)
    (h : NodeVec.getN nv n = some x) : n < List.length nv := by
  unfold NodeVec.getN at h
  by_contra hc
  rw [List.get?_eq_none.mpr (by omega)] at h
  simp at h

theorem pushUnmerged_length (nv : NodeVec) (n idx : Nat) :
    List.length (NodeVec.pushUnmerged nv n idx) = List.length nv := by
  unfold NodeVec.pushUnmerged
  cases hg : NodeVec.getN nv n with
  | none => rfl
  | some o =>
    cases o with
    | none => rfl
    | some node =>
      cases node with
      | leaf l => rfl
      | parent p => exact List.length_set nv _ _

/-- The unmerged-leaves invariant, generalized by a list of `pending`
leaf indices that are blanked mid-phase (staged updates): every stored
parent's unmerged list is strictly increasing, each element is a leaf of
the parent's subtree, and every leaf of that subtree up to the element
is occupied unless pending. -/
def UnmergedInv (nv : NodeVec) (pending : List Nat) : Prop :=
  (List.length nv % 2 = 1 ∨ List.length nv = 0) ∧
  ∀ n p, NodeVec.getN nv n = some (some (Node.parent p)) →
    List.Pairwise (fun a b => a < b) p.unmergedLeaves ∧
    ∀ u ∈ p.unmergedLeaves,
      anc (2 * u) (level n) = n ∧
      ∀ j, subtreeStart n ≤ j → j < subtreeStart n + 2 ^ level n → j ≤ u →
        (NodeVec.leafFilled nv j = true ∨ j ∈ pending)

theorem UnmergedInv_mono (nv : NodeVec) (P P' : List Nat)
    (hsub : ∀ j ∈ P, j ∈ P') (h : UnmergedInv nv P) : UnmergedInv nv P' := by
  obtain ⟨hpar, hmain⟩ := h
  refine ⟨hpar, ?_⟩
  intro n p hp
  obtain ⟨hpw, hall⟩ := hmain n p hp
  refine ⟨hpw, ?_⟩
  intro u hu
  obtain ⟨hanc, hfill⟩ := hall u hu
  refine ⟨hanc, ?_⟩
  intro j h1 h2 h3
  rcases hfill j h1 h2 h3 with h | h
  · exact Or.inl h
  · exact Or.inr (hsub j h)

/-- Blanking an occupied leaf keeps the invariant with the leaf recorded
as pending. -/
theorem blankLeaf_stage (nv : NodeVec) (i : Nat) (old : LeafNode)
    (P : List Nat)
    (hleaf : NodeVec.getN nv (2 * i) = some (some (Node.leaf old)))
    (h : UnmergedInv nv P) :
    UnmergedInv (List.set nv (2 * i) none) (i :: P) := by
  obtain ⟨hpar, hmain⟩ := h
  have hlt := getN_some_lt nv (2 * i) _ hleaf
  constructor
  · rw [List.length_set]
    exact hpar
  · intro n p hp
    have hne : n ≠ 2 * i := by
      intro he
      rw [he] at hp
      unfold NodeVec.getN at hp
      obtain ⟨x, hx⟩ : ∃ x, List.get? nv (2 * i) = some x := ⟨_, hleaf⟩
      rw [List.get?_set_eq, hx] at hp
      simp at hp
    have hp2 : NodeVec.getN nv n = some (some (Node.parent p)) := by
      unfold NodeVec.getN at hp ⊢
      rw [List.get?_set_ne _ _ (fun he => hne he.symm)] at hp
      exact hp
    obtain ⟨hpw, hall⟩ := hmain n p hp2
    refine ⟨hpw, ?_⟩
    intro u hu
    obtain ⟨hanc, hfill⟩ := hall u hu
    refine ⟨hanc, ?_⟩
    intro j h1 h2 h3
    by_cases hj : j = i
    · exact Or.inr (hj ▸ List.mem_cons_self _ _)
    · have : NodeVec.leafFilled (List.set nv (2 * i) none) j
          = NodeVec.leafFilled nv j := by
        unfold NodeVec.leafFilled NodeVec.getN
        rw [List.get?_set_ne _ _ (by omega)]
      rcases hfill j h1 h2 h3 with h | h
      · exact Or.inl (this ▸ h)
      · exact Or.inr (List.mem_cons_of_mem _ h)

/-- Inserting a leaf keeps the invariant; a pending entry at the
inserted slot is discharged by the insertion. -/
theorem insertLeaf_inv (nv : NodeVec) (i : Nat) (l : LeafNode)
    (P P' : List Nat) (hP : ∀ j ∈ P, j = i ∨ j ∈ P')
    (h : UnmergedInv nv P) :
    UnmergedInv (NodeVec.insertLeaf nv i l) P' := by
  obtain ⟨hpar, hmain⟩ := h
  constructor
  · rw [insertLeaf_length]
    omega
  · intro n p hp
    have hp2 := insertLeaf_parent nv i l n p hp
    obtain ⟨hpw, hall⟩ := hmain n p hp2
    refine ⟨hpw, ?_⟩
    intro u hu
    obtain ⟨hanc, hfill⟩ := hall u hu
    refine ⟨hanc, ?_⟩
    intro j h1 h2 h3
    by_cases hj : j = i
    · subst hj
      exact Or.inl (insertLeaf_leafFilled_self nv j l)
    · rcases hfill j h1 h2 h3 with h | h
      · left
        rw [insertLeaf_leafFilled_other nv i l j hj]
        exact h
      · rcases hP j h with he | he
        · exact absurd he hj
        · exact Or.inr he

theorem insertLeaf_inv_weak (nv : NodeVec) (i : Nat) (l : LeafNode)
    (P : List Nat) (h : UnmergedInv nv P) :
    UnmergedInv (NodeVec.insertLeaf nv i l) P :=
  insertLeaf_inv nv i l P P (fun j hj => Or.inr hj) h

/-- A single push of the freshly inserted leaf index onto a direct-path
parent: all earlier unmerged entries are smaller, the pushed index is in
the parent's subtree, and every leaf up to it is occupied. -/
theorem pushUnmerged_step_inv (nv : NodeVec) (n i : Nat)
    (hain : anc (2 * i) (level n) = n)
    (hInv : UnmergedInv nv [])
    (hfill : ∀ j, j ≤ i → NodeVec.leafFilled nv j = true)
    (hbound : ∀ p, NodeVec.getN nv n = some (some (Node.parent p)) →
      ∀ u ∈ p.unmergedLeaves, u < i) :
    UnmergedInv (NodeVec.pushUnmerged nv n i) [] := by
  obtain ⟨hpar, hmain⟩ := hInv
  constructor
  · rw [pushUnmerged_length]
    exact hpar
  · intro m q hq
    by_cases hmn : m = n
    · subst hmn
      cases hg : NodeVec.getN nv m with
      | none =>
        unfold NodeVec.pushUnmerged at hq
        rw [hg] at hq
        rw [hg] at hq
        simp at hq
      | some o =>
        cases o with
        | none =>
          unfold NodeVec.pushUnmerged at hq
          rw [hg] at hq
          rw [hg] at hq
          simp at hq
        | some node =>
          cases node with
          | leaf lf =>
            unfold NodeVec.pushUnmerged at hq
            rw [hg] at hq
            rw [hg] at hq
            simp at hq
          | parent p =>
            have hself := pushUnmerged_get_self nv m i p hg
            rw [hself] at hq
            have hqp : q = { p with unmergedLeaves := List.append p.unmergedLeaves [i] } := by
              have := Option.some_inj.mp hq
              have := Option.some_inj.mp this
              cases this
              rfl
            subst hqp
            obtain ⟨hpw, hall⟩ := hmain m p hg
            have hb := hbound p hg
            constructor
            · simp only [List.append_eq]
              rw [List.pairwise_append]
              refine ⟨hpw, List.pairwise_singleton _ _, ?_⟩
              intro a ha b hb2
              have : b = i := by simpa using hb2
              subst this
              exact hb a ha
            · intro u hu
              simp only [List.append_eq, List.mem_append, List.mem_singleton] at hu
              rcases hu with hu | hu
              · obtain ⟨hanc, hfillu⟩ := hall u hu
                refine ⟨hanc, ?_⟩
                intro j h1 h2 h3
                rcases hfillu j h1 h2 h3 with h | h
                · left
                  rw [pushUnmerged_leafFilled]
                  exact h
                · simp at h
              · subst hu
                refine ⟨hain, ?_⟩
                intro j h1 h2 h3
                left
                rw [pushUnmerged_leafFilled]
                exact hfill j h3
    · have hq2 : NodeVec.getN nv m = some (some (Node.parent q)) := by
        rw [← pushUnmerged_get_ne nv n i m hmn]
        exact hq
      obtain ⟨hpw, hall⟩ := hmain m q hq2
      refine ⟨hpw, ?_⟩
      intro u hu
      obtain ⟨hanc, hfillu⟩ := hall u hu
      refine ⟨hanc, ?_⟩
      intro j h1 h2 h3
      rcases hfillu j h1 h2 h3 with h | h
      · left
        rw [pushUnmerged_leafFilled]
        exact h
      · simp at h

/-- Folding the pushes over the whole direct path of the freshly
inserted leaf. -/
theorem pushFold_inv (i : Nat) :
    ∀ (path : List Nat) (nv : NodeVec),
      List.Nodup path →
      (∀ n ∈ path, anc (2 * i) (level n) = n) →
      UnmergedInv nv [] →
      (∀ j, j ≤ i → NodeVec.leafFilled nv j = true) →
      (∀ n ∈ path, ∀ p, NodeVec.getN nv n = some (some (Node.parent p)) →
        ∀ u ∈ p.unmergedLeaves, u < i) →
      UnmergedInv (path.foldl (fun acc n => NodeVec.pushUnmerged acc n i) nv) []
      ∧ ∀ j, NodeVec.leafFilled
          (path.foldl (fun acc n => NodeVec.pushUnmerged acc n i) nv) j
          = NodeVec.leafFilled nv j := by
  intro path
  induction path with
  | nil =>
    intro nv _ _ hInv _ _
    exact ⟨hInv, fun j => rfl⟩
  | cons n rest ih =>
    intro nv hnd hain hInv hfill hbound
    have hnr : n ∉ rest := (List.nodup_cons.mp hnd).1
    have hndr : List.Nodup rest := (List.nodup_cons.mp hnd).2
    simp only [List.foldl_cons]
    have hstep := pushUnmerged_step_inv nv n i
      (hain n (List.mem_cons_self _ _)) hInv hfill
      (fun p hp => hbound n (List.mem_cons_self _ _) p hp)
    have hrest := ih (NodeVec.pushUnmerged nv n i) hndr
      (fun m hm => hain m (List.mem_cons_of_mem _ hm))
      hstep
      (fun j hj => by rw [pushUnmerged_leafFilled]; exact hfill j hj)
      (fun m hm p hp => by
        have hmn : m ≠ n := fun he => hnr (he ▸ hm)
        rw [pushUnmerged_get_ne nv n i m hmn] at hp
        exact hbound m (List.mem_cons_of_mem _ hm) p hp)
    refine ⟨hrest.1, ?_⟩
    intro j
    rw [hrest.2 j, pushUnmerged_leafFilled]

/-- `update_node` preserves the invariant: it installs a parent with an
empty unmerged list. -/
theorem updateNode_inv (nv : NodeVec) (pk n : Nat) (nv2 : NodeVec)
    (P : List Nat) (h : NodeVec.updateNode nv pk n = Except.ok nv2)
    (hInv : UnmergedInv nv P) : UnmergedInv nv2 P := by
  obtain ⟨hpar, hmain⟩ := hInv
  unfold NodeVec.updateNode at h
  cases hg : NodeVec.getN nv n with
  | none => rw [hg] at h; exact absurd h (by simp)
  | some o =>
    cases o with
    | none =>
      rw [hg] at h
      simp only [Except.ok.injEq] at h
      subst h
      have hlt := getN_some_lt nv n _ hg
      constructor
      · rw [List.length_set]
        exact hpar
      · intro m q hq
        by_cases hmn : m = n
        · rw [hmn] at hq
          unfold NodeVec.getN at hq
          obtain ⟨x, hx⟩ : ∃ x, List.get? nv n = some x := ⟨_, hg⟩
          rw [List.get?_set_eq, hx] at hq
          have hqv : q = { publicKey := pk, parentHash := [], unmergedLeaves := [] } := by
            have := Option.some_inj.mp hq
            have := Option.some_inj.mp this
            cases this
            rfl
          subst hqv
          exact ⟨List.Pairwise.nil, by intro u hu; simp at hu⟩
        · have hq2 : NodeVec.getN nv m = some (some (Node.parent q)) := by
            unfold NodeVec.getN at hq ⊢
            rw [List.get?_set_ne _ _ (fun he => hmn he.symm)] at hq
            exact hq
          obtain ⟨hpw, hall⟩ := hmain m q hq2
          refine ⟨hpw, ?_⟩
          intro u hu
          obtain ⟨hanc, hfillu⟩ := hall u hu
          refine ⟨hanc, ?_⟩
          intro j h1 h2 h3
          rcases hfillu j h1 h2 h3 with hf | hf
          · left
            by_cases hj : 2 * j = n
            · unfold NodeVec.leafFilled NodeVec.getN
              rw [hj]
              obtain ⟨x, hx⟩ : ∃ x, List.get? nv n = some x := ⟨_, hg⟩
              rw [List.get?_set_eq, hx]
              rfl
            · unfold NodeVec.leafFilled NodeVec.getN at hf ⊢
              rw [List.get?_set_ne _ _ (fun he => hj he.symm)]
              exact hf
          · exact Or.inr hf
    | some node =>
      cases node with
      | leaf lf => rw [hg] at h; exact absurd h (by simp)
      | parent p =>
        rw [hg] at h
        simp only [Except.ok.injEq] at h
        subst h
        have hlt := getN_some_lt nv n _ hg
        constructor
        · rw [List.length_set]
          exact hpar
        · intro m q hq
          by_cases hmn : m = n
          · rw [hmn] at hq
            unfold NodeVec.getN at hq
            obtain ⟨x, hx⟩ : ∃ x, List.get? nv n = some x := ⟨_, hg⟩
            rw [List.get?_set_eq, hx] at hq
            have hqv : q = { p with publicKey := pk, unmergedLeaves := [] } := by
              have := Option.some_inj.mp hq
              have := Option.some_inj.mp this
              cases this
              rfl
            subst hqv
            exact ⟨List.Pairwise.nil, by intro u hu; simp at hu⟩
          · have hq2 : NodeVec.getN nv m = some (some (Node.parent q)) := by
              unfold NodeVec.getN at hq ⊢
              rw [List.get?_set_ne _ _ (fun he => hmn he.symm)] at hq
              exact hq
            obtain ⟨hpw, hall⟩ := hmain m q hq2
            refine ⟨hpw, ?_⟩
            intro u hu
            obtain ⟨hanc, hfillu⟩ := hall u hu
            refine ⟨hanc, ?_⟩
            intro j h1 h2 h3
            rcases hfillu j h1 h2 h3 with hf | hf
            · left
              by_cases hj : 2 * j = n
              · unfold NodeVec.leafFilled NodeVec.getN
                rw [hj]
                obtain ⟨x, hx⟩ : ∃ x, List.get? nv n = some x := ⟨_, hg⟩
                rw [List.get?_set_eq, hx]
                rfl
              · unfold NodeVec.leafFilled NodeVec.getN at hf ⊢
                rw [List.get?_set_ne _ _ (fun he => hj he.symm)]
                exact hf
            · exact Or.inr hf

/-- Rewriting a parent hash preserves the invariant. -/
theorem setParentHash_inv (nv : NodeVec) (n : Nat) (ph : List Nat)
    (P : List Nat) (hInv : UnmergedInv nv P) :
    UnmergedInv (setParentHash nv n ph) P := by
  obtain ⟨hpar, hmain⟩ := hInv
  unfold setParentHash
  cases hg : NodeVec.getN nv n with
  | none => exact ⟨hpar, hmain⟩
  | some o =>
    cases o with
    | none => exact ⟨hpar, hmain⟩
    | some node =>
      cases node with
      | leaf lf => exact ⟨hpar, hmain⟩
      | parent p =>
        have hlt := getN_some_lt nv n _ hg
        constructor
        · rw [List.length_set]
          exact hpar
        · intro m q hq
          have hfilleq : ∀ j, NodeVec.leafFilled
              (List.set nv n (some (Node.parent { p with parentHash := ph }))) j
              = NodeVec.leafFilled nv j := by
            intro j
            by_cases hj : 2 * j = n
            · unfold NodeVec.leafFilled NodeVec.getN
              rw [hj]
              obtain ⟨x, hx⟩ : ∃ x, List.get? nv n = some x := ⟨_, hg⟩
              rw [List.get?_set_eq, hx]
              have : x = some (Node.parent p) := Option.some_inj.mp (hx ▸ hg)
              rw [this]
              rfl
            · unfold NodeVec.leafFilled NodeVec.getN
              rw [List.get?_set_ne _ _ (fun he => hj he.symm)]
          by_cases hmn : m = n
          · rw [hmn] at hq
            unfold NodeVec.getN at hq
            obtain ⟨x, hx⟩ : ∃ x, List.get? nv n = some x := ⟨_, hg⟩
            rw [List.get?_set_eq, hx] at hq
            have hqv : q = { p with parentHash := ph } := by
              have := Option.some_inj.mp hq
              have := Option.some_inj.mp this
              cases this
              rfl
            subst hqv
            obtain ⟨hpw, hall⟩ := hmain n p hg
            rw [hmn]
            refine ⟨hpw, ?_⟩
            intro u hu
            obtain ⟨hanc, hfillu⟩ := hall u hu
            refine ⟨hanc, ?_⟩
            intro j h1 h2 h3
            rcases hfillu j h1 h2 h3 with hf | hf
            · exact Or.inl ((hfilleq j).symm ▸ hf)
            · exact Or.inr hf
          · have hq2 : NodeVec.getN nv m = some (some (Node.parent q)) := by
              unfold NodeVec.getN at hq ⊢
              rw [List.get?_set_ne _ _ (fun he => hmn he.symm)] at hq
              exact hq
            obtain ⟨hpw, hall⟩ := hmain m q hq2
            refine ⟨hpw, ?_⟩
            intro u hu
            obtain ⟨hanc, hfillu⟩ := hall u hu
            refine ⟨hanc, ?_⟩
            intro j h1 h2 h3
            rcases hfillu j h1 h2 h3 with hf | hf
            · exact Or.inl ((hfilleq j).symm ▸ hf)
            · exact Or.inr hf

/-- Replacing an existing leaf by a new leaf preserves the invariant. -/
theorem setLeafOverLeaf_inv (nv : NodeVec) (s : Nat) (old l : LeafNode)
    (P : List Nat)
    (hleaf : NodeVec.getN nv (2 * s) = some (some (Node.leaf old)))
    (hInv : UnmergedInv nv P) :
    UnmergedInv (List.set nv (2 * s) (some (Node.leaf l))) P := by
  obtain ⟨hpar, hmain⟩ := hInv
  have hlt := getN_some_lt nv (2 * s) _ hleaf
  constructor
  · rw [List.length_set]
    exact hpar
  · intro m q hq
    have hmn : m ≠ 2 * s := by
      intro he
      rw [he] at hq
      unfold NodeVec.getN at hq
      obtain ⟨x, hx⟩ : ∃ x, List.get? nv (2 * s) = some x := ⟨_, hleaf⟩
      rw [List.get?_set_eq, hx] at hq
      simp at hq
    have hq2 : NodeVec.getN nv m = some (some (Node.parent q)) := by
      unfold NodeVec.getN at hq ⊢
      rw [List.get?_set_ne _ _ (fun he => hmn he.symm)] at hq
      exact hq
    obtain ⟨hpw, hall⟩ := hmain m q hq2
    refine ⟨hpw, ?_⟩
    intro u hu
    obtain ⟨hanc, hfillu⟩ := hall u hu
    refine ⟨hanc, ?_⟩
    intro j h1 h2 h3
    rcases hfillu j h1 h2 h3 with hf | hf
    · left
      by_cases hj : j = s
      · subst hj
        unfold NodeVec.leafFilled NodeVec.getN
        obtain ⟨x, hx⟩ : ∃ x, List.get? nv (2 * j) = some x := ⟨_, hleaf⟩
        rw [List.get?_set_eq, hx]
        rfl
      · unfold NodeVec.leafFilled NodeVec.getN at hf ⊢
        rw [List.get?_set_ne _ _ (by omega)]
        exact hf
    · exact Or.inr hf

/-- Blanking a direct path (internal nodes only) preserves the
invariant: surviving parents and all leaf slots are untouched. -/
theorem blankDirectPath_inv (nv : NodeVec) (i : Nat) (nv2 : NodeVec)
    (P : List Nat) (h : NodeVec.blankDirectPath nv i = Except.ok nv2)
    (hInv : UnmergedInv nv P) : UnmergedInv nv2 P := by
  obtain ⟨hpar, hmain⟩ := hInv
  unfold NodeVec.blankDirectPath NodeVec.directPath at h
  by_cases hc : 2 * i < 2 * NodeVec.totalLeafCount nv - 1
  · rw [if_pos hc] at h
    simp only [Except.map, Except.ok.injEq] at h
    subst h
    have hodd : ∀ n ∈ directPathN (NodeVec.depthK nv) (2 * i), n % 2 = 1 :=
      fun n hn => directPathN_odd _ _ n (level_two_mul i) hn
    constructor
    · rw [foldl_blank_length]
      exact hpar
    · intro m q hq
      have hnm : m ∉ directPathN (NodeVec.depthK nv) (2 * i) := by
        intro hmem
        exact foldl_blank_no_parent _ nv m hmem q hq
      have hq2 : NodeVec.getN nv m = some (some (Node.parent q)) := by
        unfold NodeVec.getN at hq ⊢
        rw [foldl_blank_get_not_mem _ nv m hnm] at hq
        exact hq
      obtain ⟨hpw, hall⟩ := hmain m q hq2
      refine ⟨hpw, ?_⟩
      intro u hu
      obtain ⟨hanc, hfillu⟩ := hall u hu
      refine ⟨hanc, ?_⟩
      intro j h1 h2 h3
      rcases hfillu j h1 h2 h3 with hf | hf
      · left
        rw [foldl_blank_leafFilled _ nv j hodd]
        exact hf
      · exact Or.inr hf
  · rw [if_neg hc] at h
    exact absurd h (by simp [Except.map])

/-- Removing a member — blanking the leaf and then its whole direct
path — preserves the invariant outright: every parent whose subtree
contains the removed leaf is itself blanked. -/
theorem remove_blank_inv (nv : NodeVec) (i : Nat) (old : LeafNode)
    (nv2 : NodeVec) (P : List Nat)
    (hleaf : NodeVec.getN nv (2 * i) = some (some (Node.leaf old)))
    (hpath : NodeVec.blankDirectPath (List.set nv (2 * i) none) i = Except.ok nv2)
    (hInv : UnmergedInv nv P) : UnmergedInv nv2 P := by
  obtain ⟨hpar, hmain⟩ := hInv
  have hlt := getN_some_lt nv (2 * i) _ hleaf
  unfold NodeVec.blankDirectPath NodeVec.directPath at hpath
  by_cases hc : 2 * i < 2 * NodeVec.totalLeafCount (List.set nv (2 * i) none) - 1
  · rw [if_pos hc] at hpath
    simp only [Except.map, Except.ok.injEq] at hpath
    subst hpath
    have hodd : ∀ n ∈ directPathN (NodeVec.depthK (List.set nv (2 * i) none)) (2 * i),
        n % 2 = 1 :=
      fun n hn => directPathN_odd _ _ n (level_two_mul i) hn
    constructor
    · rw [foldl_blank_length, List.length_set]
      exact hpar
    · intro m q hq
      have hnm : m ∉ directPathN (NodeVec.depthK (List.set nv (2 * i) none)) (2 * i) := by
        intro hmem
        exact foldl_blank_no_parent _ _ m hmem q hq
      have hq1 : NodeVec.getN (List.set nv (2 * i) none) m
          = some (some (Node.parent q)) := by
        unfold NodeVec.getN at hq ⊢
        rw [foldl_blank_get_not_mem _ _ m hnm] at hq
        exact hq
      have hmne : m ≠ 2 * i := by
        intro he
        rw [he] at hq1
        unfold NodeVec.getN at hq1
        obtain ⟨x, hx⟩ : ∃ x, List.get? nv (2 * i) = some x := ⟨_, hleaf⟩
        rw [List.get?_set_eq, hx] at hq1
        simp at hq1
      have hq2 : NodeVec.getN nv m = some (some (Node.parent q)) := by
        unfold NodeVec.getN at hq1 ⊢
        rw [List.get?_set_ne _ _ (fun he => hmne he.symm)] at hq1
        exact hq1
      obtain ⟨hpw, hall⟩ := hmain m q hq2
      refine ⟨hpw, ?_⟩
      intro u hu
      obtain ⟨hanc, hfillu⟩ := hall u hu
      refine ⟨hanc, ?_⟩
      intro j h1 h2 h3
      by_cases hji : j = i
      · exfalso
        subst hji
        have hancj : anc (2 * j) (level m) = m := anc_of_mem_subtree m j h1 h2
        by_cases hlm : 1 ≤ level m
        · apply hnm
          apply mem_directPathN_of_anc _ _ _ hlm _ hancj (level_two_mul j)
          have hmlt : m < List.length (List.set nv (2 * j) none) := by
            rw [List.length_set]
            exact getN_some_lt nv m _ hq2
          have hwid : m < 2 ^ (NodeVec.depthK (List.set nv (2 * j) none) + 1) - 1 := by
            have hle := len_le_width (List.set nv (2 * j) none)
            have hpw2 := totalLeafCount_pow (List.set nv (2 * j) none)
            omega
          exact level_le_of_lt_width _ m hwid
        · have hl0 : level m = 0 := by omega
          rw [hl0, anc_two_mul_zero] at hancj
          rw [← hancj] at hq1
          unfold NodeVec.getN at hq1
          obtain ⟨x, hx⟩ : ∃ x, List.get? nv (2 * j) = some x := ⟨_, hleaf⟩
          rw [List.get?_set_eq, hx] at hq1
          simp at hq1
      · rcases hfillu j h1 h2 h3 with hf | hf
        · left
          rw [foldl_blank_leafFilled _ _ j hodd]
          unfold NodeVec.leafFilled NodeVec.getN at hf ⊢
          rw [List.get?_set_ne _ _ (by omega)]
          exact hf
        · exact Or.inr hf
  · rw [if_neg hc] at hpath
    exact absurd hpath (by simp [Except.map])

theorem blankLeafNode_ok_some (nv : NodeVec) (i : Nat) (old : LeafNode)
    (nv1 : NodeVec)
    (h : NodeVec.blankLeafNode nv i = Except.ok (some old, nv1)) :
    NodeVec.getN nv (2 * i) = some (some (Node.leaf old))
    ∧ nv1 = List.set nv (2 * i) none := by
  unfold NodeVec.blankLeafNode at h
  cases hg : NodeVec.getN nv (2 * i) with
  | none => rw [hg] at h; exact absurd h (by simp)
  | some o =>
    cases o with
    | none => rw [hg] at h; simp at h
    | some node =>
      cases node with
      | leaf l =>
        rw [hg] at h
        simp only [Except.ok.injEq, Prod.mk.injEq, Option.some.injEq] at h
        exact ⟨by rw [h.1], h.2.symm⟩
      | parent p => rw [hg] at h; exact absurd h (by simp)

/-- The remove phase preserves the invariant. -/
theorem removesGo_inv (idp : IdentityProvider) (filter : Bool) :
    ∀ (ps : List RemoveProposal) pos ix nv removed bad ix1 nv1 rem1 bad1
      (P : List Nat),
      UnmergedInv nv P →
      removesGo idp filter ps pos ix nv removed bad
        = Except.ok (ix1, nv1, rem1, bad1) →
      UnmergedInv nv1 P := by
  intro ps
  induction ps with
  | nil =>
    intro pos ix nv removed bad ix1 nv1 rem1 bad1 P hInv h
    simp only [removesGo, Except.ok.injEq, Prod.mk.injEq] at h
    obtain ⟨-, hnv, -⟩ := h
    rw [← hnv]
    exact hInv
  | cons p rest ih =>
    intro pos ix nv removed bad ix1 nv1 rem1 bad1 P hInv h
    simp only [removesGo] at h
    cases hb : NodeVec.blankLeafNode nv p.toRemove with
    | ok res =>
      obtain ⟨oldOpt, nva⟩ := res
      cases oldOpt with
      | some old =>
        simp only [hb] at h
        obtain ⟨hleaf, hset⟩ := blankLeafNode_ok_some nv p.toRemove old nva hb
        cases hd : NodeVec.blankDirectPath nva p.toRemove with
        | error e => simp only [hd] at h; exact absurd h (by simp)
        | ok nvb =>
          simp only [hd] at h
          cases hi : idp.identity old.signingIdentity with
          | none => simp only [hi] at h; exact absurd h (by simp)
          | some idBytes =>
            simp only [hi] at h
            have hInv2 : UnmergedInv nvb P := by
              apply remove_blank_inv nv p.toRemove old nvb P hleaf _ hInv
              rw [← hset]
              exact hd
            exact ih _ _ _ _ _ _ _ _ _ _ hInv2 h
      | none =>
        simp only [hb] at h
        by_cases hcnd : (!filter || p.source.isByValue) = true
        · rw [if_pos hcnd] at h
          exact absurd h (by simp)
        · rw [if_neg hcnd] at h
          exact ih _ _ _ _ _ _ _ _ _ _ hInv h
    | error e =>
      simp only [hb] at h
      by_cases hcnd : (!filter || p.source.isByValue) = true
      · rw [if_pos hcnd] at h
        exact absurd h (by simp)
      · rw [if_neg hcnd] at h
        exact ih _ _ _ _ _ _ _ _ _ _ hInv h

/-- The update staging phase: the blanked sender leaves are exactly the
staged first components, recorded as pending. -/
theorem updatesStageGo_inv (idp : IdentityProvider) (filter : Bool) :
    ∀ (ps : List UpdateProposal) pos ix nv staged bad ix2 nv2 staged2 bad2
      (P : List Nat),
      UnmergedInv nv (staged.map (fun s => s.1) ++ P) →
      updatesStageGo idp filter ps pos ix nv staged bad
        = Except.ok (ix2, nv2, staged2, bad2) →
      UnmergedInv nv2 (staged2.map (fun s => s.1) ++ P) := by
  intro ps
  induction ps with
  | nil =>
    intro pos ix nv staged bad ix2 nv2 staged2 bad2 P hInv h
    simp only [updatesStageGo, Except.ok.injEq, Prod.mk.injEq] at h
    obtain ⟨-, hnv, hst, -⟩ := h
    rw [← hnv, ← hst]
    exact hInv
  | cons p rest ih =>
    intro pos ix nv staged bad ix2 nv2 staged2 bad2 P hInv h
    simp only [updatesStageGo] at h
    cases hs : p.sender with
    | nonMember =>
      simp only [hs] at h
      by_cases hcnd : (!filter || p.source.isByValue) = true
      · rw [if_pos hcnd] at h
        exact absurd h (by simp)
      · rw [if_neg hcnd] at h
        exact ih _ _ _ _ _ _ _ _ _ _ hInv h
    | member senderIdx =>
      simp only [hs] at h
      cases hb : NodeVec.blankLeafNode nv senderIdx with
      | error e => simp only [hb] at h; exact absurd h (by simp)
      | ok res =>
        obtain ⟨oldOpt, nva⟩ := res
        cases oldOpt with
        | none =>
          simp only [hb] at h
          by_cases hcnd : (!filter || p.source.isByValue) = true
          · rw [if_pos hcnd] at h
            exact absurd h (by simp)
          · rw [if_neg hcnd] at h
            exact ih _ _ _ _ _ _ _ _ _ _ hInv h
        | some old =>
          simp only [hb] at h
          obtain ⟨hleaf, hset⟩ := blankLeafNode_ok_some nv senderIdx old nva hb
          have hInvStage : UnmergedInv nva
              (senderIdx :: (staged.map (fun s => s.1) ++ P)) := by
            rw [hset]
            exact blankLeaf_stage nv senderIdx old _ hleaf hInv
          cases hv : idp.validSuccessor old.signingIdentity
              p.leafNode.signingIdentity with
          | none =>
            simp only [hv] at h
            by_cases hcnd : (!filter || p.source.isByValue) = true
            · rw [if_pos hcnd] at h
              exact absurd h (by simp)
            · rw [if_neg hcnd] at h
              have hrestore : UnmergedInv (NodeVec.insertLeaf nva senderIdx old)
                  (staged.map (fun s => s.1) ++ P) := by
                apply insertLeaf_inv nva senderIdx old _ _ _ hInvStage
                intro j hj
                rcases List.mem_cons.mp hj with hj | hj
                · exact Or.inl hj
                · exact Or.inr hj
              exact ih _ _ _ _ _ _ _ _ _ _ hrestore h
          | some b =>
            cases b with
            | false =>
              simp only [hv] at h
              by_cases hcnd : (!filter || p.source.isByValue) = true
              · rw [if_pos hcnd] at h
                exact absurd h (by simp)
              · rw [if_neg hcnd] at h
                have hrestore : UnmergedInv (NodeVec.insertLeaf nva senderIdx old)
                    (staged.map (fun s => s.1) ++ P) := by
                  apply insertLeaf_inv nva senderIdx old _ _ _ hInvStage
                  intro j hj
                  rcases List.mem_cons.mp hj with hj | hj
                  · exact Or.inl hj
                  · exact Or.inr hj
                exact ih _ _ _ _ _ _ _ _ _ _ hrestore h
            | true =>
              simp only [hv] at h
              cases hi : idp.identity old.signingIdentity with
              | none => simp only [hi] at h; exact absurd h (by simp)
              | some oldId =>
                simp only [hi] at h
                have hInvNext : UnmergedInv nva
                    ((List.append staged [(senderIdx, old, p.leafNode)]).map
                      (fun s => s.1) ++ P) := by
                  apply UnmergedInv_mono _ _ _ _ hInvStage
                  intro j hj
                  simp only [List.mem_cons, List.mem_append] at hj
                  simp only [List.append_eq, List.map_append, List.map_cons,
                    List.map_nil, List.mem_append, List.mem_cons,
                    List.not_mem_nil, or_false]
                  tauto
                exact ih _ _ _ _ _ _ _ _ _ _ hInvNext h

/-- The update commit phase discharges every staged pending leaf: broken
updates restore the old leaf, the rest install the new leaf and blank
its direct path. -/
theorem commitUpdatesGo_inv :
    ∀ (staged : List (Nat × LeafNode × LeafNode)) pos badSet nv updated nv3 upd
      (P : List Nat),
      UnmergedInv nv (staged.map (fun s => s.1) ++ P) →
      commitUpdatesGo staged pos badSet nv updated = Except.ok (nv3, upd) →
      UnmergedInv nv3 P := by
  intro staged
  induction staged with
  | nil =>
    intro pos badSet nv updated nv3 upd P hInv h
    simp only [commitUpdatesGo, Except.ok.injEq, Prod.mk.injEq] at h
    rw [← h.1]
    simpa using hInv
  | cons item rest ih =>
    intro pos badSet nv updated nv3 upd P hInv h
    obtain ⟨idx, old, new⟩ := item
    simp only [commitUpdatesGo] at h
    simp only [List.map_cons, List.cons_append] at hInv
    by_cases hbad : pos ∈ badSet
    · rw [if_pos hbad] at h
      have hnext : UnmergedInv (NodeVec.insertLeaf nv idx old)
          (rest.map (fun s => s.1) ++ P) := by
        apply insertLeaf_inv nv idx old _ _ _ hInv
        intro j hj
        rcases List.mem_cons.mp hj with hj | hj
        · exact Or.inl hj
        · exact Or.inr hj
      exact ih _ _ _ _ _ _ _ hnext h
    · rw [if_neg hbad] at h
      have hnext : UnmergedInv (NodeVec.insertLeaf nv idx new)
          (rest.map (fun s => s.1) ++ P) := by
        apply insertLeaf_inv nv idx new _ _ _ hInv
        intro j hj
        rcases List.mem_cons.mp hj with hj | hj
        · exact Or.inl hj
        · exact Or.inr hj
      cases hd : NodeVec.blankDirectPath (NodeVec.insertLeaf nv idx new) idx with
      | error e => rw [hd] at h; exact absurd h (by simp)
      | ok nvb =>
        rw [hd] at h
        exact ih _ _ _ _ _ _ _ (blankDirectPath_inv _ idx nvb _ hd hnext) h

/-- The add phase preserves the invariant: every accepted leaf goes to
the first empty slot, so the appended unmerged index exceeds every
element already present in the direct-path parents. -/
theorem addLeavesGo_inv (idp : IdentityProvider) :
    ∀ (leaves : List LeafNode) pos ix nv start bad added errs ix2 nv2 info,
      UnmergedInv nv [] →
      (∀ j, j < start → NodeVec.leafFilled nv j = true) →
      addLeavesGo idp leaves pos ix nv start bad added errs
        = Except.ok (ix2, nv2, info) →
      UnmergedInv nv2 [] := by
  intro leaves
  induction leaves with
  | nil =>
    intro pos ix nv start bad added errs ix2 nv2 info hInv hstart h
    simp only [addLeavesGo, Except.ok.injEq, Prod.mk.injEq] at h
    obtain ⟨-, hnv, -⟩ := h
    rw [← hnv]
    exact hInv
  | cons leaf rest ih =>
    intro pos ix nv start bad added errs ix2 nv2 info hInv hstart h
    simp only [addLeavesGo] at h
    cases hins : indexInsert ix leaf (NodeVec.nextEmptyLeaf nv start) idp with
    | error e =>
      rw [hins] at h
      exact ih _ _ _ _ _ _ _ _ _ _ hInv hstart h
    | ok ixNew =>
      rw [hins] at h
      cases hdp : NodeVec.directPath
          (NodeVec.insertLeaf nv (NodeVec.nextEmptyLeaf nv start) leaf)
          (NodeVec.nextEmptyLeaf nv start) with
      | error e => rw [hdp] at h; exact absurd h (by simp)
      | ok path =>
        rw [hdp] at h
        have hbelow := nextEmptyLeaf_below nv start hstart
        have hempt := nextEmptyLeaf_not_filled nv start
        have hInv2 : UnmergedInv
            (NodeVec.insertLeaf nv (NodeVec.nextEmptyLeaf nv start) leaf) [] :=
          insertLeaf_inv_weak nv _ leaf [] hInv
        have hfill2 : ∀ j, j ≤ NodeVec.nextEmptyLeaf nv start →
            NodeVec.leafFilled
              (NodeVec.insertLeaf nv (NodeVec.nextEmptyLeaf nv start) leaf) j
              = true := by
          intro j hj
          by_cases hji : j = NodeVec.nextEmptyLeaf nv start
          · subst hji
            exact insertLeaf_leafFilled_self nv _ leaf
          · rw [insertLeaf_leafFilled_other nv _ leaf j hji]
            exact hbelow j (by omega)
        have hpathEq : path = directPathN
            (NodeVec.depthK (NodeVec.insertLeaf nv (NodeVec.nextEmptyLeaf nv start) leaf))
            (2 * NodeVec.nextEmptyLeaf nv start) := by
          unfold NodeVec.directPath at hdp
          by_cases hc : 2 * NodeVec.nextEmptyLeaf nv start
              < 2 * NodeVec.totalLeafCount
                  (NodeVec.insertLeaf nv (NodeVec.nextEmptyLeaf nv start) leaf) - 1
          · rw [if_pos hc] at hdp
            exact (Option.some_inj.mp (by simpa using hdp)).symm
          · rw [if_neg hc] at hdp
            exact absurd hdp (by simp)
        have hain : ∀ n ∈ path,
            anc (2 * NodeVec.nextEmptyLeaf nv start) (level n) = n := by
          intro n hn
          rw [hpathEq] at hn
          exact directPathN_anc _ _ n hn
        have hnodup : List.Nodup path := by
          rw [hpathEq]
          exact directPathN_nodup _ _
        have hbound : ∀ n ∈ path, ∀ p,
            NodeVec.getN (NodeVec.insertLeaf nv (NodeVec.nextEmptyLeaf nv start) leaf) n
              = some (some (Node.parent p)) →
            ∀ u ∈ p.unmergedLeaves, u < NodeVec.nextEmptyLeaf nv start := by
          intro n hn p hp u hu
          have hp2 := insertLeaf_parent nv _ leaf n p hp
          obtain ⟨-, hmain⟩ := hInv
          obtain ⟨-, hall⟩ := hmain n p hp2
          obtain ⟨-, hfillu⟩ := hall u hu
          by_contra hc
          have hidxsub := mem_subtree_anc (NodeVec.nextEmptyLeaf nv start) (level n)
          rw [hain n hn] at hidxsub
          rcases hfillu (NodeVec.nextEmptyLeaf nv start) hidxsub.1 hidxsub.2
              (by omega) with hf | hf
          · rw [hempt] at hf
            exact absurd hf (by simp)
          · simp at hf
        have hfold := pushFold_inv (NodeVec.nextEmptyLeaf nv start) path
          (NodeVec.insertLeaf nv (NodeVec.nextEmptyLeaf nv start) leaf)
          hnodup hain hInv2 hfill2 hbound
        apply ih _ _ _ _ _ _ _ _ _ _ hfold.1 _ h
        intro j hj
        rw [hfold.2 j]
        exact hfill2 j (by omega)

/-- `trim` preserves the invariant: it only drops trailing slots, and
every dropped leaf slot is blank. -/
theorem trim_inv (nv : NodeVec) (P : List Nat) (hInv : UnmergedInv nv P) :
    UnmergedInv (NodeVec.trim nv) P := by
  obtain ⟨hpar, hmain⟩ := hInv
  obtain ⟨m, htake, hdropped⟩ := trim_spec nv hpar
  constructor
  · exact trim_parity nv hpar
  · intro n p hp
    rw [htake] at hp
    have hlt : n < m := by
      by_contra hc
      unfold NodeVec.getN at hp
      rw [List.get?_eq_none.mpr (by
        have : List.length (List.take m nv) ≤ m := by
          rw [List.length_take]
          omega
        omega)] at hp
      simp at hp
    have hp2 : NodeVec.getN nv n = some (some (Node.parent p)) := by
      unfold NodeVec.getN at hp ⊢
      rw [List.get?_take (by omega)] at hp
      exact hp
    obtain ⟨hpw, hall⟩ := hmain n p hp2
    refine ⟨hpw, ?_⟩
    intro u hu
    obtain ⟨hanc, hfillu⟩ := hall u hu
    refine ⟨hanc, ?_⟩
    intro j h1 h2 h3
    rcases hfillu j h1 h2 h3 with hf | hf
    · left
      unfold NodeVec.leafFilled NodeVec.getN at hf ⊢
      rw [htake]
      cases hg : List.get? nv (2 * j) with
      | none =>
        rw [hg] at hf
        simp at hf
      | some o =>
        cases o with
        | none => rw [hg] at hf; simp at hf
        | some node =>
          have hjlt : 2 * j < List.length nv := getN_some_lt nv (2 * j) _ hg
          have hjm : 2 * j < m := by
            by_contra hc
            have := hdropped (2 * j) (by omega) hjlt (by omega)
            rw [this] at hg
            have : (none : Option Node) = some node := Option.some_inj.mp hg
            simp at this
          rw [List.get?_take hjm, hg]
    · exact Or.inr hf

theorem updateHashes_nodes (H : List Nat → List Nat) (t : TreeKemPublic)
    (u : List Nat) : (updateHashes H t u).nodes = t.nodes := rfl

/-- `add_leaves_internal` preserves the invariant. -/
theorem addLeavesInternal_inv (idp : IdentityProvider) (t : TreeKemPublic)
    (adds : List LeafNode) (t1 : TreeKemPublic) (info : AddedLeavesInfo)
    (h : addLeavesInternal idp t adds = Except.ok (t1, info))
    (hInv : UnmergedInv t.nodes []) : UnmergedInv t1.nodes [] := by
  unfold addLeavesInternal at h
  cases hg : addLeavesGo idp adds 0 t.index t.nodes 0 [] [] [] with
  | error e => rw [hg] at h; exact absurd h (by simp)
  | ok res =>
    obtain ⟨ix, nv, info2⟩ := res
    rw [hg] at h
    simp only [Except.ok.injEq, Prod.mk.injEq] at h
    have hnv := addLeavesGo_inv idp adds 0 t.index t.nodes 0 [] [] [] ix nv info2
      hInv (by intro j hj; omega) hg
    rw [← h.1]
    exact hnv

/-- `add_leaves` preserves the invariant on success. -/
theorem addLeaves_inv (H : List Nat → List Nat) (idp : IdentityProvider)
    (t : TreeKemPublic) (leaves : List LeafNode) (t2 : TreeKemPublic)
    (idxs : List Nat)
    (h : addLeaves H idp t leaves = (t2, Except.ok idxs))
    (hInv : UnmergedInv t.nodes []) : UnmergedInv t2.nodes [] := by
  unfold addLeaves at h
  cases hg : addLeavesInternal idp t leaves with
  | error res =>
    simp only [hg] at h
    have h3 := congrArg (fun x => x.2) h
    simp at h3
  | ok res =>
    obtain ⟨t1, info⟩ := res
    simp only [hg] at h
    have hInv1 := addLeavesInternal_inv idp t leaves t1 info hg hInv
    cases hl : info.errors.getLast? with
    | some e =>
      simp only [hl] at h
      have h3 := congrArg (fun x => x.2) h
      simp at h3
    | none =>
      simp only [hl] at h
      have h1 := congrArg (fun x => x.1) h
      simp only at h1
      rw [← h1, updateHashes_nodes]
      exact hInv1

/-- `rekey_leaf` preserves the invariant on success. -/
theorem rekeyLeaf_inv (idp : IdentityProvider) (t : TreeKemPublic) (i : Nat)
    (leaf : LeafNode) (t2 : TreeKemPublic)
    (h : rekeyLeaf idp t i leaf = Except.ok t2)
    (hInv : UnmergedInv t.nodes []) : UnmergedInv t2.nodes [] := by
  unfold rekeyLeaf at h
  cases hb : NodeVec.borrowAsLeaf t.nodes i with
  | error e => simp only [hb] at h; exact absurd h (by simp)
  | ok existing =>
    simp only [hb] at h
    cases hi : idp.identity existing.signingIdentity with
    | none => simp only [hi] at h; exact absurd h (by simp)
    | some idBytes =>
      simp only [hi] at h
      cases hx : indexInsert (indexRemove t.index existing idBytes) leaf i idp with
      | error e => simp only [hx] at h; exact absurd h (by simp)
      | ok ix2 =>
        simp only [hx] at h
        simp only [Except.ok.injEq] at h
        rw [← h]
        exact setLeafOverLeaf_inv t.nodes i existing leaf []
          (borrowAsLeaf_filled t.nodes i existing hb) hInv

/-- The parent-hash rewrite fold preserves the invariant. -/
theorem updatePH_fold_inv (H : List Nat → List Nat) :
    ∀ (l : List Nat) (acc : NodeVec × List Nat) (P : List Nat),
      UnmergedInv acc.1 P →
      UnmergedInv
        ((l.foldl
          (fun acc n =>
            match NodeVec.borrowAsParentOpt acc.1 n with
            | some p => (setParentHash acc.1 n acc.2, H (p.publicKey :: acc.2))
            | none => acc) acc).1) P := by
  intro l
  induction l with
  | nil => intro acc P hInv; exact hInv
  | cons n rest ih =>
    intro acc P hInv
    simp only [List.foldl_cons]
    apply ih
    cases hb : NodeVec.borrowAsParentOpt acc.1 n with
    | none => simpa [hb] using hInv
    | some p =>
      simp only [hb]
      exact setParentHash_inv acc.1 n acc.2 P hInv

/-- `update_parent_hashes` preserves the invariant on success. -/
theorem updateParentHashes_inv (H : List Nat → List Nat) (t : TreeKemPublic)
    (sender : Nat) (leaf : LeafNode) (t2 : TreeKemPublic) (P : List Nat)
    (h : updateParentHashes H t sender leaf = Except.ok t2)
    (hInv : UnmergedInv t.nodes P) : UnmergedInv t2.nodes P := by
  unfold updateParentHashes at h
  cases hd : NodeVec.directPath t.nodes sender with
  | error e => simp only [hd] at h; exact absurd h (by simp)
  | ok path =>
    simp only [hd] at h
    have hfold := updatePH_fold_inv H path.reverse (t.nodes, ([] : List Nat)) P hInv
    cases hsrc : leaf.source with
    | commit ph =>
      simp only [hsrc] at h
      by_cases hph : ph = (path.reverse.foldl
          (fun acc n =>
            match NodeVec.borrowAsParentOpt acc.1 n with
            | some p => (setParentHash acc.1 n acc.2, H (p.publicKey :: acc.2))
            | none => acc) (t.nodes, ([] : List Nat))).2
      · rw [if_pos hph] at h
        simp only [Except.ok.injEq] at h
        rw [← h]
        exact hfold
      · rw [if_neg hph] at h
        exact absurd h (by simp)
    | keyPackage =>
      simp only [hsrc] at h
      simp only [Except.ok.injEq] at h
      rw [← h]
      exact hfold
    | update =>
      simp only [hsrc] at h
      simp only [Except.ok.injEq] at h
      rw [← h]
      exact hfold

/-- The `update_node` fold of `apply_update_path` preserves the
invariant. -/
theorem foldlM_updateNode_inv :
    ∀ (items : List (Option Nat × Nat)) (nv nv2 : NodeVec) (P : List Nat),
      UnmergedInv nv P →
      items.foldlM
        (fun nv ed =>
          match ed.1 with
          | none => Except.ok nv
          | some pk => NodeVec.updateNode nv pk ed.2) nv = Except.ok nv2 →
      UnmergedInv nv2 P := by
  intro items
  induction items with
  | nil =>
    intro nv nv2 P hInv h
    simp only [List.foldlM_nil] at h
    have : nv = nv2 := by simpa [pure, Except.pure] using h
    rw [← this]
    exact hInv
  | cons ed rest ih =>
    intro nv nv2 P hInv h
    simp only [List.foldlM_cons] at h
    cases hed : ed.1 with
    | none =>
      simp only [hed] at h
      simp only [pure, Except.pure, bind, Except.bind] at h
      exact ih nv nv2 P hInv h
    | some pk =>
      simp only [hed] at h
      simp only [bind, Except.bind] at h
      cases hu : NodeVec.updateNode nv pk ed.2 with
      | error e => simp only [hu] at h; exact absurd h (by simp)
      | ok nvb =>
        simp only [hu] at h
        exact ih nvb nv2 P (updateNode_inv nv pk ed.2 nvb P hu hInv) h

/-- `apply_update_path` preserves the invariant on success. -/
theorem applyUpdatePath_inv (H : List Nat → List Nat)
    (idp : IdentityProvider) (t : TreeKemPublic) (sender : Nat)
    (up : ValidatedUpdatePath) (t2 : TreeKemPublic)
    (h : applyUpdatePath H idp t sender up = Except.ok t2)
    (hInv : UnmergedInv t.nodes []) : UnmergedInv t2.nodes [] := by
  unfold applyUpdatePath at h
  cases hb : NodeVec.borrowAsLeaf t.nodes sender with
  | error e => simp only [hb] at h; exact absurd h (by simp)
  | ok existing =>
    simp only [hb] at h
    cases hi : idp.identity existing.signingIdentity with
    | none => simp only [hi] at h; exact absurd h (by simp)
    | some origId =>
      simp only [hi] at h
      have hInv1 : UnmergedInv
          (List.set t.nodes (2 * sender) (some (Node.leaf up.leafNode))) [] :=
        setLeafOverLeaf_inv t.nodes sender existing up.leafNode []
          (borrowAsLeaf_filled t.nodes sender existing hb) hInv
      cases hd : NodeVec.directPath
          (List.set t.nodes (2 * sender) (some (Node.leaf up.leafNode))) sender with
      | error e => simp only [hd] at h; exact absurd h (by simp)
      | ok path =>
        simp only [hd] at h
        cases hf : (up.nodes.zip path).foldlM
            (fun nv ed =>
              match ed.1 with
              | none => Except.ok nv
              | some pk => NodeVec.updateNode nv pk ed.2)
            (List.set t.nodes (2 * sender) (some (Node.leaf up.leafNode))) with
        | error e => simp only [hf] at h; exact absurd h (by simp)
        | ok nodes2 =>
          simp only [hf] at h
          cases hx : indexInsert (indexRemove t.index existing origId)
              up.leafNode sender idp with
          | error e => simp only [hx] at h; exact absurd h (by simp)
          | ok ix2 =>
            simp only [hx] at h
            have hInv2 := foldlM_updateNode_inv (up.nodes.zip path) _ nodes2 []
              hInv1 hf
            exact updateParentHashes_inv H
              { index := ix2, nodes := nodes2, treeHashes := t.treeHashes }
              sender up.leafNode t2 [] h hInv2

/-- `batch_edit` preserves the invariant on success: the staged update
blanks introduced by the staging phase are all discharged by the commit
phase, and every other phase preserves the invariant step by step. -/
theorem batchEdit_inv (H : List Nat → List Nat) (idp : IdentityProvider)
    (filter : Bool) (t : TreeKemPublic) (bundle : ProposalBundle)
    (t2 : TreeKemPublic) (bundle2 : ProposalBundle) (out : BatchEditOutput)
    (h : batchEdit H idp filter t bundle = (t2, bundle2, Except.ok out))
    (hInv : UnmergedInv t.nodes []) : UnmergedInv t2.nodes [] := by
  revert h
  unfold batchEdit
  split
  · intro h
    have h3 := congrArg (fun x => x.2.2) h
    simp at h3
  · rename_i ix1 nv1 removed badR hr
    dsimp only
    split
    · intro h
      have h3 := congrArg (fun x => x.2.2) h
      simp at h3
    · rename_i ix2 nv2 staged badU hu
      split
      · rename_i hLoop
        exact absurd hLoop (maxUpdateLoop_total idp filter staged ix2 _ []
          List.nodup_nil (by intro i hi; simp at hi) (by simp))
      · intro h
        have h3 := congrArg (fun x => x.2.2) h
        simp at h3
      · rename_i broken ixOut hLoop
        split
        · intro h
          have h3 := congrArg (fun x => x.2.2) h
          simp at h3
        · rename_i nv3 updated hc
          split
          · intro h
            have h3 := congrArg (fun x => x.2.2) h
            simp at h3
          · rename_i ix4 nv4 info ha
            split
            · intro h
              have h3 := congrArg (fun x => x.2.2) h
              simp at h3
            · rename_i adds4 hf
              intro h
              have hInv1 := removesGo_inv idp filter _ 0 t.index t.nodes [] []
                ix1 nv1 removed badR [] hInv hr
              have hInv1b : UnmergedInv nv1
                  (([] : List (Nat × LeafNode × LeafNode)).map (fun s => s.1)
                    ++ []) := by
                simpa using hInv1
              have hInv2 := updatesStageGo_inv idp filter _ 0 ix1 nv1 [] []
                ix2 nv2 staged badU [] hInv1b hu
              have hInv3 := commitUpdatesGo_inv staged 0 _ nv2 [] nv3 updated []
                hInv2 hc
              have hInv4 := addLeavesGo_inv idp _ 0 ixOut nv3 0 [] [] []
                ix4 nv4 info hInv3 (by intro j hj; omega) ha
              have h1 := congrArg (fun x => x.1.nodes) h
              simp only [updateHashes_nodes] at h1
              rw [← h1]
              exact trim_inv nv4 [] hInv4

/-- Every tree reachable by successful operations satisfies the full
invariant. -/
theorem reachable_inv (t : TreeKemPublic) (h : Reachable t) :
    UnmergedInv t.nodes [] := by
  induction h with
  | new =>
    constructor
    · right; rfl
    · intro n p hp
      unfold NodeVec.getN at hp
      simp [TreeKemPublic.new] at hp
  | addLeaves H idp t leafNodes t2 idxs hr hstep ih =>
    exact addLeaves_inv H idp t leafNodes t2 idxs hstep ih
  | batchEdit H idp filter t bundle t2 bundle2 out hr hstep ih =>
    exact batchEdit_inv H idp filter t bundle t2 bundle2 out hstep ih
  | applyUpdatePath H idp t sender up t2 hr hstep ih =>
    exact applyUpdatePath_inv H idp t sender up t2 hstep ih
  | rekeyLeaf idp t i leaf t2 hr hstep ih =>
    exact rekeyLeaf_inv idp t i leaf t2 hstep ih

/-- C2: in every tree produced by a sequence of successful operations
(`add_leaves`, `batch_edit`, `apply_update_path`, `rekey_leaf` from the
fresh tree), every element `u` of a stored parent's `unmerged_leaves`
is a leaf index of that parent's subtree
(`leftmost_leaf(p) ≤ u ≤ rightmost_leaf(p)`, here
`subtreeStart n ≤ u < subtreeStart n + 2^level n`), and the list is
strictly increasing — in particular each append performed for the
ancestors of a newly added leaf maintains sort order. -/
theorem reachable_unmerged_invariant (t : TreeKemPublic) (h : Reachable t) :
    ∀ n p, NodeVec.getN t.nodes n = some (some (Node.parent p)) →
      List.Pairwise (fun a b => a < b) p.unmergedLeaves
      ∧ ∀ u ∈ p.unmergedLeaves,
          subtreeStart n ≤ u ∧ u < subtreeStart n + 2 ^ level n := by
  have hInv := reachable_inv t h
  intro n p hp
  obtain ⟨hpw, hall⟩ := hInv.2 n p hp
  refine ⟨hpw, ?_⟩
  intro u hu
  have hanc := (hall u hu).1
  have hsub := mem_subtree_anc u (level n)
  rw [hanc] at hsub
  exact hsub

/-- Witness for C2 at a concrete reachable tree (one `add_leaves` step
from the fresh tree). -/
theorem reachable_unmerged_invariant_witness :
    Reachable oneLeafTree ∧
    (∀ n p, NodeVec.getN oneLeafTree.nodes n = some (some (Node.parent p)) →
      List.Pairwise (fun a b => a < b) p.unmergedLeaves
      ∧ ∀ u ∈ p.unmergedLeaves,
          subtreeStart n ≤ u ∧ u < subtreeStart n + 2 ^ level n) :=
  ⟨Reachable.addLeaves id idpT TreeKemPublic.new [mkLeaf 1] oneLeafTree [0]
      Reachable.new rfl,
   reachable_unmerged_invariant oneLeafTree
     (Reachable.addLeaves id idpT TreeKemPublic.new [mkLeaf 1] oneLeafTree [0]
       Reachable.new rfl)⟩

end MlsTree
